import Mathlib

/-!
Verification of the brush-to-mesh geometric pipeline of the pt repository.

The development shallowly embeds, over exact rational arithmetic:

* the `ptc_*` plane clipper of `ptb_map.h` (the C single-header core):
  seed cube, three-phase clip, face loop extraction and winding test;
* the `clip_geometry` / `tb_geometry_create` pipeline (the tb C++
  generation): seed, clip, and the index-remapping compactor;
* the compaction stage of `CreateGeometry(ClippingGeometry*)` (the poelib
  C++ generation), which rewrites only the first two edge indices of a face;
* the per-vertex attribute emission of `tb_model.cpp` (loop sort, winding
  accumulator, rounding, UV projection).

Machine floats are modelled as rationals; all comparisons and divisions in
the source are exact in this model except where noted at the definition.
All definitions are executable, so concrete runs of the pipeline can be
evaluated inside proofs.
-/

set_option maxHeartbeats 1000000

namespace PtClip

/-- The classification epsilon used by every clipper in the repository
(`EPSILON = 0.01f` in `ptc_clip`, `k_epsilon = 0.01f` in `clip_geometry`). -/
def EPS : ℚ := 1 / 100

/-- A 3-component vector (`PTC_REAL [3]` / `float [3]` / `Vector3`). -/
structure Vec3 where
  x : ℚ
  y : ℚ
  z : ℚ
deriving DecidableEq, Repr, Inhabited

/-- `ptc__dot_product` / `vec3_dot_product`. -/
def dot (a b : Vec3) : ℚ :=
  a.x * b.x + a.y * b.y + a.z * b.z

/-- `ptc__lerp` / the three `lerp` calls of `clip_geometry`:
componentwise `(1 - t) * from + t * to`. -/
def lerpV (p q : Vec3) (t : ℚ) : Vec3 :=
  ⟨(1 - t) * p.x + t * q.x, (1 - t) * p.y + t * q.y, (1 - t) * p.z + t * q.z⟩

/-- `ptc__cross_product` of `ptb_map.h`. The body of the C function is
empty, so the result buffer is returned exactly as it was passed in; the
caller's zero-initialised local is never overwritten. -/
def ptcCrossProduct (result _a _b : Vec3) : Vec3 :=
  result

/-- `vec3_cross_product` of `tb_model.cpp` (the reference implementation,
with the standard right-handed cross product). -/
def vec3CrossProduct (a b : Vec3) : Vec3 :=
  ⟨a.y * b.z - a.z * b.y, a.z * b.x - a.x * b.z, a.x * b.y - a.y * b.x⟩

/-- `ptc_plane`: a plane `(n, c)`; a point `p` is on the clipped side when
`n · p - c` is at least `+EPS`. -/
structure Plane where
  normal : Vec3
  c : ℚ
deriving DecidableEq, Repr, Inhabited

/-- `ptc__plane_distance`. -/
def planeDistance (pl : Plane) (p : Vec3) : ℚ :=
  dot pl.normal p - pl.c

/-! ## The mutable B-rep of `ptb_map.h` (`ptc_mesh`)

`ptc_vertex` carries the position, the transient signed distance and
occurrence counter of one clip pass, and the visibility flag
(`is_clipped`).  Capacity fields of the C arrays are dropped: they do not
affect values.  `ptc__add_vertex` and `ptc__add_edge` pass `sizeof ptr`
instead of `sizeof *ptr` to `ptc__zero_memory`, so in C the fields not
assigned explicitly afterwards hold whatever the allocator returned; they
are modelled as zero-initialised here, matching the evident intent and the
sibling implementations (`Clip` sets `isVisible = true` explicitly,
`clip_geometry` value-initialises `clipping_vertex`). -/

structure PtcVertex where
  position : Vec3
  distance : ℚ
  is_clipped : Bool
  occurs : ℕ
deriving DecidableEq, Repr, Inhabited

/-- `ptc_edge`: two vertex indices, two face indices (`-1` is the C
sentinel for an unset face slot, hence `ℤ`), and a visibility flag. -/
structure PtcEdge where
  v0 : ℕ
  v1 : ℕ
  f0 : ℤ
  f1 : ℤ
  is_clipped : Bool
deriving DecidableEq, Repr, Inhabited

/-- `ptc_face`: a growable list of edge indices, a normal, and a
visibility flag (the opaque `userdata` pointer is dropped). -/
structure PtcFace where
  edges : List ℕ
  normal : Vec3
  is_clipped : Bool
deriving DecidableEq, Repr, Inhabited

/-- `ptc_mesh`: the three entity arrays. -/
structure PtcMesh where
  vertices : List PtcVertex
  edges : List PtcEdge
  faces : List PtcFace
deriving DecidableEq, Repr, Inhabited

/-- `ptc__add_vertex`: append a vertex at `position` with the remaining
fields zeroed (see the note on `ptc__zero_memory` above); the new index is
the old count. -/
def ptcAddVertex (m : PtcMesh) (position : Vec3) : PtcMesh :=
  { m with vertices := m.vertices ++ [⟨position, 0, false, 0⟩] }

/-- `ptc__add_edge`: append an edge with vertex pair `(v0, v1)` and both
face slots set to `-1`. -/
def ptcAddEdge (m : PtcMesh) (v0 v1 : ℕ) : PtcMesh :=
  { m with edges := m.edges ++ [⟨v0, v1, -1, -1, false⟩] }

/-- `ptc__add_face`: append a face with the given normal and an empty edge
list. -/
def ptcAddFace (m : PtcMesh) (normal : Vec3) : PtcMesh :=
  { m with faces := m.faces ++ [⟨[], normal, false⟩] }

/-- `ptc__add_face_edge`: append `edge` to the face's edge list and store
the face index in the edge's first free (`-1`) face slot.  A `-1` face
index is ignored.  The C asserts when both slots are taken; within
`ptc_clip` the call sites always pass a freshly created edge whose two
slots are filled by exactly two calls, so the assertion branch is
modelled as leaving the edge unchanged. -/
def ptcAddFaceEdge (m : PtcMesh) (face : ℤ) (edge : ℕ) : PtcMesh :=
  if face < 0 then m
  else
    let fi := face.toNat
    let f := m.faces.getD fi default
    let m1 := { m with faces := m.faces.set fi { f with edges := f.edges ++ [edge] } }
    let e := m1.edges.getD edge default
    if e.f0 = -1 then { m1 with edges := m1.edges.set edge { e with f0 := face } }
    else if e.f1 = -1 then { m1 with edges := m1.edges.set edge { e with f1 := face } }
    else m1

/-- Overwrite the first occurrence of `e` in a list with `r` (the scan of
`ptc__remove_face_edge`, which breaks at the first match). -/
def replaceFirst : List ℕ → ℕ → ℕ → List ℕ
  | [], _, _ => []
  | a :: t, e, r => if a = e then r :: t else a :: replaceFirst t e r

/-- The list update of `ptc__remove_face_edge`: if the last entry is the
removed value, drop it; otherwise overwrite the first occurrence of the
value with the last entry and drop the last entry.  The C decrements the
count even when the value is absent, silently discarding the last entry;
that behaviour is preserved (and an empty list, where the C reads index
`-1`, is left empty). -/
def ptcRemoveList (l : List ℕ) (e : ℕ) : List ℕ :=
  match l.getLast? with
  | none => []
  | some last =>
    if last = e then l.dropLast
    else replaceFirst l.dropLast e last

/-- `ptc__remove_face_edge`: remove `edge` from the face's list with the
swap-remove above and mark the face clipped when its list becomes empty.
A `-1` face index is ignored. -/
def ptcRemoveFaceEdge (m : PtcMesh) (face : ℤ) (edge : ℕ) : PtcMesh :=
  if face < 0 then m
  else
    let fi := face.toNat
    let f := m.faces.getD fi default
    let es := ptcRemoveList f.edges edge
    let clipped := if es.length = 0 then true else f.is_clipped
    { m with faces := m.faces.set fi { f with edges := es, is_clipped := clipped } }

/-- `ptc_init_bounds`: the seed cube between `lo` and `hi`, with the fixed
vertex, edge, and face wiring of the source. -/
def ptcInitBounds (lo hi : Vec3) : PtcMesh where
  vertices :=
    [⟨⟨lo.x, lo.y, lo.z⟩, 0, false, 0⟩, ⟨⟨lo.x, hi.y, lo.z⟩, 0, false, 0⟩,
     ⟨⟨hi.x, hi.y, lo.z⟩, 0, false, 0⟩, ⟨⟨hi.x, lo.y, lo.z⟩, 0, false, 0⟩,
     ⟨⟨lo.x, lo.y, hi.z⟩, 0, false, 0⟩, ⟨⟨lo.x, hi.y, hi.z⟩, 0, false, 0⟩,
     ⟨⟨hi.x, hi.y, hi.z⟩, 0, false, 0⟩, ⟨⟨hi.x, lo.y, hi.z⟩, 0, false, 0⟩]
  edges :=
    [⟨0, 3, 0, 5, false⟩, ⟨1, 2, 0, 4, false⟩, ⟨0, 1, 0, 2, false⟩,
     ⟨2, 3, 0, 3, false⟩, ⟨4, 7, 1, 5, false⟩, ⟨5, 6, 1, 4, false⟩,
     ⟨4, 5, 1, 2, false⟩, ⟨6, 7, 1, 3, false⟩, ⟨0, 4, 5, 2, false⟩,
     ⟨1, 5, 4, 2, false⟩, ⟨3, 7, 5, 3, false⟩, ⟨2, 6, 4, 3, false⟩]
  faces :=
    [⟨[0, 1, 2, 3], ⟨0, 0, -1⟩, false⟩, ⟨[4, 5, 6, 7], ⟨0, 0, 1⟩, false⟩,
     ⟨[2, 6, 8, 9], ⟨-1, 0, 0⟩, false⟩, ⟨[3, 7, 10, 11], ⟨1, 0, 0⟩, false⟩,
     ⟨[1, 5, 9, 11], ⟨0, 1, 0⟩, false⟩, ⟨[0, 4, 8, 10], ⟨0, -1, 0⟩, false⟩]

/-! ## `ptc_clip` phase 1: vertex classification -/

/-- The loop body of step one of `ptc_clip` for one vertex: invisible
vertices are skipped; otherwise the signed distance is stored, the vertex
is marked clipped when the distance is at least `EPS`, and the stored
distance is snapped to `0` when it lies in `[-EPS, EPS)`. -/
def ptcClassifyVertex (pl : Plane) (v : PtcVertex) : PtcVertex :=
  if v.is_clipped then v
  else
    let d := planeDistance pl v.position
    if d ≥ EPS then { v with distance := d, is_clipped := true }
    else if d ≥ -EPS then { v with distance := 0 }
    else { v with distance := d }

/-- `count_total` of step one: the number of visible vertices before the
pass. -/
def ptcCountTotal (m : PtcMesh) : ℕ :=
  (m.vertices.filter fun v => !v.is_clipped).length

/-- `count_clipped` of step one: the number of visible vertices whose
distance to the plane is at least `EPS`. -/
def ptcCountClipped (m : PtcMesh) (pl : Plane) : ℕ :=
  (m.vertices.filter fun v => !v.is_clipped && planeDistance pl v.position ≥ EPS).length

/-- Step one of `ptc_clip` applied to the whole vertex array. -/
def ptcPhase1 (m : PtcMesh) (pl : Plane) : PtcMesh :=
  { m with vertices := m.vertices.map (ptcClassifyVertex pl) }

/-! ## `ptc_clip` phase 2: edge processing -/

/-- The loop body of step two of `ptc_clip` for edge index `ei`:
a visible edge with two clipped endpoints is marked clipped and removed
from both adjacent faces; with two visible endpoints it is untouched;
with one clipped endpoint it is split at `t = d0 / (d0 - d1)` (stored,
possibly snapped, distances in stored endpoint order), a new visible
vertex is appended at the interpolated position, and the clipped
endpoint's slot is overwritten with the new vertex index. -/
def ptcClipEdge (m : PtcMesh) (ei : ℕ) : PtcMesh :=
  let e := m.edges.getD ei default
  if e.is_clipped then m
  else
    let v0 := m.vertices.getD e.v0 default
    let v1 := m.vertices.getD e.v1 default
    if v0.is_clipped && v1.is_clipped then
      let m1 := { m with edges := m.edges.set ei { e with is_clipped := true } }
      let m2 := ptcRemoveFaceEdge m1 e.f0 ei
      ptcRemoveFaceEdge m2 e.f1 ei
    else if !v0.is_clipped && !v1.is_clipped then m
    else
      let d0 := v0.distance
      let d1 := v1.distance
      let t := d0 / (d0 - d1)
      let midpoint := lerpV v0.position v1.position t
      let newVertex := m.vertices.length
      let m1 := ptcAddVertex m midpoint
      { m1 with
        edges := m1.edges.set ei
          (if v0.is_clipped then { e with v0 := newVertex } else { e with v1 := newVertex }) }

/-- Step two of `ptc_clip`: the edge array does not grow during the pass,
so the C loop is a fold over the initial index range. -/
def ptcPhase2 (m : PtcMesh) : PtcMesh :=
  (List.range m.edges.length).foldl ptcClipEdge m

/-! ## `ptc_clip` phase 3: face closure and cap face -/

/-- One iteration of the occurrence-zeroing loop of step three: zero the
occurrence counters of both endpoints of edge `j`. -/
def ptcZeroStep (acc : PtcMesh) (j : ℕ) : PtcMesh :=
  let e := acc.edges.getD j default
  let acc1 := { acc with
    vertices := acc.vertices.set e.v0 { acc.vertices.getD e.v0 default with occurs := 0 } }
  { acc1 with
    vertices := acc1.vertices.set e.v1 { acc1.vertices.getD e.v1 default with occurs := 0 } }

/-- The first loop of step three for one face: zero the occurrence counter
of every vertex referenced by the face's edges. -/
def ptcZeroOccurs (m : PtcMesh) (f : PtcFace) : PtcMesh :=
  f.edges.foldl ptcZeroStep m

/-- One iteration of the occurrence-counting loop of step three:
increment the occurrence counters of both endpoints of edge `j`. -/
def ptcCountStep (acc : PtcMesh) (j : ℕ) : PtcMesh :=
  let e := acc.edges.getD j default
  let w0 := acc.vertices.getD e.v0 default
  let acc1 := { acc with vertices := acc.vertices.set e.v0 { w0 with occurs := w0.occurs + 1 } }
  let w1 := acc1.vertices.getD e.v1 default
  { acc1 with vertices := acc1.vertices.set e.v1 { w1 with occurs := w1.occurs + 1 } }

/-- The second loop of step three for one face: increment the occurrence
counter of both endpoints of every edge of the face. -/
def ptcCountOccurs (m : PtcMesh) (f : PtcFace) : PtcMesh :=
  f.edges.foldl ptcCountStep m

/-- One edge of the endpoint scan of step three.  The C computes a single
candidate (`endpoint`), where a second occurrence-one endpoint on the same
edge overwrites the first, and stores it in the first free slot of a
two-slot array; a third recorded endpoint trips `PTC_ASSERT`, modelled by
`none`. -/
def ptcScanStep (m : PtcMesh) (acc : Option (List ℕ)) (j : ℕ) : Option (List ℕ) :=
  match acc with
  | none => none
  | some slots =>
    let e := m.edges.getD j default
    let cand0 : Option ℕ :=
      if (m.vertices.getD e.v0 default).occurs = 1 then some e.v0 else none
    let cand : Option ℕ :=
      if (m.vertices.getD e.v1 default).occurs = 1 then some e.v1 else cand0
    match cand with
    | none => some slots
    | some p => if slots.length < 2 then some (slots ++ [p]) else none

/-- The endpoint scan of step three for one face. -/
def ptcFindEndpoints (m : PtcMesh) (f : PtcFace) : Option (List ℕ) :=
  f.edges.foldl (ptcScanStep m) (some [])

/-- The loop body of step three of `ptc_clip` for face index `fi`:
invisible faces are skipped; otherwise occurrences are recomputed, the
endpoint scan runs, and when both endpoint slots were filled a new edge
joining them is appended and wired into this face and the cap face. -/
def ptcProcessFace (capIdx : ℕ) (m : PtcMesh) (fi : ℕ) : Option PtcMesh :=
  let f := m.faces.getD fi default
  if f.is_clipped then some m
  else
    let m1 := ptcZeroOccurs m f
    let m2 := ptcCountOccurs m1 f
    match ptcFindEndpoints m2 f with
    | none => none
    | some slots =>
      match slots with
      | [p, q] =>
        let ei := m2.edges.length
        let m3 := ptcAddEdge m2 p q
        let m4 := ptcAddFaceEdge m3 (fi : ℤ) ei
        some (ptcAddFaceEdge m4 (capIdx : ℤ) ei)
      | _ => some m2

/-- `ptc_clip`: classify vertices, return early when nothing or everything
was clipped, process edges, then append the cap face (normal of the
clipping plane, empty edge list) and run the face-closure loop over every
face index, the cap included (it is appended before the loop in the C).
`none` models a `PTC_ASSERT` failure in the endpoint scan. -/
def ptcClip (m : PtcMesh) (pl : Plane) : Option PtcMesh :=
  let total := ptcCountTotal m
  let clipped := ptcCountClipped m pl
  let m1 := ptcPhase1 m pl
  if clipped = 0 ∨ clipped = total then some m1
  else
    let m2 := ptcPhase2 m1
    let capIdx := m2.faces.length
    let m3 := ptcAddFace m2 pl.normal
    (List.range m3.faces.length).foldl
      (fun acc fi => acc.bind fun mm => ptcProcessFace capIdx mm fi) (some m3)

/-- A sequence of `ptc_clip` calls, one per plane, failing as soon as one
call asserts. -/
def ptcClipAll (m : PtcMesh) (pls : List Plane) : Option PtcMesh :=
  pls.foldl (fun acc pl => acc.bind fun mm => ptcClip mm pl) (some m)

/-! ## `ptc_get_vertices`: loop extraction and the winding test -/

/-- `ptc_winding`. -/
inductive PtcWinding where
  | any
  | cw
  | ccw
deriving DecidableEq, Repr, Inhabited

/-- The inner scan of `ptc_get_vertices`: the first edge of the face
which has the current head `cur` as one endpoint and whose other endpoint
is not the previous loop vertex `prev`; the value is that other
endpoint. -/
def ptcFindNext (m : PtcMesh) (f : PtcFace) (cur prev : ℕ) : Option ℕ :=
  f.edges.findSome? fun j =>
    let e := m.edges.getD j default
    if e.v0 = cur ∧ e.v1 ≠ prev then some e.v1
    else if e.v1 = cur ∧ e.v0 ≠ prev then some e.v0
    else none

/-- The loop-population recursion of `ptc_get_vertices`: one output slot
per unit of fuel.  When no edge matches, the C leaves the output slot
uninitialised; that unreachable-for-closed-loops case is modelled by 0. -/
def ptcWalkAux (m : PtcMesh) (f : PtcFace) : ℕ → ℕ → ℕ → List ℕ
  | 0, _, _ => []
  | fuel + 1, prev, cur =>
    let nxt := (ptcFindNext m f cur prev).getD 0
    nxt :: ptcWalkAux m f fuel cur nxt

/-- The ordering stage of `ptc_get_vertices`: the two endpoints of the
face's first edge in stored order, then `edge_count - 1` scan steps.  The
output has `edge_count + 1` entries, the return value of the C
function. -/
def ptcSortLoop (m : PtcMesh) (fi : ℕ) : List ℕ :=
  let f := m.faces.getD fi default
  let e0 := m.edges.getD (f.edges.getD 0 0) default
  e0.v0 :: e0.v1 :: ptcWalkAux m f (f.edges.length - 1) e0.v0 e0.v1

/-- Componentwise vector addition (the three accumulator additions). -/
def addV (a b : Vec3) : Vec3 :=
  ⟨a.x + b.x, a.y + b.y, a.z + b.z⟩

/-- The winding accumulator loop of `ptc_get_vertices`: for every pair of
consecutive loop entries, a zero-initialised local is passed through
`ptc__cross_product` (whose body is empty, so the local stays zero) and
added to the accumulator. -/
def ptcWindingAccum (m : PtcMesh) (loop : List ℕ) : Vec3 :=
  (loop.zip loop.tail).foldl
    (fun acc pq =>
      addV acc (ptcCrossProduct ⟨0, 0, 0⟩
        (m.vertices.getD pq.1 default).position (m.vertices.getD pq.2 default).position))
    ⟨0, 0, 0⟩

/-- The winding accumulator of `tb_model.cpp` (the reference): the same
loop with the real `vec3_cross_product`, summing the cross products of
consecutive loop positions. -/
def tbWindingAccum (positions : List Vec3) : Vec3 :=
  (positions.zip positions.tail).foldl
    (fun acc pq => addV acc (vec3CrossProduct pq.1 pq.2)) ⟨0, 0, 0⟩

/-- The winding decision of `ptc_get_vertices`: `CCW` when the dot product
of the face normal with the (normalised) accumulator is positive.  The C
divides the accumulator by its Euclidean length first; a square root has
no exact rational value, and dividing by a positive length never changes
the sign of the dot product, so the test is embedded on the raw
accumulator.  When the accumulator is zero the C computes `0/0 = NaN`,
every comparison with which is false, exactly as `0 < 0` is false here. -/
def ptcCurrentWinding (m : PtcMesh) (fi : ℕ) (loop : List ℕ) : PtcWinding :=
  let f := m.faces.getD fi default
  if 0 < dot f.normal (ptcWindingAccum m loop) then PtcWinding.ccw else PtcWinding.cw

/-- `ptc_get_vertices`: the ordered loop, reversed in place (the C swap
loop reverses all `edge_count + 1` slots) when a target winding is
requested and differs from the computed current winding. -/
def ptcGetVertices (m : PtcMesh) (fi : ℕ) (target : PtcWinding) : List ℕ :=
  let loop := ptcSortLoop m fi
  if target = PtcWinding.any then loop
  else if target ≠ ptcCurrentWinding m fi loop then loop.reverse
  else loop

/-! ## The tb generation (`tb_geometry.cpp`, unnamed part 002)

`clipping_vertex`, `clipping_edge`, `clipping_face`, `clipping_geometry`
and the `clip_geometry` / `tb_geometry_create` pipeline.  `face_info`
carries the texture attributes; only the two used rows of the 4x4
`world_to_uv_matrix` are modelled (rows 2 and 3 are constants never read
afterwards). -/

/-- `face_info` (with `string_handle` as an opaque natural). -/
structure FaceInfo where
  texture : ℕ
  uRow : Vec3
  vRow : Vec3
  uvScale0 : ℚ
  uvScale1 : ℚ
  uvOffset0 : ℚ
  uvOffset1 : ℚ
  normal : Vec3
  tangent : Vec3
  point : Vec3
deriving DecidableEq, Repr, Inhabited

/-- `clipping_vertex`. -/
structure CVertex where
  position : Vec3
  distance : ℚ
  occurs : ℕ
  is_visible : Bool
deriving DecidableEq, Repr, Inhabited

/-- `clipping_edge`.  The `-1` member initialisers never survive
construction (the seed and the closure edges set all four indices), so
the indices are naturals; the one place the C can store `-1` is noted at
`tbProcessFace`. -/
structure CEdge where
  v0 : ℕ
  v1 : ℕ
  f0 : ℕ
  f1 : ℕ
  is_visible : Bool
deriving DecidableEq, Repr, Inhabited

/-- `clipping_face`. -/
structure CFace where
  edge_indices : List ℕ
  is_visible : Bool
  info : FaceInfo
deriving DecidableEq, Repr, Inhabited

/-- `clipping_geometry`. -/
structure ClippingGeometry where
  faces : List CFace
  vertices : List CVertex
  edges : List CEdge
deriving DecidableEq, Repr, Inhabited

/-- `remove_from_list`: if the last entry equals the value, shrink by one;
otherwise remove the first occurrence, shifting the tail down; a missing
value leaves the list unchanged. -/
def removeFromList (l : List ℕ) (v : ℕ) : List ℕ :=
  if l.getLast? = some v then l.dropLast else l.erase v

/-- `get_geometry_from_bounds`: the seed cube of the tb pipeline; same
wiring as `ptc_init_bounds`, with zero-initialised `face_info` on the six
faces. -/
def tbGeometryFromBounds (center halfExtents : Vec3) : ClippingGeometry :=
  let lo : Vec3 := ⟨center.x - halfExtents.x, center.y - halfExtents.y, center.z - halfExtents.z⟩
  let hi : Vec3 := ⟨center.x + halfExtents.x, center.y + halfExtents.y, center.z + halfExtents.z⟩
  { vertices :=
      [⟨⟨lo.x, lo.y, lo.z⟩, 0, 0, true⟩, ⟨⟨lo.x, hi.y, lo.z⟩, 0, 0, true⟩,
       ⟨⟨hi.x, hi.y, lo.z⟩, 0, 0, true⟩, ⟨⟨hi.x, lo.y, lo.z⟩, 0, 0, true⟩,
       ⟨⟨lo.x, lo.y, hi.z⟩, 0, 0, true⟩, ⟨⟨lo.x, hi.y, hi.z⟩, 0, 0, true⟩,
       ⟨⟨hi.x, hi.y, hi.z⟩, 0, 0, true⟩, ⟨⟨hi.x, lo.y, hi.z⟩, 0, 0, true⟩]
    edges :=
      [⟨0, 3, 0, 5, true⟩, ⟨1, 2, 0, 4, true⟩, ⟨0, 1, 0, 2, true⟩,
       ⟨2, 3, 0, 3, true⟩, ⟨4, 7, 1, 5, true⟩, ⟨5, 6, 1, 4, true⟩,
       ⟨4, 5, 1, 2, true⟩, ⟨6, 7, 1, 3, true⟩, ⟨0, 4, 5, 2, true⟩,
       ⟨1, 5, 4, 2, true⟩, ⟨3, 7, 5, 3, true⟩, ⟨2, 6, 4, 3, true⟩]
    faces :=
      [⟨[0, 1, 2, 3], true, default⟩, ⟨[4, 5, 6, 7], true, default⟩,
       ⟨[2, 6, 8, 9], true, default⟩, ⟨[3, 7, 10, 11], true, default⟩,
       ⟨[1, 5, 9, 11], true, default⟩, ⟨[0, 4, 8, 10], true, default⟩] }

/-- `clip_result`. -/
inductive ClipResult where
  | noClipping
  | totalClipping
  | partialClipping
deriving DecidableEq, Repr, Inhabited

/-- Step one of `clip_geometry` for one vertex (the plane constant
`c = n . point` is recomputed per vertex in the C; it is the same pure
value each time). -/
def tbClassifyVertex (info : FaceInfo) (v : CVertex) : CVertex :=
  if !v.is_visible then v
  else
    let c := dot info.normal info.point
    let d := dot info.normal v.position - c
    if d ≥ EPS then { v with distance := d, is_visible := false }
    else if d ≥ -EPS then { v with distance := 0 }
    else { v with distance := d }

/-- `count_total` of `clip_geometry`. -/
def tbCountTotal (g : ClippingGeometry) : ℕ :=
  (g.vertices.filter fun v => v.is_visible).length

/-- `count_clipped` of `clip_geometry`. -/
def tbCountClipped (g : ClippingGeometry) (info : FaceInfo) : ℕ :=
  (g.vertices.filter fun v =>
    v.is_visible && dot info.normal v.position - dot info.normal info.point ≥ EPS).length

/-- Step one of `clip_geometry` over the vertex array. -/
def tbPhase1 (g : ClippingGeometry) (info : FaceInfo) : ClippingGeometry :=
  { g with vertices := g.vertices.map (tbClassifyVertex info) }

/-- Removing a culled edge from one adjacent face (the `ARR_LEN` loop
body of step two), marking the face invisible when its list empties. -/
def tbRemoveEdgeFromFace (g : ClippingGeometry) (fi : ℕ) (ei : ℕ) : ClippingGeometry :=
  let f := g.faces.getD fi default
  let es := removeFromList f.edge_indices ei
  let vis := if es.length = 0 then false else f.is_visible
  { g with faces := g.faces.set fi { f with edge_indices := es, is_visible := vis } }

/-- The loop body of step two of `clip_geometry` for edge index `ei`. -/
def tbClipEdge (g : ClippingGeometry) (ei : ℕ) : ClippingGeometry :=
  let e := g.edges.getD ei default
  if !e.is_visible then g
  else
    let v0 := g.vertices.getD e.v0 default
    let v1 := g.vertices.getD e.v1 default
    if !v0.is_visible && !v1.is_visible then
      let g1 := { g with edges := g.edges.set ei { e with is_visible := false } }
      let g2 := tbRemoveEdgeFromFace g1 e.f0 ei
      tbRemoveEdgeFromFace g2 e.f1 ei
    else if v0.is_visible && v1.is_visible then g
    else
      let t := v0.distance / (v0.distance - v1.distance)
      let idx := g.vertices.length
      let newV : CVertex := ⟨lerpV v0.position v1.position t, 0, 0, true⟩
      let g1 := { g with
        edges := g.edges.set ei
          (if v0.is_visible then { e with v1 := idx } else { e with v0 := idx }) }
      { g1 with vertices := g1.vertices ++ [newV] }

/-- One iteration of the occurrence-zeroing loop of step three of
`clip_geometry`. -/
def tbZeroStep (acc : ClippingGeometry) (j : ℕ) : ClippingGeometry :=
  let e := acc.edges.getD j default
  let acc1 := { acc with
    vertices := acc.vertices.set e.v0 { acc.vertices.getD e.v0 default with occurs := 0 } }
  { acc1 with
    vertices := acc1.vertices.set e.v1 { acc1.vertices.getD e.v1 default with occurs := 0 } }

/-- The occurrence-zeroing loop of step three of `clip_geometry`. -/
def tbZeroOccurs (g : ClippingGeometry) (f : CFace) : ClippingGeometry :=
  f.edge_indices.foldl tbZeroStep g

/-- One iteration of the occurrence-counting loop of step three of
`clip_geometry`. -/
def tbCountStep (acc : ClippingGeometry) (j : ℕ) : ClippingGeometry :=
  let e := acc.edges.getD j default
  let w0 := acc.vertices.getD e.v0 default
  let acc1 := { acc with vertices := acc.vertices.set e.v0 { w0 with occurs := w0.occurs + 1 } }
  let w1 := acc1.vertices.getD e.v1 default
  { acc1 with vertices := acc1.vertices.set e.v1 { w1 with occurs := w1.occurs + 1 } }

/-- The occurrence-counting loop of step three of `clip_geometry`. -/
def tbCountOccurs (g : ClippingGeometry) (f : CFace) : ClippingGeometry :=
  f.edge_indices.foldl tbCountStep g

/-- One endpoint check of the `start` / `final` scan of `clip_geometry`:
a vertex occurring exactly once is recorded in `start`, then in `final`,
and its occurrence counter is bumped so it is not recorded twice; further
endpoints are silently ignored (the tb generation has no assertion
here). -/
def tbSelectEndpoint (verts : List CVertex) (start fin : Option ℕ) (vi : ℕ) :
    List CVertex × Option ℕ × Option ℕ :=
  let v := verts.getD vi default
  if v.occurs = 1 then
    match start with
    | none => (verts.set vi { v with occurs := v.occurs + 1 }, some vi, fin)
    | some _ =>
      match fin with
      | none => (verts.set vi { v with occurs := v.occurs + 1 }, start, some vi)
      | some _ => (verts, start, fin)
  else (verts, start, fin)

/-- The full endpoint scan of step three of `clip_geometry` over one
face's edges, checking endpoint 0 then endpoint 1 of each edge. -/
def tbScanEndpoints (g : ClippingGeometry) (f : CFace) :
    List CVertex × Option ℕ × Option ℕ :=
  f.edge_indices.foldl
    (fun st j =>
      let e := g.edges.getD j default
      let st1 := tbSelectEndpoint st.1 st.2.1 st.2.2 e.v0
      tbSelectEndpoint st1.1 st1.2.1 st1.2.2 e.v1)
    (g.vertices, none, none)

/-- The loop body of step three of `clip_geometry` for face index `fi`,
threading the growing edge list of the local cap face.  The C creates the
closure edge whenever `start` was found, storing `final` even when it is
still the `-1` sentinel (modelled by 0; with an even number of endpoints,
the only case arising from well-formed faces, `final` is set whenever
`start` is). -/
def tbProcessFace (capIdx : ℕ) (st : ClippingGeometry × List ℕ) (fi : ℕ) :
    ClippingGeometry × List ℕ :=
  let g := st.1
  let f := g.faces.getD fi default
  if !f.is_visible then st
  else
    let g1 := tbZeroOccurs g f
    let g2 := tbCountOccurs g1 f
    let scan := tbScanEndpoints g2 f
    let g3 := { g2 with vertices := scan.1 }
    match scan.2.1 with
    | none => (g3, st.2)
    | some s =>
      let newEdgeIndex := g3.edges.length
      let e : CEdge := ⟨s, (scan.2.2).getD 0, fi, capIdx, true⟩
      let g4 := { g3 with
        faces := g3.faces.set fi { f with edge_indices := f.edge_indices ++ [newEdgeIndex] } }
      ({ g4 with edges := g4.edges ++ [e] }, st.2 ++ [newEdgeIndex])

/-- `clip_geometry`: classify, early-return on no or total clipping
(returning the phase-1 state: the stored distances are already updated),
process edges, then close each visible face and append the cap face
carrying the clipping plane's `face_info`. -/
def tbClipGeometry (g : ClippingGeometry) (info : FaceInfo) : ClipResult × ClippingGeometry :=
  let total := tbCountTotal g
  let clipped := tbCountClipped g info
  let g1 := tbPhase1 g info
  if clipped = 0 then (ClipResult.noClipping, g1)
  else if clipped = total then (ClipResult.totalClipping, g1)
  else
    let g2 := (List.range g1.edges.length).foldl tbClipEdge g1
    let capIdx := g2.faces.length
    let st := (List.range g2.faces.length).foldl (tbProcessFace capIdx) (g2, [])
    let cap : CFace := ⟨st.2, true, info⟩
    (ClipResult.partialClipping, { st.1 with faces := st.1.faces ++ [cap] })

/-- The clip loop of `tb_geometry_create`: one `clip_geometry` call per
brush face; the returned `clip_result` is discarded by the caller. -/
def tbClipAll (g : ClippingGeometry) (infos : List FaceInfo) : ClippingGeometry :=
  infos.foldl (fun acc info => (tbClipGeometry acc info).2) g

/-! ## The compactors

Both compactors drive three remap tables, one per entity kind.  The C
tables are `malloc`-ed `int` arrays written only at the slots of visible
source entities; a read of a never-written slot (possible only on the
degenerate all-clipped path) returns uninitialised memory in C and the
model default 0 here. -/

/-- Lookup in a remap table, with the model default for unwritten
slots. -/
def lookupD (mp : List (ℕ × ℕ)) (k : ℕ) : ℕ :=
  ((mp.find? fun p => p.1 == k).map fun p => p.2).getD 0

/-- `tb_geometry_vertex`. -/
structure TbVertex where
  position : Vec3
deriving DecidableEq, Repr, Inhabited

/-- `tb_geometry_edge`. -/
structure TbEdge where
  v0 : ℕ
  v1 : ℕ
  f0 : ℕ
  f1 : ℕ
deriving DecidableEq, Repr, Inhabited

/-- `tb_geometry_face` (texture attributes flattened as in
`FaceInfo`). -/
structure TbFace where
  edge_indices : List ℕ
  texture : ℕ
  normal : Vec3
  tangent : Vec3
  uRow : Vec3
  vRow : Vec3
  uvScale0 : ℚ
  uvScale1 : ℚ
  uvOffset0 : ℚ
  uvOffset1 : ℚ
deriving DecidableEq, Repr, Inhabited

/-- `tb_geometry`. -/
structure TbGeometry where
  vertices : List TbVertex
  edges : List TbEdge
  faces : List TbFace
deriving DecidableEq, Repr, Inhabited

/-- The vertex pass of the `tb_geometry_create` conversion: visible
vertices are copied in source order; the remap table records the output
index (the count before the push). -/
def tbVertexPass (g : ClippingGeometry) : List TbVertex × List (ℕ × ℕ) :=
  (List.range g.vertices.length).foldl
    (fun st i =>
      let cv := g.vertices.getD i default
      if !cv.is_visible then st
      else (st.1 ++ [⟨cv.position⟩], st.2 ++ [(i, st.1.length)]))
    ([], [])

/-- The edge pass of the `tb_geometry_create` conversion: visible edges
are copied in source order with the two vertex indices rewritten through
the vertex remap.  The C value-initialises the output edge and assigns
only `vertex_indices`; the source edge's `face_indices` are never copied,
so the output face slots hold 0 at this point (the slip the final remap
loop then operates on). -/
def tbEdgePass (g : ClippingGeometry) (vmap : List (ℕ × ℕ)) : List TbEdge × List (ℕ × ℕ) :=
  (List.range g.edges.length).foldl
    (fun st i =>
      let ce := g.edges.getD i default
      if !ce.is_visible then st
      else (st.1 ++ [⟨lookupD vmap ce.v0, lookupD vmap ce.v1, 0, 0⟩], st.2 ++ [(i, st.1.length)]))
    ([], [])

/-- The face pass of the `tb_geometry_create` conversion: visible faces
are copied in source order, every edge index rewritten through the edge
remap, texture attributes carried unchanged. -/
def tbFacePass (g : ClippingGeometry) (emap : List (ℕ × ℕ)) : List TbFace × List (ℕ × ℕ) :=
  (List.range g.faces.length).foldl
    (fun st i =>
      let cf := g.faces.getD i default
      if !cf.is_visible then st
      else
        let info := cf.info
        let face : TbFace :=
          ⟨cf.edge_indices.map (lookupD emap), info.texture, info.normal, info.tangent,
           info.uRow, info.vRow, info.uvScale0, info.uvScale1, info.uvOffset0, info.uvOffset1⟩
        (st.1 ++ [face], st.2 ++ [(i, st.1.length)]))
    ([], [])

/-- The conversion stage of `tb_geometry_create` (after the clip loop):
three passes filling the remap tables, then the final loop rewriting
every output edge's face slots through the face remap.  Because the edge
pass never copied the source face indices, the final loop rewrites the
zero-initialised slots: every output edge receives the face pair
`(face_map[0], face_map[0])`. -/
def tbGeometryCompact (g : ClippingGeometry) : TbGeometry :=
  let vp := tbVertexPass g
  let ep := tbEdgePass g vp.2
  let fp := tbFacePass g ep.2
  let edges := ep.1.map fun e => { e with f0 := lookupD fp.2 e.f0, f1 := lookupD fp.2 e.f1 }
  ⟨vp.1, edges, fp.1⟩

/-- `WORLD_SIZE` of the tb generation. -/
def tbWorldSize : ℚ := 100000

/-- The seed state of `tb_geometry_create`. -/
def tbSeed : ClippingGeometry :=
  tbGeometryFromBounds ⟨0, 0, 0⟩ ⟨tbWorldSize, tbWorldSize, tbWorldSize⟩

/-- `tb_geometry_create`, parameterised by the per-face `face_info` list
(the brush-face to `face_info` conversion calls `tb_get_face_normal` and
`tb_get_face_tangent`, whose definitions are not in the sources; the
pipeline from the seed cube onwards is fully modelled). -/
def tbGeometryCreate (infos : List FaceInfo) : TbGeometry :=
  tbGeometryCompact (tbClipAll tbSeed infos)

/-! ## The poelib compaction stage (`CreateGeometry(ClippingGeometry*)`,
unnamed part 001)

The poelib clipping state is the same vertex / edge / face index graph
with visibility flags; the compactor reads positions, indices, and flags
only, so it is defined over the same `ClippingGeometry` state.  Unlike
the tb conversion it copies the whole source edge (face indices
included), but it rewrites only the first two entries of each face's edge
index list. -/

/-- `GeometryFace` of poelib: an edge index list and a normal. -/
structure P1Face where
  edge_indices : List ℕ
  normal : Vec3
deriving DecidableEq, Repr, Inhabited

/-- `Geometry` of poelib (`GeometryVertex` and `GeometryEdge` have the
same fields as their tb counterparts, which are reused). -/
structure P1Geometry where
  vertices : List TbVertex
  edges : List TbEdge
  faces : List P1Face
deriving DecidableEq, Repr, Inhabited

/-- The face-index fix-up of poelib `CreateGeometry`: the C writes
`edgeIndices[0]` and `edgeIndices[1]` only, so any further entries keep
their stale pre-compaction values.  (On a face with fewer than two edges
the C writes out of bounds; such faces are not modelled.) -/
def p1RemapFirstTwo (l : List ℕ) (emap : List (ℕ × ℕ)) : List ℕ :=
  match l with
  | [] => []
  | [a] => [lookupD emap a]
  | a :: b :: rest => lookupD emap a :: lookupD emap b :: rest

/-- The compaction stage of poelib `CreateGeometry(ClippingGeometry*)`:
vertices, then edges (whole edge copied, vertex indices rewritten), then
faces (only the first two edge indices rewritten), then the loop
rewriting both face slots of every output edge through the face remap. -/
def p1Compact (g : ClippingGeometry) : P1Geometry :=
  let vp := tbVertexPass g
  let ep :=
    (List.range g.edges.length).foldl
      (fun st i =>
        let ce := g.edges.getD i default
        if !ce.is_visible then st
        else (st.1 ++ [(⟨lookupD vp.2 ce.v0, lookupD vp.2 ce.v1, ce.f0, ce.f1⟩ : TbEdge)],
              st.2 ++ [(i, st.1.length)]))
      (([] : List TbEdge), ([] : List (ℕ × ℕ)))
  let fp :=
    (List.range g.faces.length).foldl
      (fun st i =>
        let cf := g.faces.getD i default
        if !cf.is_visible then st
        else (st.1 ++ [(⟨p1RemapFirstTwo cf.edge_indices ep.2, cf.info.normal⟩ : P1Face)],
              st.2 ++ [(i, st.1.length)]))
      (([] : List P1Face), ([] : List (ℕ × ℕ)))
  let edges := ep.1.map fun e => { e with f0 := lookupD fp.2 e.f0, f1 := lookupD fp.2 e.f1 }
  ⟨vp.1, edges, fp.1⟩

/-! ## `tb_model.cpp`: per-vertex attribute emission -/

/-- `round_to_int`: `roundf` (round to nearest, ties away from zero)
followed by an `int` cast and a cast back to `float`; on an exact
rational the value is the nearest integer, ties away from zero. -/
def roundToInt (q : ℚ) : ℚ :=
  if 0 ≤ q then ((⌊q + 1 / 2⌋ : ℤ) : ℚ) else ((⌈q - 1 / 2⌉ : ℤ) : ℚ)

/-- The four attribute streams and running vertex count of `mesh_data`
(the triangle index stream is separate). -/
structure MeshStreams where
  positions : List ℚ
  normals : List ℚ
  tangents : List ℚ
  uvs : List ℚ
  vertex_count : ℕ
deriving DecidableEq, Repr, Inhabited

/-- The per-loop-vertex emission of `tb_model_create` (lines 125-159):
UV from the unrounded position through the two matrix rows, scale, and
offset; position components rounded through `round_to_int`; the face
normal; the face tangent with a fourth component of 0. -/
def emitVertex (face : TbFace) (s : MeshStreams) (pos : Vec3) : MeshStreams :=
  let u := dot pos face.uRow * face.uvScale0 + face.uvOffset0
  let v := dot pos face.vRow * face.uvScale1 + face.uvOffset1
  { positions := s.positions ++ [roundToInt pos.x, roundToInt pos.y, roundToInt pos.z]
    normals := s.normals ++ [face.normal.x, face.normal.y, face.normal.z]
    tangents := s.tangents ++ [face.tangent.x, face.tangent.y, face.tangent.z, 0]
    uvs := s.uvs ++ [u, v]
    vertex_count := s.vertex_count + 1 }

/-- The vertex-creation loop of `tb_model_create` over the sorted loop of
one face (every loop entry except the closing repeat), starting from
empty streams. -/
def emitLoop (face : TbFace) (positions : List Vec3) : MeshStreams :=
  positions.foldl (emitVertex face) ⟨[], [], [], [], 0⟩

/-- Modelled from the spec: `tb_get_face_tangent` is declared and called
by `tb_geometry.cpp` but its definition is not in the sources.  Section
4.6 of the specification states that the tangent is the face's U-axis
basis, so the model returns the U texture axis of the brush face. -/
def tb_get_face_tangent (uNormal : Vec3) : Vec3 :=
  uNormal

/-- `tb_brush_face`, restricted to the fields the pipeline reads; the
plane normal (computed by `tb_get_face_normal`, also not in the sources)
is kept abstract as a field. -/
structure TbBrushFace where
  texture : ℕ
  uNormal : Vec3
  vNormal : Vec3
  uOffset : ℚ
  vOffset : ℚ
  uScale : ℚ
  vScale : ℚ
  planePoint : Vec3
  normal : Vec3
deriving DecidableEq, Repr, Inhabited

/-- The `face_info` construction of `tb_geometry_create` (lines 82-108):
matrix rows from the UV axes, scales inverted, offsets copied, tangent
through `tb_get_face_tangent`. -/
def tbFaceInfoOfBrushFace (f : TbBrushFace) : FaceInfo :=
  { texture := f.texture
    uRow := f.uNormal
    vRow := f.vNormal
    uvScale0 := 1 / f.uScale
    uvScale1 := 1 / f.vScale
    uvOffset0 := f.uOffset
    uvOffset1 := f.vOffset
    normal := f.normal
    tangent := tb_get_face_tangent f.uNormal
    point := f.planePoint }

/-! ## The invariants I1-I6 of the specification, formalised on the
mutable B-rep state

These predicates transcribe section 3 of the specification; every
quantifier ranges over a concrete list, so each predicate is decidable
and can be evaluated on concrete states. -/

/-- I1: every visible edge's two vertex indices refer to (in-range)
visible vertices. -/
def cgInv1 (g : ClippingGeometry) : Prop :=
  ∀ e ∈ g.edges, e.is_visible = true →
    e.v0 < g.vertices.length ∧ e.v1 < g.vertices.length ∧
    (g.vertices.getD e.v0 default).is_visible = true ∧
    (g.vertices.getD e.v1 default).is_visible = true

/-- I2: edge-face adjacency is bidirectionally consistent: every visible
edge's two face slots name in-range visible faces whose edge lists
contain the edge's index, and every visible face's edge list names
in-range visible edges that carry the face in one of their two face
slots. -/
def cgInv2 (g : ClippingGeometry) : Prop :=
  (∀ i ∈ List.range g.edges.length,
    (g.edges.getD i default).is_visible = true →
      (g.edges.getD i default).f0 < g.faces.length ∧
      (g.edges.getD i default).f1 < g.faces.length ∧
      (g.faces.getD (g.edges.getD i default).f0 default).is_visible = true ∧
      (g.faces.getD (g.edges.getD i default).f1 default).is_visible = true ∧
      i ∈ (g.faces.getD (g.edges.getD i default).f0 default).edge_indices ∧
      i ∈ (g.faces.getD (g.edges.getD i default).f1 default).edge_indices) ∧
  (∀ fi ∈ List.range g.faces.length,
    (g.faces.getD fi default).is_visible = true →
      ∀ j ∈ (g.faces.getD fi default).edge_indices,
        j < g.edges.length ∧ (g.edges.getD j default).is_visible = true ∧
        ((g.edges.getD j default).f0 = fi ∨ (g.edges.getD j default).f1 = fi))

/-- How many times vertex `vi` occurs among the endpoints of a face's
edges. -/
def cgFaceVertexOccurs (g : ClippingGeometry) (f : CFace) (vi : ℕ) : ℕ :=
  (f.edge_indices.map fun j =>
    (if (g.edges.getD j default).v0 = vi then 1 else 0) +
    (if (g.edges.getD j default).v1 = vi then 1 else 0)).sum

/-- The occurrence half of I3: in every visible face, every vertex
referenced by the face's edges occurs in exactly two of them. -/
def cgInv3occ (g : ClippingGeometry) : Prop :=
  ∀ f ∈ g.faces, f.is_visible = true →
    ∀ j ∈ f.edge_indices,
      cgFaceVertexOccurs g f (g.edges.getD j default).v0 = 2 ∧
      cgFaceVertexOccurs g f (g.edges.getD j default).v1 = 2

/-- The endpoint pairs of a face's edges. -/
def cgFacePairs (g : ClippingGeometry) (f : CFace) : List (ℕ × ℕ) :=
  f.edge_indices.map fun j => ((g.edges.getD j default).v0, (g.edges.getD j default).v1)

/-- Fuelled closure of the set of vertices reachable through a list of
endpoint pairs. -/
def reachIter (pairs : List (ℕ × ℕ)) : ℕ → List ℕ → List ℕ
  | 0, acc => acc
  | n + 1, acc =>
    reachIter pairs n
      (pairs.foldl
        (fun a p =>
          if p.1 ∈ a ∧ ¬p.2 ∈ a then a ++ [p.2]
          else if p.2 ∈ a ∧ ¬p.1 ∈ a then a ++ [p.1]
          else a)
        acc)

/-- All endpoints of a pair list are reachable from the first pair's
first endpoint (vacuously true of an empty list). -/
def pairsConnected (pairs : List (ℕ × ℕ)) : Prop :=
  ∀ q ∈ pairs, q.1 ∈ reachIter pairs pairs.length [(pairs.headD (0, 0)).1] ∧
    q.2 ∈ reachIter pairs pairs.length [(pairs.headD (0, 0)).1]

/-- The single-cycle half of I3: the edge set of a visible face is
connected (together with `cgInv3occ`, a single closed cycle). -/
def cgInv3cycle (g : ClippingGeometry) : Prop :=
  ∀ f ∈ g.faces, f.is_visible = true → pairsConnected (cgFacePairs g f)

/-- I5: no visible face lists the same edge twice (that no edge is shared
by more than two faces follows from the listing half of I2). -/
def cgInv5 (g : ClippingGeometry) : Prop :=
  ∀ f ∈ g.faces, f.is_visible = true → f.edge_indices.Nodup

/-- I6: no duplicated indices inside a single visible edge: the two
vertex slots differ and the two face slots differ. -/
def cgInv6 (g : ClippingGeometry) : Prop :=
  ∀ e ∈ g.edges, e.is_visible = true → e.v0 ≠ e.v1 ∧ e.f0 ≠ e.f1

/-- All of I1-I6 on the mutable B-rep state. -/
def cgWellFormed (g : ClippingGeometry) : Prop :=
  cgInv1 g ∧ cgInv2 g ∧ cgInv3occ g ∧ cgInv3cycle g ∧ cgInv5 g ∧ cgInv6 g

/-! The same invariants on a compacted poelib geometry (every compacted
entity counts as visible). -/

/-- Occurrence count of a vertex in a compacted face's edges. -/
def p1FaceVertexOccurs (geo : P1Geometry) (f : P1Face) (vi : ℕ) : ℕ :=
  (f.edge_indices.map fun j =>
    (if (geo.edges.getD j default).v0 = vi then 1 else 0) +
    (if (geo.edges.getD j default).v1 = vi then 1 else 0)).sum

/-- I1 and the edge-to-face half of I2 on a compacted geometry: all four
indices of every edge are in range and the two named faces list the
edge. -/
def p1InvEdges (geo : P1Geometry) : Prop :=
  ∀ i ∈ List.range geo.edges.length,
    (geo.edges.getD i default).v0 < geo.vertices.length ∧
    (geo.edges.getD i default).v1 < geo.vertices.length ∧
    (geo.edges.getD i default).f0 < geo.faces.length ∧
    (geo.edges.getD i default).f1 < geo.faces.length ∧
    i ∈ (geo.faces.getD (geo.edges.getD i default).f0 default).edge_indices ∧
    i ∈ (geo.faces.getD (geo.edges.getD i default).f1 default).edge_indices

/-- The face-to-edge half of I2 on a compacted geometry: every face's
edge indices are in range and every listed edge carries the face in one
of its two slots. -/
def p1InvFaces (geo : P1Geometry) : Prop :=
  ∀ fi ∈ List.range geo.faces.length,
    ∀ j ∈ (geo.faces.getD fi default).edge_indices,
      j < geo.edges.length ∧
      ((geo.edges.getD j default).f0 = fi ∨ (geo.edges.getD j default).f1 = fi)

/-- I3 (occurrence half), I5 and I6 on a compacted geometry. -/
def p1InvCycles (geo : P1Geometry) : Prop :=
  (∀ f ∈ geo.faces, ∀ j ∈ f.edge_indices,
    p1FaceVertexOccurs geo f (geo.edges.getD j default).v0 = 2 ∧
    p1FaceVertexOccurs geo f (geo.edges.getD j default).v1 = 2) ∧
  (∀ f ∈ geo.faces, f.edge_indices.Nodup) ∧
  (∀ e ∈ geo.edges, e.v0 ≠ e.v1 ∧ e.f0 ≠ e.f1)

/-- I1-I6 on a compacted poelib geometry. -/
def p1WellFormed (geo : P1Geometry) : Prop :=
  p1InvEdges geo ∧ p1InvFaces geo ∧ p1InvCycles geo

instance (pairs : List (ℕ × ℕ)) : Decidable (pairsConnected pairs) := by
  unfold pairsConnected; infer_instance

instance (g : ClippingGeometry) : Decidable (cgInv1 g) := by
  unfold cgInv1; infer_instance

instance (g : ClippingGeometry) : Decidable (cgInv2 g) := by
  unfold cgInv2; infer_instance

instance (g : ClippingGeometry) : Decidable (cgInv3occ g) := by
  unfold cgInv3occ; infer_instance

instance (g : ClippingGeometry) : Decidable (cgInv3cycle g) := by
  unfold cgInv3cycle; infer_instance

instance (g : ClippingGeometry) : Decidable (cgInv5 g) := by
  unfold cgInv5; infer_instance

instance (g : ClippingGeometry) : Decidable (cgInv6 g) := by
  unfold cgInv6; infer_instance

instance (g : ClippingGeometry) : Decidable (cgWellFormed g) := by
  unfold cgWellFormed; infer_instance

instance (geo : P1Geometry) : Decidable (p1InvEdges geo) := by
  unfold p1InvEdges; infer_instance

instance (geo : P1Geometry) : Decidable (p1InvFaces geo) := by
  unfold p1InvFaces; infer_instance

instance (geo : P1Geometry) : Decidable (p1InvCycles geo) := by
  unfold p1InvCycles; infer_instance

instance (geo : P1Geometry) : Decidable (p1WellFormed geo) := by
  unfold p1WellFormed; infer_instance

/-! ## Statement helpers and concrete inputs -/

/-- The clipping plane carried by a `face_info`: normal and constant
`c = n . point`, as computed in step one of `clip_geometry`. -/
def planeOfInfo (info : FaceInfo) : Plane :=
  ⟨info.normal, dot info.normal info.point⟩

/-- The unordered endpoint pair of a ptc edge. -/
def edgeSym (e : PtcEdge) : Sym2 ℕ :=
  Sym2.mk (e.v0, e.v1)

/-- The unordered endpoint pairs of a face's edge list inside a mesh. -/
def faceSyms (m : PtcMesh) (f : PtcFace) : List (Sym2 ℕ) :=
  f.edges.map fun j => edgeSym (m.edges.getD j default)

/-- The unordered pairs of consecutive entries of a vertex list. -/
def pathSyms : List ℕ → List (Sym2 ℕ)
  | [] => []
  | [_] => []
  | a :: b :: t => Sym2.mk (a, b) :: pathSyms (b :: t)

/-- The unordered pairs of consecutive entries of a vertex list read as a
closed cycle (the last entry is joined back to the first). -/
def cycleSyms (c : List ℕ) : List (Sym2 ℕ) :=
  pathSyms (c ++ [c.headD 0])

/-- A list of vertices is a simple-cycle listing of a face: no duplicate
vertices, at least a triangle, one cycle pair per face edge. -/
def IsCycleListing (m : PtcMesh) (f : PtcFace) (c : List ℕ) : Prop :=
  c.Nodup ∧ 3 ≤ c.length ∧ f.edges.length = c.length ∧
    List.Perm (faceSyms m f) (cycleSyms c)

instance (m : PtcMesh) (f : PtcFace) (c : List ℕ) : Decidable (IsCycleListing m f c) := by
  unfold IsCycleListing
  infer_instance

/-- The ptc seed cube with half-extent 1 (small coordinates keep the
concrete computations light; the pipeline is scale-invariant). -/
def seedW1 : PtcMesh :=
  ptcInitBounds ⟨-1, -1, -1⟩ ⟨1, 1, 1⟩

/-- A plane that clips nothing of `seedW1`: every vertex is at distance
-3 or -1, well below the epsilon band. -/
def plRedundant : Plane :=
  ⟨⟨1, 0, 0⟩, 2⟩

/-- The tb seed cube with half-extent 1. -/
def tbSeedW1 : ClippingGeometry :=
  tbGeometryFromBounds ⟨0, 0, 0⟩ ⟨1, 1, 1⟩

/-- A brush face whose plane is `x = 0`, keeping the negative-x half. -/
def infoCut : FaceInfo :=
  { (default : FaceInfo) with normal := ⟨1, 0, 0⟩, point := ⟨0, 0, 0⟩ }

/-- The mutable B-rep after clipping the small seed cube by `x = 0`:
12 visible vertices (8 of which are the 4 kept corners plus 4 split
vertices), 12 visible edges among 16, 6 visible faces among 7. -/
def cutState : ClippingGeometry :=
  (tbClipGeometry tbSeedW1 infoCut).2

/-- A brush face whose plane `x = -200000` clips every vertex of the tb
seed cube (its world has half-extent 100000): a degenerate brush. -/
def infoDegen : FaceInfo :=
  { (default : FaceInfo) with normal := ⟨1, 0, 0⟩, point := ⟨-200000, 0, 0⟩ }

/-- A two-vertex, one-edge mesh mid-clip: vertex 0 kept at stored
distance -1, vertex 1 clipped at stored distance 1. -/
def splitMeshW : PtcMesh :=
  { vertices := [⟨⟨0, 0, 0⟩, -1, false, 0⟩, ⟨⟨2, 0, 0⟩, 1, true, 0⟩]
    edges := [⟨0, 1, -1, -1, false⟩]
    faces := [] }

/-- The vertex remap table the tb conversion builds for a state. -/
def tbVertexMapOf (g : ClippingGeometry) : List (ℕ × ℕ) :=
  (tbVertexPass g).2

/-- The edge remap table the tb conversion builds for a state. -/
def tbEdgeMapOf (g : ClippingGeometry) : List (ℕ × ℕ) :=
  (tbEdgePass g (tbVertexMapOf g)).2

/-- The face remap table the tb conversion builds for a state. -/
def tbFaceMapOf (g : ClippingGeometry) : List (ℕ × ℕ) :=
  (tbFacePass g (tbEdgeMapOf g)).2

/-- A concrete face for the emission witness: texture axes along x and y,
scales 2 and 3, offsets 5 and 7. -/
def emitFaceW : TbFace :=
  { edge_indices := []
    texture := 11
    normal := ⟨0, 0, 1⟩
    tangent := ⟨1, 0, 0⟩
    uRow := ⟨1, 0, 0⟩
    vRow := ⟨0, 1, 0⟩
    uvScale0 := 2
    uvScale1 := 3
    uvOffset0 := 5
    uvOffset1 := 7 }

/-- Concrete loop positions for the emission witness. -/
def psW : List Vec3 :=
  [⟨1 / 2, 3 / 2, -(5 / 2)⟩, ⟨2, 0, 1⟩]

/-- Visibility monotonicity between two mesh states: the arrays may only
grow, and an entity already marked clipped stays clipped (out-of-range
reads yield the visible default vertex, so the quantifiers can range over
all indices). -/
def FlagsLe (a b : PtcMesh) : Prop :=
  a.vertices.length ≤ b.vertices.length ∧
  a.edges.length ≤ b.edges.length ∧
  a.faces.length ≤ b.faces.length ∧
  (∀ i, (a.vertices.getD i default).is_clipped = true →
    (b.vertices.getD i default).is_clipped = true) ∧
  (∀ i, (a.edges.getD i default).is_clipped = true →
    (b.edges.getD i default).is_clipped = true) ∧
  (∀ i, (a.faces.getD i default).is_clipped = true →
    (b.faces.getD i default).is_clipped = true)

/-- Every entity at an index at or beyond the given bounds is visible
(again using that the out-of-range default is visible). -/
def NewVisible (n0 n1 n2 : ℕ) (b : PtcMesh) : Prop :=
  (∀ i, n0 ≤ i → (b.vertices.getD i default).is_clipped = false) ∧
  (∀ i, n1 ≤ i → (b.edges.getD i default).is_clipped = false) ∧
  (∀ i, n2 ≤ i → (b.faces.getD i default).is_clipped = false)

/-- The plane `x = 0` for the ptc clipper. -/
def plCutP : Plane :=
  ⟨⟨1, 0, 0⟩, 0⟩

/-- The ptc mesh after clipping the small seed cube by `x = 0` (the clip
succeeds, so the default never surfaces). -/
def ptcCutState : PtcMesh :=
  (ptcClip seedW1 plCutP).getD default

/-! Containment invariants (P4): predicates over the mutable ptc B-rep
threaded through a whole clipping sequence. -/

/-- Every visible vertex lies on the kept side of every processed plane,
within `EPS`. -/
def ptcVisContained (P : List Plane) (m : PtcMesh) : Prop :=
  ∀ i, i < m.vertices.length → (m.vertices.getD i default).is_clipped = false →
    ∀ pl ∈ P, planeDistance pl (m.vertices.getD i default).position ≤ EPS

/-- No vertex is visible (the aftermath of a total clip). -/
def ptcNoVis (m : PtcMesh) : Prop :=
  ∀ i, i < m.vertices.length → (m.vertices.getD i default).is_clipped = true

/-- Visible edges reference in-range visible vertices (I1). -/
def ptcGoodE (m : PtcMesh) : Prop :=
  ∀ ei, ei < m.edges.length → (m.edges.getD ei default).is_clipped = false →
    (m.edges.getD ei default).v0 < m.vertices.length ∧
    (m.edges.getD ei default).v1 < m.vertices.length ∧
    (m.vertices.getD (m.edges.getD ei default).v0 default).is_clipped = false ∧
    (m.vertices.getD (m.edges.getD ei default).v1 default).is_clipped = false

/-- How many of edge `j`'s two face slots name face `g`. -/
def slotMatches (m : PtcMesh) (j : ℕ) (g : ℕ) : ℕ :=
  (if (m.edges.getD j default).f0 = (g : ℤ) then 1 else 0) +
  (if (m.edges.getD j default).f1 = (g : ℤ) then 1 else 0)

/-- Every visible face's edge list names in-range visible edges, and
lists edge `j` at most as often as `j`'s face slots name the face (the
listing half of I2 with multiplicities; it entails I5's no-duplicates for
edges whose slots are distinct). -/
def ptcGoodF (m : PtcMesh) : Prop :=
  ∀ fi, fi < m.faces.length → (m.faces.getD fi default).is_clipped = false →
    (∀ j ∈ (m.faces.getD fi default).edges,
      j < m.edges.length ∧ (m.edges.getD j default).is_clipped = false) ∧
    (∀ j, ((m.faces.getD fi default).edges).count j ≤ slotMatches m j fi)

/-- The structural half of the containment invariant. -/
def ptcGood (m : PtcMesh) : Prop :=
  ptcGoodE m ∧ ptcGoodF m

/-- The containment invariant after processing the planes `P`: visible
vertices are contained, and either no vertex is visible at all (after a
degenerate total clip nothing visible is ever created again) or the
structural facts hold. -/
def PsiInv (P : List Plane) (m : PtcMesh) : Prop :=
  ptcVisContained P m ∧ (ptcNoVis m ∨ ptcGood m)

/-- Per-vertex facts holding from the end of step one of a `ptc_clip`
call for plane `pl` through steps two and three: a visible vertex is
contained for the processed planes `P`, lies strictly below the clip
threshold for `pl`, and its stored distance is the epsilon-snapped signed
distance (zero when the true distance is in `[-EPS, EPS)`, the true
distance when it is below `-EPS`). -/
def vertMid (P : List Plane) (pl : Plane) (m : PtcMesh) : Prop :=
  ∀ i, i < m.vertices.length → (m.vertices.getD i default).is_clipped = false →
    (∀ pl2 ∈ P, planeDistance pl2 (m.vertices.getD i default).position ≤ EPS) ∧
    planeDistance pl (m.vertices.getD i default).position < EPS ∧
    (((m.vertices.getD i default).distance = 0 ∧
        -EPS ≤ planeDistance pl (m.vertices.getD i default).position) ∨
      ((m.vertices.getD i default).distance =
          planeDistance pl (m.vertices.getD i default).position ∧
        planeDistance pl (m.vertices.getD i default).position < -EPS))

/-- One endpoint slot mid-pass: in range, and either visible or clipped
by the current plane with its stored distance equal to the true distance,
at least `EPS`, and its position contained for the processed planes. -/
def epOK (P : List Plane) (pl : Plane) (m : PtcMesh) (k : ℕ) : Prop :=
  k < m.vertices.length ∧
  ((m.vertices.getD k default).is_clipped = false ∨
    ((m.vertices.getD k default).distance =
        planeDistance pl (m.vertices.getD k default).position ∧
      EPS ≤ (m.vertices.getD k default).distance ∧
      ∀ pl2 ∈ P, planeDistance pl2 (m.vertices.getD k default).position ≤ EPS))

/-- The invariant carried through the edge pass (step two). -/
def midPassInv (P : List Plane) (pl : Plane) (m : PtcMesh) : Prop :=
  vertMid P pl m ∧
  (∀ ei, ei < m.edges.length → (m.edges.getD ei default).is_clipped = false →
    epOK P pl m (m.edges.getD ei default).v0 ∧ epOK P pl m (m.edges.getD ei default).v1) ∧
  ptcGoodF m

/-- An edge slot is settled: invisible, or with both endpoints in-range
and visible. -/
def edgeSettled (m : PtcMesh) (ei : ℕ) : Prop :=
  (m.edges.getD ei default).is_clipped = true ∨
  ((m.edges.getD ei default).v0 < m.vertices.length ∧
   (m.edges.getD ei default).v1 < m.vertices.length ∧
   (m.vertices.getD (m.edges.getD ei default).v0 default).is_clipped = false ∧
   (m.vertices.getD (m.edges.getD ei default).v1 default).is_clipped = false)

/-- The invariant carried through the face-closure pass (step three). -/
def lastPassInv (P : List Plane) (pl : Plane) (m : PtcMesh) : Prop :=
  vertMid P pl m ∧ ptcGoodE m ∧ ptcGoodF m

/-! # Theorems -/

/-- C1: the claim says that after every clip the invariants I1-I6 hold on
the mutable B-rep and, after compaction, on the compacted B-rep.  On the
concrete run below (seed cube of half-extent 1, one plane `x = 0`) the
clip does restore I1-I6 on the mutable B-rep, but the poelib compactor
`CreateGeometry(ClippingGeometry*)` rewrites only the first two edge
indices of each face, so the compacted front face still lists the stale
pre-compaction index 12 of its closure edge among only 12 compacted
edges, and the compacted B-rep violates the invariants (stale and even
out-of-range face-to-edge references). -/
theorem clip_preserves_but_p1_compaction_breaks_invariants :
    cgWellFormed tbSeedW1 ∧
    (tbClipGeometry tbSeedW1 infoCut).1 = ClipResult.partialClipping ∧
    cgWellFormed cutState ∧
    (p1Compact cutState).edges.length = 12 ∧
    ((p1Compact cutState).faces.getD 0 default).edge_indices = [0, 1, 2, 12] ∧
    ¬ p1WellFormed (p1Compact cutState) :=
  of_decide_eq_true (by with_unfolding_all rfl)

/-- C2: the claim says the compactor rewrites every edge's two face
indices through the face remap.  `tb_geometry_create` never copies the
source edge's `face_indices` into the zero-initialised output edge, so
the final remap loop rewrites zeros: on the concrete post-clip state
below, the visible source edge 4 carries the face pair `(1, 5)`, the face
remap sends 1 to 1 and 5 to 4, yet the corresponding output edge (and
every other output edge) carries the face pair `(0, 0)`. -/
theorem tb_compactor_never_copies_edge_face_indices :
    (cutState.edges.getD 4 default).is_visible = true ∧
    (cutState.edges.getD 4 default).f0 = 1 ∧
    (cutState.edges.getD 4 default).f1 = 5 ∧
    lookupD (tbFaceMapOf cutState) 1 = 1 ∧
    lookupD (tbFaceMapOf cutState) 5 = 4 ∧
    (tbGeometryCompact cutState).edges.getD 3 default = ⟨2, 6, 0, 0⟩ ∧
    ((tbGeometryCompact cutState).edges.map fun e => (e.f0, e.f1)) = List.replicate 12 (0, 0) :=
  of_decide_eq_true (by with_unfolding_all rfl)

/-- C3: the claim says the winding correction accumulates the sum of
cross products of consecutive loop positions and reverses exactly when
its dot product with the face normal is positive.  The body of
`ptc__cross_product` is empty, so on the back face of the seed cube the
accumulator of `ptc_get_vertices` is the zero vector and the winding
test never sees the cross-product sum: the reference accumulator of
`tb_model.cpp` is `(0, 0, 8)`, its dot product with the face normal is
positive (so the claimed rule would reverse the loop), yet
`ptc_get_vertices` classifies the loop as already clockwise and returns
it unreversed for a clockwise target. -/
theorem ptc_winding_accumulator_always_zero :
    ptcSortLoop seedW1 1 = [4, 7, 6, 5, 4] ∧
    ptcWindingAccum seedW1 (ptcSortLoop seedW1 1) = ⟨0, 0, 0⟩ ∧
    tbWindingAccum
      ((ptcSortLoop seedW1 1).map fun i => (seedW1.vertices.getD i default).position) =
      ⟨0, 0, 8⟩ ∧
    ptcCurrentWinding seedW1 1 (ptcSortLoop seedW1 1) = PtcWinding.cw ∧
    (0 : ℚ) < dot (seedW1.faces.getD 1 default).normal
      (tbWindingAccum
        ((ptcSortLoop seedW1 1).map fun i => (seedW1.vertices.getD i default).position)) ∧
    ptcGetVertices seedW1 1 PtcWinding.cw = [4, 7, 6, 5, 4] :=
  of_decide_eq_true (by with_unfolding_all rfl)

/-- C6: the claim says a brush with a plane that clips every remaining
vertex compacts to an empty B-rep.  `clip_geometry` does detect the case
(`RESULT_TOTAL_CLIPPING`), but `tb_geometry_create` discards the result,
and the early return marks only the vertices invisible: compacting the
tb seed cube after the all-clipping plane `x = -200000` yields zero
vertices but all 12 edges and all 6 faces, not an empty B-rep. -/
theorem degenerate_brush_compacts_nonempty :
    (tbClipGeometry tbSeed infoDegen).1 = ClipResult.totalClipping ∧
    (tbGeometryCreate [infoDegen]).vertices.length = 0 ∧
    (tbGeometryCreate [infoDegen]).edges.length = 12 ∧
    (tbGeometryCreate [infoDegen]).faces.length = 6 :=
  of_decide_eq_true (by with_unfolding_all rfl)

/-- C7 (counterexample): the claim says a clip that clips nothing leaves
the vertex array byte-identical.  The first phase of `ptc_clip` stores
the freshly computed signed distance in every visible vertex before the
early return, so clipping the seed cube by a plane that clips nothing
returns a state different from the input (the transient distances
changed from 0 to -3 and -1). -/
theorem redundant_plane_snapshot_not_identical :
    ptcCountClipped seedW1 plRedundant = 0 ∧ ptcClip seedW1 plRedundant ≠ some seedW1 :=
  of_decide_eq_true (by with_unfolding_all rfl)

/-- C5: for a visible edge with exactly one clipped endpoint, the edge
pass of `ptc_clip` computes `t = d0 / (d0 - d1)` from the stored signed
distances in stored endpoint order, appends one new visible vertex at the
linear interpolation of the endpoint positions by `t`, overwrites the
clipped endpoint's slot of this edge with the new vertex's index (the
other endpoint slot, both face slots, and the visibility flag are kept),
and changes nothing else: the face array and all other edges are
untouched. -/
theorem split_edge_step (m : PtcMesh) (ei : ℕ) (e : PtcEdge) (v0 v1 : PtcVertex)
    (he : m.edges.getD ei default = e)
    (hv0 : m.vertices.getD e.v0 default = v0)
    (hv1 : m.vertices.getD e.v1 default = v1)
    (hvis : e.is_clipped = false)
    (hmix : v0.is_clipped ≠ v1.is_clipped) :
    (ptcClipEdge m ei).faces = m.faces ∧
    (ptcClipEdge m ei).vertices = m.vertices ++
      [⟨lerpV v0.position v1.position (v0.distance / (v0.distance - v1.distance)), 0, false, 0⟩] ∧
    (ptcClipEdge m ei).edges = m.edges.set ei
      (if v0.is_clipped = true then { e with v0 := m.vertices.length }
       else { e with v1 := m.vertices.length }) := by
  simp only [ptcClipEdge]
  rw [he, hv0, hv1]
  cases hb0 : v0.is_clipped <;> cases hb1 : v1.is_clipped
  · exact absurd (hb0.trans hb1.symm) hmix
  · simp [hvis, hb0, hb1, ptcAddVertex]
  · simp [hvis, hb0, hb1, ptcAddVertex]
  · exact absurd (hb0.trans hb1.symm) hmix

/-- Witness for C5: the two-vertex mesh `splitMeshW` has a visible edge
whose endpoint 1 is clipped; the split appends the interpolated vertex
and rewrites slot 1. -/
theorem split_edge_step_witness :
    (splitMeshW.vertices.getD 0 default).is_clipped ≠
      (splitMeshW.vertices.getD 1 default).is_clipped ∧
    ((ptcClipEdge splitMeshW 0).faces = splitMeshW.faces ∧
     (ptcClipEdge splitMeshW 0).vertices = splitMeshW.vertices ++
       [⟨lerpV (splitMeshW.vertices.getD 0 default).position
           (splitMeshW.vertices.getD 1 default).position
           ((splitMeshW.vertices.getD 0 default).distance /
            ((splitMeshW.vertices.getD 0 default).distance -
             (splitMeshW.vertices.getD 1 default).distance)), 0, false, 0⟩] ∧
     (ptcClipEdge splitMeshW 0).edges = splitMeshW.edges.set 0
       (if (splitMeshW.vertices.getD 0 default).is_clipped = true then
         { splitMeshW.edges.getD 0 default with v0 := splitMeshW.vertices.length }
        else
         { splitMeshW.edges.getD 0 default with v1 := splitMeshW.vertices.length })) := by
  refine ⟨by decide, ?_⟩
  exact split_edge_step splitMeshW 0 _ _ _ rfl rfl rfl rfl (by decide)

/-- The vertex-creation loop of `tb_model_create` characterised in one
equation: each loop vertex appends three rounded position components,
three face-normal components, the face tangent with a trailing 0, and the
two projected UV values. -/
theorem emit_foldl (face : TbFace) (ps : List Vec3) (s : MeshStreams) :
    ps.foldl (emitVertex face) s =
      ⟨s.positions ++ ps.flatMap fun p => [roundToInt p.x, roundToInt p.y, roundToInt p.z],
       s.normals ++ ps.flatMap fun _ => [face.normal.x, face.normal.y, face.normal.z],
       s.tangents ++ ps.flatMap fun _ => [face.tangent.x, face.tangent.y, face.tangent.z, 0],
       s.uvs ++ ps.flatMap fun p =>
         [dot p face.uRow * face.uvScale0 + face.uvOffset0,
          dot p face.vRow * face.uvScale1 + face.uvOffset1],
       s.vertex_count + ps.length⟩ := by
  induction ps generalizing s with
  | nil => simp
  | cons p t ih =>
    simp only [List.foldl_cons, ih, List.flatMap_cons, List.length_cons, emitVertex,
      MeshStreams.mk.injEq]
    refine ⟨?_, ?_, ?_, ?_, ?_⟩ <;> first
      | simp [List.append_assoc]
      | omega

/-- Indexing into a `flatMap` whose chunks all have length `k`. -/
theorem flatMap_getD_const {α β : Type} (f : α → List β) (k : ℕ)
    (hk : ∀ a, (f a).length = k) (ps : List α) (i j : ℕ) (hi : i < ps.length) (hj : j < k)
    (d : β) (a₀ : α) :
    (ps.flatMap f).getD (k * i + j) d = (f (ps.getD i a₀)).getD j d := by
  induction ps generalizing i with
  | nil => simp at hi
  | cons p t ih =>
    cases i with
    | zero =>
      rw [Nat.mul_zero, Nat.zero_add, List.flatMap_cons,
        List.getD_append _ _ _ _ (by rw [hk p]; exact hj), List.getD_cons_zero]
    | succ n =>
      have hle : (f p).length ≤ k * (n + 1) + j := by
        rw [hk p]
        calc k = k * 1 := (Nat.mul_one k).symm
        _ ≤ k * (n + 1) := Nat.mul_le_mul_left k (by omega)
        _ ≤ k * (n + 1) + j := Nat.le_add_right _ _
      rw [List.flatMap_cons, List.getD_append_right _ _ _ _ hle, List.getD_cons_succ, hk p]
      have harith : k * (n + 1) + j - k = k * n + j := by
        have : k * (n + 1) = k * n + k := by ring
        omega
      rw [harith]
      exact ih n (by simpa using hi)

/-- C8: for every loop vertex emitted by the mesh builder, the emitted
position components are the vertex position components rounded to the
nearest integer (ties away from zero, as `roundf` then `(int)`), the
emitted UV coordinates are `pos . U_axis * u_scale + u_offset` and
`pos . V_axis * v_scale + v_offset` computed from the unrounded position,
the emitted normal is the face's normal, and the emitted tangent is the
face's tangent with a fourth component of 0 - where the pipeline's
`face_info` construction sets that tangent to the face's U texture axis
(via `tb_get_face_tangent`, modelled from the spec). -/
theorem mesh_vertex_emission (face : TbFace) (ps : List Vec3) (i : ℕ) (hi : i < ps.length) :
    ((emitLoop face ps).positions.getD (3 * i) 0 = roundToInt (ps.getD i default).x ∧
     (emitLoop face ps).positions.getD (3 * i + 1) 0 = roundToInt (ps.getD i default).y ∧
     (emitLoop face ps).positions.getD (3 * i + 2) 0 = roundToInt (ps.getD i default).z) ∧
    ((emitLoop face ps).uvs.getD (2 * i) 0 =
       dot (ps.getD i default) face.uRow * face.uvScale0 + face.uvOffset0 ∧
     (emitLoop face ps).uvs.getD (2 * i + 1) 0 =
       dot (ps.getD i default) face.vRow * face.uvScale1 + face.uvOffset1) ∧
    ((emitLoop face ps).normals.getD (3 * i) 0 = face.normal.x ∧
     (emitLoop face ps).normals.getD (3 * i + 1) 0 = face.normal.y ∧
     (emitLoop face ps).normals.getD (3 * i + 2) 0 = face.normal.z) ∧
    ((emitLoop face ps).tangents.getD (4 * i) 0 = face.tangent.x ∧
     (emitLoop face ps).tangents.getD (4 * i + 1) 0 = face.tangent.y ∧
     (emitLoop face ps).tangents.getD (4 * i + 2) 0 = face.tangent.z ∧
     (emitLoop face ps).tangents.getD (4 * i + 3) 0 = 0) ∧
    (∀ bf : TbBrushFace, (tbFaceInfoOfBrushFace bf).tangent = bf.uNormal) := by
  have hloop : emitLoop face ps =
      ⟨ps.flatMap fun p => [roundToInt p.x, roundToInt p.y, roundToInt p.z],
       ps.flatMap fun _ => [face.normal.x, face.normal.y, face.normal.z],
       ps.flatMap fun _ => [face.tangent.x, face.tangent.y, face.tangent.z, 0],
       ps.flatMap fun p =>
         [dot p face.uRow * face.uvScale0 + face.uvOffset0,
          dot p face.vRow * face.uvScale1 + face.uvOffset1],
       ps.length⟩ := by
    have h := emit_foldl face ps ⟨[], [], [], [], 0⟩
    simpa [emitLoop] using h
  rw [hloop]
  have hpos := fun j hj => flatMap_getD_const
    (fun p : Vec3 => [roundToInt p.x, roundToInt p.y, roundToInt p.z]) 3
    (fun _ => rfl) ps i j hi hj 0 default
  have huv := fun j hj => flatMap_getD_const
    (fun p : Vec3 =>
      [dot p face.uRow * face.uvScale0 + face.uvOffset0,
       dot p face.vRow * face.uvScale1 + face.uvOffset1]) 2
    (fun _ => rfl) ps i j hi hj 0 default
  have hnrm := fun j hj => flatMap_getD_const
    (fun _ : Vec3 => [face.normal.x, face.normal.y, face.normal.z]) 3
    (fun _ => rfl) ps i j hi hj 0 default
  have htan := fun j hj => flatMap_getD_const
    (fun _ : Vec3 => [face.tangent.x, face.tangent.y, face.tangent.z, 0]) 4
    (fun _ => rfl) ps i j hi hj 0 default
  refine ⟨⟨?_, ?_, ?_⟩, ⟨?_, ?_⟩, ⟨?_, ?_, ?_⟩, ⟨?_, ?_, ?_, ?_⟩, fun bf => rfl⟩
  · simpa using hpos 0 (by omega)
  · simpa using hpos 1 (by omega)
  · simpa using hpos 2 (by omega)
  · simpa using huv 0 (by omega)
  · simpa using huv 1 (by omega)
  · simpa using hnrm 0 (by omega)
  · simpa using hnrm 1 (by omega)
  · simpa using hnrm 2 (by omega)
  · simpa using htan 0 (by omega)
  · simpa using htan 1 (by omega)
  · simpa using htan 2 (by omega)
  · simpa using htan 3 (by omega)

/-- C7 (amended): when the plane clips no visible vertex, `ptc_clip`
returns at the end of phase 1 with the edge array, the face array, and
every vertex's position, visibility flag, and occurrence counter (hence
all counts and the whole topology) unchanged; the only mutation is that
each visible vertex's transient distance scalar is overwritten with the
signed distance to the new plane, snapped to 0 when within the epsilon
band.  (The claim's byte-identical form fails on exactly that transient
scalar; see the counterexample.) -/
theorem noclip_frame (m : PtcMesh) (pl : Plane) (h : ptcCountClipped m pl = 0) :
    ptcClip m pl = some (ptcPhase1 m pl) ∧
    (ptcPhase1 m pl).edges = m.edges ∧
    (ptcPhase1 m pl).faces = m.faces ∧
    (ptcPhase1 m pl).vertices.length = m.vertices.length ∧
    ((ptcPhase1 m pl).vertices.map fun v => (v.position, v.is_clipped, v.occurs)) =
      (m.vertices.map fun v => (v.position, v.is_clipped, v.occurs)) ∧
    ∀ v ∈ m.vertices, ptcClassifyVertex pl v =
      if v.is_clipped = true then v
      else if planeDistance pl v.position ≥ -EPS then { v with distance := 0 }
      else { v with distance := planeDistance pl v.position } := by
  have hnone : ∀ v ∈ m.vertices, v.is_clipped = false → ¬EPS ≤ planeDistance pl v.position := by
    intro v hv hvis hge
    have hmem : v ∈ m.vertices.filter
        fun v => !v.is_clipped && planeDistance pl v.position ≥ EPS := by
      rw [List.mem_filter]
      exact ⟨hv, by simp [hvis, hge]⟩
    rw [ptcCountClipped, List.length_eq_zero] at h
    rw [h] at hmem
    exact (List.not_mem_nil v) hmem
  have hclass : ∀ v ∈ m.vertices, ptcClassifyVertex pl v =
      if v.is_clipped = true then v
      else if planeDistance pl v.position ≥ -EPS then { v with distance := 0 }
      else { v with distance := planeDistance pl v.position } := by
    intro v hv
    by_cases hvis : v.is_clipped = true
    · simp [ptcClassifyVertex, hvis]
    · have hb : v.is_clipped = false := by simpa using hvis
      have hnge := hnone v hv hb
      simp [ptcClassifyVertex, hb, hnge]
  have hfields : ∀ v ∈ m.vertices,
      ((ptcClassifyVertex pl v).position, (ptcClassifyVertex pl v).is_clipped,
        (ptcClassifyVertex pl v).occurs) = (v.position, v.is_clipped, v.occurs) := by
    intro v hv
    rw [hclass v hv]
    split
    · rfl
    · split <;> rfl
  refine ⟨?_, rfl, rfl, by simp [ptcPhase1], ?_, hclass⟩
  · rw [ptcClip]
    simp [h]
  · show ((m.vertices.map (ptcClassifyVertex pl)).map fun v => (v.position, v.is_clipped, v.occurs)) = _
    rw [List.map_map]
    exact List.map_congr_left hfields

/-- Witness for C7's amended theorem: the redundant plane over the small
seed cube. -/
theorem noclip_frame_witness :
    ptcCountClipped seedW1 plRedundant = 0 ∧
    ptcClip seedW1 plRedundant = some (ptcPhase1 seedW1 plRedundant) ∧
    (ptcPhase1 seedW1 plRedundant).edges = seedW1.edges ∧
    ((ptcPhase1 seedW1 plRedundant).vertices.map fun v => (v.position, v.is_clipped, v.occurs)) =
      (seedW1.vertices.map fun v => (v.position, v.is_clipped, v.occurs)) := by
  have h0 : ptcCountClipped seedW1 plRedundant = 0 := of_decide_eq_true (by with_unfolding_all rfl)
  have h := noclip_frame seedW1 plRedundant h0
  exact ⟨h0, h.1, h.2.1, h.2.2.2.2.1⟩

/-- Pointwise description of a list update through `getD`. -/
theorem getD_set_cases {α : Type} [Inhabited α] (l : List α) (k i : ℕ) (w : α) :
    (l.set k w).getD i default = if k = i ∧ i < l.length then w else l.getD i default := by
  induction l generalizing k i with
  | nil => simp
  | cons a t ih =>
    cases k with
    | zero =>
      cases i with
      | zero => simp
      | succ n => simp
    | succ kk =>
      cases i with
      | zero => simp
      | succ n =>
        simp only [List.set_cons_succ, List.getD_cons_succ, ih kk n, List.length_cons]
        exact if_congr (by constructor <;> rintro ⟨h1, h2⟩ <;> exact ⟨by omega, by omega⟩) rfl rfl

/-- `getD` through a `map`, inside the range. -/
theorem getD_map_lt {α β : Type} [Inhabited α] [Inhabited β] (f : α → β) (l : List α) (i : ℕ)
    (hi : i < l.length) :
    (l.map f).getD i default = f (l.getD i default) := by
  rw [List.getD_eq_getElem _ _ (by simpa using hi), List.getD_eq_getElem _ _ hi,
    List.getElem_map]

/-- `FlagsLe` is reflexive. -/
theorem flagsLe_refl (m : PtcMesh) : FlagsLe m m :=
  ⟨le_refl _, le_refl _, le_refl _, fun _ h => h, fun _ h => h, fun _ h => h⟩

/-- `FlagsLe` is transitive. -/
theorem flagsLe_trans {a b c : PtcMesh} (h1 : FlagsLe a b) (h2 : FlagsLe b c) : FlagsLe a c :=
  ⟨le_trans h1.1 h2.1, le_trans h1.2.1 h2.2.1, le_trans h1.2.2.1 h2.2.2.1,
   fun i h => h2.2.2.2.1 i (h1.2.2.2.1 i h),
   fun i h => h2.2.2.2.2.1 i (h1.2.2.2.2.1 i h),
   fun i h => h2.2.2.2.2.2 i (h1.2.2.2.2.2 i h)⟩

/-- Phase 1 of `ptc_clip` only grows nothing and only sets clipped
flags on vertices. -/
theorem ptcPhase1_flagsLe (m : PtcMesh) (pl : Plane) : FlagsLe m (ptcPhase1 m pl) := by
  refine ⟨by simp [ptcPhase1], by simp [ptcPhase1], by simp [ptcPhase1], ?_, fun _ h => h,
    fun _ h => h⟩
  intro i h
  show ((m.vertices.map (ptcClassifyVertex pl)).getD i default).is_clipped = true
  by_cases hi : i < m.vertices.length
  · rw [getD_map_lt _ _ _ hi]
    rw [ptcClassifyVertex, if_pos h]
    exact h
  · rw [List.getD_eq_default _ _ (by simpa using Nat.le_of_not_lt hi)] at h ⊢
    exact h

/-- `ptc__remove_face_edge` leaves vertices and edges alone, keeps the
face count, and only turns face flags on. -/
theorem ptcRemoveFaceEdge_effects (m : PtcMesh) (fc : ℤ) (ei : ℕ) :
    (ptcRemoveFaceEdge m fc ei).vertices = m.vertices ∧
    (ptcRemoveFaceEdge m fc ei).edges = m.edges ∧
    (ptcRemoveFaceEdge m fc ei).faces.length = m.faces.length ∧
    ∀ i, (m.faces.getD i default).is_clipped = true →
      ((ptcRemoveFaceEdge m fc ei).faces.getD i default).is_clipped = true := by
  rw [ptcRemoveFaceEdge]
  by_cases hf : fc < 0
  · simp [hf]
  · simp only [hf, if_false]
    refine ⟨by simp, by simp, by simp, ?_⟩
    intro i hi
    rw [getD_set_cases]
    split
    · next hcond =>
      rw [← hcond.1] at hi
      show (if (ptcRemoveList (m.faces.getD fc.toNat default).edges ei).length = 0 then true
        else (m.faces.getD fc.toNat default).is_clipped) = true
      rw [hi]
      split <;> rfl
    · exact hi

/-- The edge pass body: vertices are only appended (and the appended
vertex is visible), edge and face counts are stable, and edge and face
flags are only turned on. -/
theorem ptcClipEdge_effects (m : PtcMesh) (ei : ℕ) :
    ((ptcClipEdge m ei).vertices = m.vertices ∨
      ∃ w : PtcVertex, w.is_clipped = false ∧ (ptcClipEdge m ei).vertices = m.vertices ++ [w]) ∧
    (ptcClipEdge m ei).edges.length = m.edges.length ∧
    (ptcClipEdge m ei).faces.length = m.faces.length ∧
    (∀ i, (m.edges.getD i default).is_clipped = true →
      ((ptcClipEdge m ei).edges.getD i default).is_clipped = true) ∧
    (∀ i, (m.faces.getD i default).is_clipped = true →
      ((ptcClipEdge m ei).faces.getD i default).is_clipped = true) := by
  rw [ptcClipEdge]
  split
  · exact ⟨Or.inl rfl, rfl, rfl, fun _ h => h, fun _ h => h⟩
  · next hvis =>
    dsimp only
    split
    · -- both endpoints clipped: mark the edge, remove it from both faces
      have h1 := ptcRemoveFaceEdge_effects
        { m with edges := m.edges.set ei { m.edges.getD ei default with is_clipped := true } }
        (m.edges.getD ei default).f0 ei
      have h2 := ptcRemoveFaceEdge_effects
        (ptcRemoveFaceEdge
          { m with edges := m.edges.set ei { m.edges.getD ei default with is_clipped := true } }
          (m.edges.getD ei default).f0 ei)
        (m.edges.getD ei default).f1 ei
      refine ⟨Or.inl (h2.1.trans h1.1), ?_, ?_, ?_, ?_⟩
      · rw [h2.2.1, h1.2.1]; simp
      · rw [h2.2.2.1, h1.2.2.1]
      · intro i hi
        rw [h2.2.1, h1.2.1]
        show ((m.edges.set ei { m.edges.getD ei default with is_clipped := true }).getD i
          default).is_clipped = true
        rw [getD_set_cases]
        split
        · rfl
        · exact hi
      · intro i hi
        exact h2.2.2.2 i (h1.2.2.2 i hi)
    · split
      · -- fully visible edge: untouched
        exact ⟨Or.inl rfl, rfl, rfl, fun _ h => h, fun _ h => h⟩
      · -- split: append a visible vertex and rewrite one endpoint slot
        refine ⟨Or.inr ⟨⟨_, 0, false, 0⟩, rfl, by rw [ptcAddVertex]⟩,
          by simp [ptcAddVertex], by simp [ptcAddVertex], ?_, ?_⟩
        · intro i hi
          show ((m.edges.set ei _).getD i default).is_clipped = true
          rw [getD_set_cases]
          split
          · next hcond =>
            rw [← hcond.1] at hi
            split <;> exact hi
          · exact hi
        · exact fun _ h => h

/-- Updating a vertex's occurrence counter in place never changes a
visibility flag. -/
theorem set_occurs_flag (l : List PtcVertex) (k n i : ℕ) :
    ((l.set k { l.getD k default with occurs := n }).getD i default).is_clipped =
    (l.getD i default).is_clipped := by
  rw [getD_set_cases]
  split
  · next h => rw [h.1]
  · rfl

/-- Updating a face's edge list in place never changes its visibility
flag. -/
theorem set_face_edges_flag (l : List PtcFace) (k : ℕ) (es : List ℕ) (i : ℕ) :
    ((l.set k { l.getD k default with edges := es }).getD i default).is_clipped =
    (l.getD i default).is_clipped := by
  rw [getD_set_cases]
  split
  · next h => rw [h.1]
  · rfl

/-- Filling an edge's first face slot never changes its visibility flag. -/
theorem set_edge_f0_flag (l : List PtcEdge) (k : ℕ) (fc : ℤ) (i : ℕ) :
    ((l.set k { l.getD k default with f0 := fc }).getD i default).is_clipped =
    (l.getD i default).is_clipped := by
  rw [getD_set_cases]
  split
  · next h => rw [h.1]
  · rfl

/-- Filling an edge's second face slot never changes its visibility
flag. -/
theorem set_edge_f1_flag (l : List PtcEdge) (k : ℕ) (fc : ℤ) (i : ℕ) :
    ((l.set k { l.getD k default with f1 := fc }).getD i default).is_clipped =
    (l.getD i default).is_clipped := by
  rw [getD_set_cases]
  split
  · next h => rw [h.1]
  · rfl

/-- One occurrence-zeroing step touches only occurrence counters. -/
theorem ptcZeroStep_effects (m : PtcMesh) (j : ℕ) :
    (ptcZeroStep m j).edges = m.edges ∧ (ptcZeroStep m j).faces = m.faces ∧
    (ptcZeroStep m j).vertices.length = m.vertices.length ∧
    ∀ i, ((ptcZeroStep m j).vertices.getD i default).is_clipped =
      (m.vertices.getD i default).is_clipped := by
  refine ⟨rfl, rfl, by simp [ptcZeroStep], ?_⟩
  intro i
  simp only [ptcZeroStep]
  rw [set_occurs_flag, set_occurs_flag]

/-- One occurrence-counting step touches only occurrence counters. -/
theorem ptcCountStep_effects (m : PtcMesh) (j : ℕ) :
    (ptcCountStep m j).edges = m.edges ∧ (ptcCountStep m j).faces = m.faces ∧
    (ptcCountStep m j).vertices.length = m.vertices.length ∧
    ∀ i, ((ptcCountStep m j).vertices.getD i default).is_clipped =
      (m.vertices.getD i default).is_clipped := by
  refine ⟨rfl, rfl, by simp [ptcCountStep], ?_⟩
  intro i
  simp only [ptcCountStep]
  rw [set_occurs_flag, set_occurs_flag]

/-- Folding any step that keeps the edge array, the face array, the
vertex count, and every vertex flag keeps all four as well. -/
theorem foldl_occurs_effects (step : PtcMesh → ℕ → PtcMesh)
    (hstep : ∀ (m : PtcMesh) (j : ℕ), (step m j).edges = m.edges ∧
      (step m j).faces = m.faces ∧
      (step m j).vertices.length = m.vertices.length ∧
      ∀ i, ((step m j).vertices.getD i default).is_clipped =
        (m.vertices.getD i default).is_clipped)
    (l : List ℕ) (m : PtcMesh) :
    (l.foldl step m).edges = m.edges ∧ (l.foldl step m).faces = m.faces ∧
    (l.foldl step m).vertices.length = m.vertices.length ∧
    ∀ i, ((l.foldl step m).vertices.getD i default).is_clipped =
      (m.vertices.getD i default).is_clipped := by
  induction l generalizing m with
  | nil => exact ⟨rfl, rfl, rfl, fun _ => rfl⟩
  | cons j t ih =>
    rw [List.foldl_cons]
    obtain ⟨e1, e2, e3, e4⟩ := ih (step m j)
    obtain ⟨s1, s2, s3, s4⟩ := hstep m j
    exact ⟨e1.trans s1, e2.trans s2, e3.trans s3, fun i => (e4 i).trans (s4 i)⟩

/-- The occurrence-recomputation of step three (zero, then count) keeps
the edge array, the face array, the vertex count and every vertex flag. -/
theorem ptcOccurs_effects (m : PtcMesh) (f : PtcFace) :
    (ptcCountOccurs (ptcZeroOccurs m f) f).edges = m.edges ∧
    (ptcCountOccurs (ptcZeroOccurs m f) f).faces = m.faces ∧
    (ptcCountOccurs (ptcZeroOccurs m f) f).vertices.length = m.vertices.length ∧
    ∀ i, ((ptcCountOccurs (ptcZeroOccurs m f) f).vertices.getD i default).is_clipped =
      (m.vertices.getD i default).is_clipped := by
  obtain ⟨z1, z2, z3, z4⟩ := foldl_occurs_effects ptcZeroStep ptcZeroStep_effects f.edges m
  obtain ⟨c1, c2, c3, c4⟩ :=
    foldl_occurs_effects ptcCountStep ptcCountStep_effects f.edges (ptcZeroOccurs m f)
  exact ⟨c1.trans z1, c2.trans z2, c3.trans z3, fun i => (c4 i).trans (z4 i)⟩

/-- `ptc__add_edge` only appends one visible edge. -/
theorem ptcAddEdge_effects (m : PtcMesh) (a b : ℕ) :
    (ptcAddEdge m a b).vertices = m.vertices ∧
    (ptcAddEdge m a b).faces = m.faces ∧
    (ptcAddEdge m a b).edges.length = m.edges.length + 1 ∧
    (∀ i, i < m.edges.length →
      (ptcAddEdge m a b).edges.getD i default = m.edges.getD i default) ∧
    (∀ i, m.edges.length ≤ i →
      ((ptcAddEdge m a b).edges.getD i default).is_clipped = false) := by
  refine ⟨rfl, rfl, by simp [ptcAddEdge], ?_, ?_⟩
  · intro i hi
    exact List.getD_append _ _ _ _ hi
  · intro i hi
    rcases eq_or_lt_of_le hi with heq | hlt
    · show ((m.edges ++ [(⟨a, b, -1, -1, false⟩ : PtcEdge)]).getD i default).is_clipped = false
      rw [List.getD_append_right _ _ _ _ (le_of_eq heq), ← heq, Nat.sub_self]
      rfl
    · show ((m.edges ++ [(⟨a, b, -1, -1, false⟩ : PtcEdge)]).getD i default).is_clipped = false
      rw [List.getD_eq_default _ _ (by simpa using hlt)]
      rfl

/-- `ptc__add_face` only appends one visible face. -/
theorem ptcAddFace_effects (m : PtcMesh) (n : Vec3) :
    (ptcAddFace m n).vertices = m.vertices ∧
    (ptcAddFace m n).edges = m.edges ∧
    (ptcAddFace m n).faces.length = m.faces.length + 1 ∧
    (∀ i, i < m.faces.length →
      (ptcAddFace m n).faces.getD i default = m.faces.getD i default) ∧
    (∀ i, m.faces.length ≤ i →
      ((ptcAddFace m n).faces.getD i default).is_clipped = false) := by
  refine ⟨rfl, rfl, by simp [ptcAddFace], ?_, ?_⟩
  · intro i hi
    exact List.getD_append _ _ _ _ hi
  · intro i hi
    rcases eq_or_lt_of_le hi with heq | hlt
    · show ((m.faces ++ [(⟨[], n, false⟩ : PtcFace)]).getD i default).is_clipped = false
      rw [List.getD_append_right _ _ _ _ (le_of_eq heq), ← heq, Nat.sub_self]
      rfl
    · show ((m.faces ++ [(⟨[], n, false⟩ : PtcFace)]).getD i default).is_clipped = false
      rw [List.getD_eq_default _ _ (by simpa using hlt)]
      rfl

/-- `ptc__add_face_edge` keeps all three array lengths, the vertex array,
and every edge and face flag. -/
theorem ptcAddFaceEdge_effects (m : PtcMesh) (fc : ℤ) (ei : ℕ) :
    (ptcAddFaceEdge m fc ei).vertices = m.vertices ∧
    (ptcAddFaceEdge m fc ei).edges.length = m.edges.length ∧
    (ptcAddFaceEdge m fc ei).faces.length = m.faces.length ∧
    (∀ i, ((ptcAddFaceEdge m fc ei).edges.getD i default).is_clipped =
      (m.edges.getD i default).is_clipped) ∧
    (∀ i, ((ptcAddFaceEdge m fc ei).faces.getD i default).is_clipped =
      (m.faces.getD i default).is_clipped) := by
  simp only [ptcAddFaceEdge]
  split
  · exact ⟨rfl, rfl, rfl, fun _ => rfl, fun _ => rfl⟩
  · split
    · refine ⟨rfl, by simp, by simp, fun i => ?_, fun i => ?_⟩
      · exact set_edge_f0_flag m.edges ei fc i
      · exact set_face_edges_flag m.faces fc.toNat _ i
    · split
      · refine ⟨rfl, by simp, by simp, fun i => ?_, fun i => ?_⟩
        · exact set_edge_f1_flag m.edges ei fc i
        · exact set_face_edges_flag m.faces fc.toNat _ i
      · exact ⟨rfl, by simp, by simp, fun _ => rfl,
          fun i => set_face_edges_flag m.faces fc.toNat _ i⟩

/-- The closure-edge wiring of step three (add the edge, wire it into the
processed face and the cap face): faces keep their count and flags, the
vertex array is untouched, exactly one edge is appended, old edge flags
are kept and the new slot is visible. -/
theorem ptcAddChain_effects (m2 : PtcMesh) (p q : ℕ) (g0 g1 : ℤ) (ei : ℕ) :
    (ptcAddFaceEdge (ptcAddFaceEdge (ptcAddEdge m2 p q) g0 ei) g1 ei).vertices
      = m2.vertices ∧
    (ptcAddFaceEdge (ptcAddFaceEdge (ptcAddEdge m2 p q) g0 ei) g1 ei).faces.length
      = m2.faces.length ∧
    (∀ i, ((ptcAddFaceEdge (ptcAddFaceEdge (ptcAddEdge m2 p q) g0 ei) g1 ei).faces.getD i
      default).is_clipped = (m2.faces.getD i default).is_clipped) ∧
    (ptcAddFaceEdge (ptcAddFaceEdge (ptcAddEdge m2 p q) g0 ei) g1 ei).edges.length
      = m2.edges.length + 1 ∧
    (∀ i, i < m2.edges.length →
      ((ptcAddFaceEdge (ptcAddFaceEdge (ptcAddEdge m2 p q) g0 ei) g1 ei).edges.getD i
        default).is_clipped = (m2.edges.getD i default).is_clipped) ∧
    (∀ i, m2.edges.length ≤ i →
      ((ptcAddFaceEdge (ptcAddFaceEdge (ptcAddEdge m2 p q) g0 ei) g1 ei).edges.getD i
        default).is_clipped = false) := by
  obtain ⟨a1, a2, a3, a4, a5⟩ := ptcAddEdge_effects m2 p q
  obtain ⟨b1, b2, b3, b4, b5⟩ := ptcAddFaceEdge_effects (ptcAddEdge m2 p q) g0 ei
  obtain ⟨d1, d2, d3, d4, d5⟩ :=
    ptcAddFaceEdge_effects (ptcAddFaceEdge (ptcAddEdge m2 p q) g0 ei) g1 ei
  refine ⟨?_, ?_, fun i => ?_, ?_, fun i hi => ?_, fun i hi => ?_⟩
  · rw [d1, b1, a1]
  · rw [d3, b3, a2]
  · rw [d5 i, b5 i, a2]
  · rw [d2, b2, a3]
  · rw [d4 i, b4 i, a4 i hi]
  · rw [d4 i, b4 i]
    exact a5 i hi

/-- The face-closure body: a successful `ptcProcessFace` keeps the vertex
count and flags, the face count and flags, can only append edges, keeps
old edge flags, and every edge slot at or beyond the old count is
visible. -/
theorem ptcProcessFace_effects (capIdx : ℕ) (m : PtcMesh) (fi : ℕ) (m' : PtcMesh)
    (h : ptcProcessFace capIdx m fi = some m') :
    m'.vertices.length = m.vertices.length ∧
    (∀ i, (m'.vertices.getD i default).is_clipped = (m.vertices.getD i default).is_clipped) ∧
    m'.faces.length = m.faces.length ∧
    (∀ i, (m'.faces.getD i default).is_clipped = (m.faces.getD i default).is_clipped) ∧
    m.edges.length ≤ m'.edges.length ∧
    (∀ i, i < m.edges.length →
      (m'.edges.getD i default).is_clipped = (m.edges.getD i default).is_clipped) ∧
    (∀ i, m.edges.length ≤ i → (m'.edges.getD i default).is_clipped = false) := by
  simp only [ptcProcessFace] at h
  obtain ⟨o1, o2, o3, o4⟩ := ptcOccurs_effects m (m.faces.getD fi default)
  split at h
  · cases h
    exact ⟨rfl, fun _ => rfl, rfl, fun _ => rfl, le_refl _, fun _ _ => rfl,
      fun i hi => by rw [List.getD_eq_default _ _ hi]; rfl⟩
  · split at h
    · exact Option.noConfusion h
    · split at h
      · cases h
        obtain ⟨k1, k2, k3, k4, k5, k6⟩ := ptcAddChain_effects
          (ptcCountOccurs (ptcZeroOccurs m (m.faces.getD fi default))
            (m.faces.getD fi default)) _ _ _ _ _
        refine ⟨?_, fun i => ?_, ?_, fun i => ?_, ?_, fun i hi => ?_, fun i hi => ?_⟩
        · rw [k1, o3]
        · rw [k1]
          exact o4 i
        · rw [k2, o2]
        · rw [k3 i, o2]
        · rw [k4, o1]
          omega
        · rw [k5 i (by rw [o1]; exact hi), o1]
        · exact k6 i (by rw [o1]; exact hi)
      · cases h
        exact ⟨o3, o4, by rw [o2], fun i => by rw [o2], Nat.le_of_eq (by rw [o1]),
          fun i _ => by rw [o1], fun i hi => by rw [o1, List.getD_eq_default _ _ hi]; rfl⟩

/-- Folding the face-closure body over `none` stays `none`. -/
theorem foldl_face_none (capIdx : ℕ) (l : List ℕ) :
    l.foldl (fun acc fi => acc.bind fun mm => ptcProcessFace capIdx mm fi) none = none := by
  induction l with
  | nil => rfl
  | cons j t ih =>
    rw [List.foldl_cons]
    exact ih

/-- A successful fold of the face-closure body has the effects of
`ptcProcessFace_effects`, accumulated. -/
theorem foldl_processFace_effects (capIdx : ℕ) (l : List ℕ) :
    ∀ (m m' : PtcMesh),
    l.foldl (fun acc fi => acc.bind fun mm => ptcProcessFace capIdx mm fi) (some m)
      = some m' →
    m'.vertices.length = m.vertices.length ∧
    (∀ i, (m'.vertices.getD i default).is_clipped = (m.vertices.getD i default).is_clipped) ∧
    m'.faces.length = m.faces.length ∧
    (∀ i, (m'.faces.getD i default).is_clipped = (m.faces.getD i default).is_clipped) ∧
    m.edges.length ≤ m'.edges.length ∧
    (∀ i, i < m.edges.length →
      (m'.edges.getD i default).is_clipped = (m.edges.getD i default).is_clipped) ∧
    (∀ i, m.edges.length ≤ i → (m'.edges.getD i default).is_clipped = false) := by
  induction l with
  | nil =>
    intro m m' h
    rw [List.foldl_nil] at h
    cases h
    exact ⟨rfl, fun _ => rfl, rfl, fun _ => rfl, le_refl _, fun _ _ => rfl,
      fun i hi => by rw [List.getD_eq_default _ _ hi]; rfl⟩
  | cons j t ih =>
    intro m m' h
    rw [List.foldl_cons] at h
    rw [show ((some m).bind fun mm => ptcProcessFace capIdx mm j)
      = ptcProcessFace capIdx m j from rfl] at h
    cases hstep : ptcProcessFace capIdx m j with
    | none =>
      rw [hstep, foldl_face_none] at h
      exact Option.noConfusion h
    | some mm =>
      rw [hstep] at h
      obtain ⟨f1, f2, f3, f4, f5, f6, f7⟩ := ih mm m' h
      obtain ⟨s1, s2, s3, s4, s5, s6, s7⟩ := ptcProcessFace_effects capIdx m j mm hstep
      refine ⟨f1.trans s1, fun i => (f2 i).trans (s2 i), f3.trans s3,
        fun i => (f4 i).trans (s4 i), le_trans s5 f5, fun i hi => ?_, fun i hi => ?_⟩
      · exact (f6 i (lt_of_lt_of_le hi s5)).trans (s6 i hi)
      · rcases Nat.lt_or_ge i mm.edges.length with hlt | hge
        · exact (f6 i hlt).trans (s7 i hi)
        · exact f7 i hge

/-- The edge pass body never clears a flag and never shrinks an array. -/
theorem ptcClipEdge_flagsLe (m : PtcMesh) (ei : ℕ) : FlagsLe m (ptcClipEdge m ei) := by
  obtain ⟨hv, he, hf, hemono, hfmono⟩ := ptcClipEdge_effects m ei
  refine ⟨?_, le_of_eq he.symm, le_of_eq hf.symm, ?_, hemono, hfmono⟩
  · rcases hv with hh | ⟨w, hw, hh⟩
    · rw [hh]
    · rw [hh]
      simp
  · intro i hi
    rcases hv with hh | ⟨w, hw, hh⟩
    · rw [hh]
      exact hi
    · rw [hh]
      by_cases hlt : i < m.vertices.length
      · rw [List.getD_append _ _ _ _ hlt]
        exact hi
      · rw [List.getD_eq_default _ _ (Nat.le_of_not_lt hlt)] at hi
        exact Bool.noConfusion hi

/-- The edge pass body keeps every vertex slot at or beyond a bound
visible if all such slots were visible before. -/
theorem ptcClipEdge_suffix_visible (m : PtcMesh) (ei n : ℕ)
    (h : ∀ i, n ≤ i → (m.vertices.getD i default).is_clipped = false) :
    ∀ i, n ≤ i → ((ptcClipEdge m ei).vertices.getD i default).is_clipped = false := by
  obtain ⟨hv, _, _, _, _⟩ := ptcClipEdge_effects m ei
  intro i hi
  rcases hv with hh | ⟨w, hw, hh⟩
  · rw [hh]
    exact h i hi
  · rw [hh]
    rcases Nat.lt_or_ge i m.vertices.length with hlt | hge
    · rw [List.getD_append _ _ _ _ hlt]
      exact h i hi
    · rcases Nat.lt_or_ge i (m.vertices.length + 1) with hlt2 | hge2
      · rw [List.getD_append_right _ _ _ _ hge]
        have hz : i - m.vertices.length = 0 := by omega
        rw [hz]
        exact hw
      · rw [List.getD_eq_default _ _ (by simpa using hge2)]
        rfl

/-- Folding the edge pass body: flags are monotone, the edge and face
counts are stable, and visibility of all vertex slots past a bound is
preserved. -/
theorem foldl_clipEdge_effects (l : List ℕ) (m : PtcMesh) :
    FlagsLe m (l.foldl ptcClipEdge m) ∧
    (l.foldl ptcClipEdge m).edges.length = m.edges.length ∧
    (l.foldl ptcClipEdge m).faces.length = m.faces.length ∧
    ∀ n, (∀ i, n ≤ i → (m.vertices.getD i default).is_clipped = false) →
      ∀ i, n ≤ i → ((l.foldl ptcClipEdge m).vertices.getD i default).is_clipped = false := by
  induction l generalizing m with
  | nil => exact ⟨flagsLe_refl m, rfl, rfl, fun n h => h⟩
  | cons j t ih =>
    rw [List.foldl_cons]
    obtain ⟨i1, i2, i3, i4⟩ := ih (ptcClipEdge m j)
    obtain ⟨_, he, hf, _, _⟩ := ptcClipEdge_effects m j
    exact ⟨flagsLe_trans (ptcClipEdge_flagsLe m j) i1, i2.trans he, i3.trans hf,
      fun n h => i4 n (ptcClipEdge_suffix_visible m j n h)⟩

/-- A mesh whose arrays end before the bounds is `NewVisible` for them. -/
theorem newVisible_out_of_range (b : PtcMesh) (n0 n1 n2 : ℕ) (h0 : b.vertices.length ≤ n0)
    (h1 : b.edges.length ≤ n1) (h2 : b.faces.length ≤ n2) : NewVisible n0 n1 n2 b := by
  refine ⟨fun i hi => ?_, fun i hi => ?_, fun i hi => ?_⟩
  · rw [List.getD_eq_default _ _ (le_trans h0 hi)]
    rfl
  · rw [List.getD_eq_default _ _ (le_trans h1 hi)]
    rfl
  · rw [List.getD_eq_default _ _ (le_trans h2 hi)]
    rfl

/-- A successful `ptc_clip` call never clears a visibility flag, never
shrinks an array, and every entity it creates comes into existence
visible. -/
theorem ptcClip_mono (m : PtcMesh) (pl : Plane) (m' : PtcMesh) (h : ptcClip m pl = some m') :
    FlagsLe m m' ∧ NewVisible m.vertices.length m.edges.length m.faces.length m' := by
  simp only [ptcClip] at h
  split at h
  · cases h
    refine ⟨ptcPhase1_flagsLe m pl, newVisible_out_of_range _ _ _ _ ?_ ?_ ?_⟩
    · exact le_of_eq (by simp [ptcPhase1])
    · exact le_of_eq rfl
    · exact le_of_eq rfl
  · obtain ⟨f1, f2, f3, f4, f5, f6, f7⟩ := foldl_processFace_effects _ _ _ _ h
    obtain ⟨q1, q2, q3, q4⟩ :=
      foldl_clipEdge_effects (List.range (ptcPhase1 m pl).edges.length) (ptcPhase1 m pl)
    obtain ⟨a1, a2, a3, a4, a5⟩ := ptcAddFace_effects (ptcPhase2 (ptcPhase1 m pl)) pl.normal
    have hq1 : FlagsLe (ptcPhase1 m pl) (ptcPhase2 (ptcPhase1 m pl)) := q1
    have hAF : FlagsLe (ptcPhase2 (ptcPhase1 m pl))
        (ptcAddFace (ptcPhase2 (ptcPhase1 m pl)) pl.normal) := by
      refine ⟨le_of_eq (by rw [a1]), le_of_eq (by rw [a2]), by rw [a3]; omega,
        fun i hi => by rw [a1]; exact hi, fun i hi => by rw [a2]; exact hi, ?_⟩
      intro i hi
      by_cases hlt : i < (ptcPhase2 (ptcPhase1 m pl)).faces.length
      · rw [a4 i hlt]
        exact hi
      · rw [List.getD_eq_default _ _ (Nat.le_of_not_lt hlt)] at hi
        exact Bool.noConfusion hi
    have hFold : FlagsLe (ptcAddFace (ptcPhase2 (ptcPhase1 m pl)) pl.normal) m' := by
      refine ⟨le_of_eq f1.symm, f5, le_of_eq f3.symm, fun i hi => by rw [f2 i]; exact hi,
        ?_, fun i hi => by rw [f4 i]; exact hi⟩
      intro i hi
      by_cases hlt : i < (ptcAddFace (ptcPhase2 (ptcPhase1 m pl)) pl.normal).edges.length
      · rw [f6 i hlt]
        exact hi
      · rw [List.getD_eq_default _ _ (Nat.le_of_not_lt hlt)] at hi
        exact Bool.noConfusion hi
    have hbase : ∀ i, m.vertices.length ≤ i →
        ((ptcPhase1 m pl).vertices.getD i default).is_clipped = false := by
      intro i hi
      rw [List.getD_eq_default _ _ (by simpa [ptcPhase1] using hi)]
      rfl
    have hlen2 : (ptcPhase2 (ptcPhase1 m pl)).edges.length = m.edges.length := q2
    have hlen3 : (ptcAddFace (ptcPhase2 (ptcPhase1 m pl)) pl.normal).edges.length
        = m.edges.length := by
      rw [a2]
      exact hlen2
    have hflen : (ptcPhase2 (ptcPhase1 m pl)).faces.length = m.faces.length := q3
    refine ⟨flagsLe_trans (ptcPhase1_flagsLe m pl) (flagsLe_trans hq1
      (flagsLe_trans hAF hFold)), ?_, ?_, ?_⟩
    · intro i hi
      rw [f2 i, a1]
      exact q4 m.vertices.length hbase i hi
    · intro i hi
      exact f7 i (by rw [hlen3]; exact hi)
    · intro i hi
      rw [f4 i]
      exact a5 i (by rw [hflen]; exact hi)

/-- Folding `ptc_clip` over `none` stays `none`. -/
theorem foldl_clip_none (l : List Plane) :
    l.foldl (fun acc pl => acc.bind fun mm => ptcClip mm pl) none = none := by
  induction l with
  | nil => rfl
  | cons j t ih =>
    rw [List.foldl_cons]
    exact ih

/-- Flags are monotone across any successful sequence of `ptc_clip`
calls. -/
theorem ptcClipAll_flagsLe (pls : List Plane) :
    ∀ (m m' : PtcMesh), ptcClipAll m pls = some m' → FlagsLe m m' := by
  induction pls with
  | nil =>
    intro m m' h
    rw [ptcClipAll, List.foldl_nil] at h
    cases h
    exact flagsLe_refl _
  | cons pl t ih =>
    intro m m' h
    rw [ptcClipAll, List.foldl_cons] at h
    rw [show ((some m).bind fun mm => ptcClip mm pl) = ptcClip m pl from rfl] at h
    cases hstep : ptcClip m pl with
    | none =>
      rw [hstep, foldl_clip_none] at h
      exact Option.noConfusion h
    | some mm =>
      rw [hstep] at h
      exact flagsLe_trans (ptcClip_mono m pl mm hstep).1 (ih mm m' (by rw [ptcClipAll]; exact h))

/-- C10: visibility is monotone.  Across any successful sequence of
`ptc_clip` calls the three arrays only grow and no vertex, edge, or face
ever goes back from clipped to visible (`FlagsLe`), and within one
successful call every newly created vertex, edge, and face comes into
existence with its `is_clipped` flag clear (`NewVisible` past the old
array bounds). -/
theorem visibility_monotone :
    (∀ (m : PtcMesh) (pls : List Plane) (m' : PtcMesh),
      ptcClipAll m pls = some m' → FlagsLe m m') ∧
    ∀ (m : PtcMesh) (pl : Plane) (m' : PtcMesh),
      ptcClip m pl = some m' →
      NewVisible m.vertices.length m.edges.length m.faces.length m' :=
  ⟨fun m pls m' h => ptcClipAll_flagsLe pls m m' h,
   fun m pl m' h => (ptcClip_mono m pl m' h).2⟩

/-- Witness for C10: the seed cube of half-extent 1 clipped by `x = 0`. -/
theorem visibility_monotone_witness :
    ptcClip seedW1 plCutP = some ptcCutState ∧
    FlagsLe seedW1 ptcCutState ∧
    NewVisible seedW1.vertices.length seedW1.edges.length seedW1.faces.length ptcCutState := by
  have hs : ptcClip seedW1 plCutP = some ptcCutState :=
    of_decide_eq_true (by with_unfolding_all rfl)
  refine ⟨hs, visibility_monotone.1 seedW1 [plCutP] ptcCutState ?_,
    visibility_monotone.2 seedW1 plCutP ptcCutState hs⟩
  rw [ptcClipAll, List.foldl_cons, List.foldl_nil]
  exact hs

/-- `findSome?` returns the common value when every element yields either
`none` or that value and at least one yields it. -/
theorem findSome_eq_of_all {α β : Type} (g : α → Option β) (x : β) :
    ∀ (l : List α), (∀ a ∈ l, g a = none ∨ g a = some x) → (∃ a ∈ l, g a = some x) →
      l.findSome? g = some x := by
  intro l
  induction l with
  | nil =>
    intro _ hex
    obtain ⟨a, ha, _⟩ := hex
    exact absurd ha (List.not_mem_nil a)
  | cons a t ih =>
    intro hall hex
    rw [List.findSome?_cons]
    rcases hall a (List.mem_cons_self a t) with hn | hs
    · rw [hn]
      obtain ⟨b, hb, hbs⟩ := hex
      rcases List.mem_cons.1 hb with rfl | hbt
      · rw [hn] at hbs
        exact Option.noConfusion hbs
      · exact ih (fun p hp => hall p (List.mem_cons_of_mem a hp)) ⟨b, hbt, hbs⟩
    · rw [hs]

/-- `getD` positions of a duplicate-free list are unique. -/
theorem nodup_getD_inj (l : List ℕ) (h : l.Nodup) (i j : ℕ) (hi : i < l.length)
    (hj : j < l.length) (he : l.getD i 0 = l.getD j 0) : i = j := by
  rw [List.getD_eq_getElem _ _ hi, List.getD_eq_getElem _ _ hj] at he
  have h2 := h.get_inj_iff (i := ⟨i, hi⟩) (j := ⟨j, hj⟩)
  simp only [List.get_eq_getElem] at h2
  exact congrArg Fin.val (h2.1 he)

/-- The head of a nonempty list is its entry at position zero. -/
theorem headD_eq_getD_zero (c : List ℕ) (h : c ≠ []) : c.headD 0 = c.getD 0 0 := by
  cases c with
  | nil => exact absurd rfl h
  | cons a t => rfl

/-- The entry at position zero of a nonempty list is a member. -/
theorem getD_zero_mem (l : List ℕ) (h : l ≠ []) : l.getD 0 0 ∈ l := by
  cases l with
  | nil => exact absurd rfl h
  | cons a t => exact List.mem_cons_self a t

/-- Reading the cycle closure `c ++ [head c]` inside `c`. -/
theorem LCgetD_lt (c : List ℕ) (j : ℕ) (h : j < c.length) :
    (c ++ [c.headD 0]).getD j 0 = c.getD j 0 :=
  List.getD_append _ _ _ _ h

/-- Reading the cycle closure at the closing slot gives the head again. -/
theorem LCgetD_len (c : List ℕ) (h : c ≠ []) :
    (c ++ [c.headD 0]).getD c.length 0 = c.getD 0 0 := by
  rw [List.getD_append_right _ _ _ _ (le_refl _), Nat.sub_self]
  exact headD_eq_getD_zero c h

/-- In the closure of a duplicate-free list, an interior value appears at
exactly one position. -/
theorem cyc_unique (c : List ℕ) (hnd : c.Nodup) (k j : ℕ) (hk1 : 1 ≤ k)
    (hk2 : k < c.length) (hj : j < c.length + 1)
    (he : (c ++ [c.headD 0]).getD j 0 = (c ++ [c.headD 0]).getD k 0) : j = k := by
  have hne : c ≠ [] := by
    intro hcn
    rw [hcn] at hk2
    exact absurd hk2 (by simp)
  rw [LCgetD_lt c k hk2] at he
  rcases Nat.lt_or_ge j c.length with hlt | hge
  · rw [LCgetD_lt c j hlt] at he
    exact nodup_getD_inj c hnd j k hlt hk2 he
  · have hj2 : j = c.length := by omega
    rw [hj2, LCgetD_len c hne] at he
    have := nodup_getD_inj c hnd 0 k (by omega) hk2 he
    omega

/-- The two cycle neighbours of an interior position differ (the cycle has
at least three vertices). -/
theorem cyc_neighbors_ne (c : List ℕ) (hnd : c.Nodup) (h3 : 3 ≤ c.length) (k : ℕ)
    (hk1 : 1 ≤ k) (hk2 : k + 1 ≤ c.length) :
    (c ++ [c.headD 0]).getD (k + 1) 0 ≠ (c ++ [c.headD 0]).getD (k - 1) 0 := by
  have hne : c ≠ [] := by
    intro hcn
    rw [hcn] at h3
    exact absurd h3 (by simp)
  intro he
  rw [LCgetD_lt c (k - 1) (by omega)] at he
  rcases Nat.lt_or_ge (k + 1) c.length with hlt | hge
  · rw [LCgetD_lt c (k + 1) hlt] at he
    have := nodup_getD_inj c hnd (k + 1) (k - 1) hlt (by omega) he
    omega
  · have hk3 : k + 1 = c.length := by omega
    rw [hk3, LCgetD_len c hne] at he
    have := nodup_getD_inj c hnd 0 (k - 1) (by omega) (by omega) he
    omega

/-- Appending one entry extends the consecutive pairs by one pair. -/
theorem pathSyms_snoc (u : ℕ) : ∀ (X : List ℕ), X ≠ [] →
    pathSyms (X ++ [u]) = pathSyms X ++ [Sym2.mk (X.getLastD 0, u)] := by
  intro X
  induction X with
  | nil => intro h; exact absurd rfl h
  | cons a t ih =>
    intro _
    cases t with
    | nil => rfl
    | cons b t2 =>
      have h2 := ih (by simp)
      simp only [List.cons_append, List.append_eq, pathSyms] at h2 ⊢
      rw [h2]
      simp [List.getLastD_eq_getLast?, List.getLast?_cons_cons]

/-- The consecutive pairs of a list, characterised by position. -/
theorem mem_pathSyms (s : Sym2 ℕ) : ∀ (L : List ℕ),
    (s ∈ pathSyms L ↔ ∃ i, i + 1 < L.length ∧ s = Sym2.mk (L.getD i 0, L.getD (i + 1) 0)) := by
  intro L
  induction L with
  | nil => simp [pathSyms]
  | cons a t ih =>
    cases t with
    | nil =>
      simp [pathSyms]
    | cons b t2 =>
      simp only [pathSyms, List.mem_cons, ih]
      constructor
      · rintro (rfl | ⟨i, hi, rfl⟩)
        · exact ⟨0, by simp, rfl⟩
        · exact ⟨i + 1, by simpa using hi, by simp⟩
      · rintro ⟨i, hi, rfl⟩
        cases i with
        | zero => exact Or.inl rfl
        | succ k =>
          right
          exact ⟨k, by simpa using hi, by simp⟩

/-- Rotating a cycle listing by one permutes its cycle pairs. -/
theorem cycleSyms_rotate_one (c : List ℕ) (h : c ≠ []) :
    (cycleSyms (c.rotate 1)).Perm (cycleSyms c) := by
  cases c with
  | nil => exact absurd rfl h
  | cons a t =>
    cases t with
    | nil => simp [List.rotate]
    | cons b t2 =>
      rw [show (a :: b :: t2).rotate 1 = (b :: t2) ++ [a] by
        simpa using List.rotate_cons_succ (b :: t2) a 0]
      rw [cycleSyms, cycleSyms]
      have hh : ((b :: t2) ++ [a]).headD 0 = b := by simp
      rw [hh]
      rw [pathSyms_snoc b ((b :: t2) ++ [a]) (by simp)]
      have hl : ((b :: t2) ++ [a]).getLastD 0 = a := List.getLastD_concat _ _ _
      rw [hl]
      have hcyc : pathSyms ((a :: b :: t2) ++ [(a :: b :: t2).headD 0]) =
          Sym2.mk (a, b) :: pathSyms ((b :: t2) ++ [a]) := by
        simp only [List.headD_cons, List.cons_append, List.append_eq, pathSyms]
      rw [hcyc]
      exact List.perm_append_singleton _ _

/-- Rotating a cycle listing permutes its cycle pairs. -/
theorem cycleSyms_rotate (r : ℕ) : ∀ (c : List ℕ), c ≠ [] →
    (cycleSyms (c.rotate r)).Perm (cycleSyms c) := by
  induction r with
  | zero =>
    intro c _
    rw [List.rotate_zero]
  | succ rr ih =>
    intro c h
    have h2 : c.rotate (rr + 1) = (c.rotate 1).rotate rr := by
      rw [List.rotate_rotate, Nat.add_comm]
    rw [h2]
    exact (ih (c.rotate 1) (by simpa [List.rotate_eq_nil_iff] using h)).trans
      (cycleSyms_rotate_one c h)

/-- The consecutive pairs of a reversed list are the reversed pair list
(each unordered pair is unchanged). -/
theorem pathSyms_reverse : ∀ (L : List ℕ), pathSyms L.reverse = (pathSyms L).reverse := by
  intro L
  induction L with
  | nil => rfl
  | cons a t ih =>
    cases t with
    | nil => rfl
    | cons b t2 =>
      rw [List.reverse_cons, pathSyms_snoc a _ (by simp)]
      rw [ih]
      have hl : (b :: t2).reverse.getLastD 0 = b := by
        simp [List.getLastD_eq_getLast?, List.getLast?_reverse]
      rw [hl]
      simp only [pathSyms, List.reverse_cons]
      rw [Sym2.eq_swap]

/-- Reversing a cycle listing permutes its cycle pairs. -/
theorem cycleSyms_reverse (c : List ℕ) : (cycleSyms c.reverse).Perm (cycleSyms c) := by
  cases c with
  | nil => exact List.Perm.refl _
  | cons a t =>
    rw [cycleSyms, cycleSyms]
    have hh : (a :: t).reverse.headD 0 = (a :: t).getLastD 0 := by
      rw [List.headD_eq_head?, List.head?_reverse, List.getLastD_eq_getLast?]
    rw [hh]
    have h2 : (a :: t).reverse ++ [(a :: t).getLastD 0] =
        ((a :: t).getLastD 0 :: (a :: t)).reverse := by
      simp
    rw [h2, pathSyms_reverse]
    refine (List.reverse_perm _).trans ?_
    have h3 : pathSyms ((a :: t).getLastD 0 :: a :: t) =
        Sym2.mk ((a :: t).getLastD 0, a) :: pathSyms (a :: t) := rfl
    rw [h3]
    have h4 : pathSyms ((a :: t) ++ [a]) =
        pathSyms (a :: t) ++ [Sym2.mk ((a :: t).getLastD 0, a)] :=
      pathSyms_snoc a (a :: t) (by simp)
    rw [List.headD_cons, h4]
    exact (List.perm_append_singleton _ _).symm

/-- The head of a rotated listing. -/
theorem rot_getD_zero (c : List ℕ) (i : ℕ) (h : i < c.length) :
    (c.rotate i).getD 0 0 = c.getD i 0 := by
  have h0 : 0 < (c.rotate i).length := by
    rw [List.length_rotate]
    omega
  rw [List.getD_eq_getElem _ _ h0, List.getElem_rotate, List.getD_eq_getElem _ _ h]
  simp [Nat.mod_eq_of_lt h]

/-- The second entry of a rotated listing, read on the cycle closure. -/
theorem rot_getD_one (c : List ℕ) (i : ℕ) (h2 : 2 ≤ c.length) (h : i < c.length) :
    (c.rotate i).getD 1 0 = (c ++ [c.headD 0]).getD (i + 1) 0 := by
  have h1 : 1 < (c.rotate i).length := by
    rw [List.length_rotate]
    omega
  rw [List.getD_eq_getElem _ _ h1, List.getElem_rotate]
  rcases Nat.lt_or_ge (i + 1) c.length with hlt | hge
  · rw [LCgetD_lt c (i + 1) hlt, List.getD_eq_getElem _ _ hlt]
    congr 1
    rw [Nat.mod_eq_of_lt (by omega)]
    omega
  · have hi2 : i + 1 = c.length := by omega
    rw [hi2, LCgetD_len c (by intro hcn; rw [hcn] at h; exact absurd h (by simp))]
    rw [List.getD_eq_getElem _ _ (by omega : 0 < c.length)]
    congr 1
    rw [Nat.add_comm, hi2, Nat.mod_self]

/-- The head of the reflected-and-rotated listing is the old second
entry. -/
theorem revrot_getD_zero (c : List ℕ) (i : ℕ) (h3 : 3 ≤ c.length) :
    (((c.rotate i).reverse).rotate (c.length - 2)).getD 0 0 = (c.rotate i).getD 1 0 := by
  have hlen : ((c.rotate i).reverse).length = c.length := by
    rw [List.length_reverse, List.length_rotate]
  have h0 : 0 < (((c.rotate i).reverse).rotate (c.length - 2)).length := by
    rw [List.length_rotate, hlen]
    omega
  rw [List.getD_eq_getElem _ _ h0, List.getElem_rotate, List.getElem_reverse]
  rw [List.getD_eq_getElem _ _ (by rw [List.length_rotate]; omega : 1 < (c.rotate i).length)]
  congr 1
  rw [hlen, Nat.mod_eq_of_lt (by omega), List.length_rotate]
  omega

/-- The second entry of the reflected-and-rotated listing is the old
head. -/
theorem revrot_getD_one (c : List ℕ) (i : ℕ) (h3 : 3 ≤ c.length) :
    (((c.rotate i).reverse).rotate (c.length - 2)).getD 1 0 = (c.rotate i).getD 0 0 := by
  have hlen : ((c.rotate i).reverse).length = c.length := by
    rw [List.length_reverse, List.length_rotate]
  have h1 : 1 < (((c.rotate i).reverse).rotate (c.length - 2)).length := by
    rw [List.length_rotate, hlen]
    omega
  rw [List.getD_eq_getElem _ _ h1, List.getElem_rotate, List.getElem_reverse]
  rw [List.getD_eq_getElem _ _ (by rw [List.length_rotate]; omega : 0 < (c.rotate i).length)]
  congr 1
  rw [hlen, Nat.mod_eq_of_lt (by omega), List.length_rotate]
  omega

/-- A nonempty list with at least two entries is its first two entries
followed by the rest. -/
theorem take_two_cons (L : List ℕ) (h : 2 ≤ L.length) :
    L = L.getD 0 0 :: L.getD 1 0 :: L.drop 2 := by
  cases L with
  | nil => simp at h
  | cons a t =>
    cases t with
    | nil => simp at h
    | cons b t2 => rfl

/-- The endpoint scan of `ptc_get_vertices` on a face whose edge pairs
form a simple cycle of length at least three: from an interior position
the scan finds exactly the cycle successor (every matching edge yields it,
and one such edge exists). -/
theorem ptcFindNext_cycle (m : PtcMesh) (f : PtcFace) (c : List ℕ)
    (hnd : c.Nodup) (h3 : 3 ≤ c.length)
    (hperm : (faceSyms m f).Perm (cycleSyms c))
    (k : ℕ) (hk1 : 1 ≤ k) (hk2 : k + 1 ≤ c.length) :
    ptcFindNext m f ((c ++ [c.headD 0]).getD k 0) ((c ++ [c.headD 0]).getD (k - 1) 0) =
      some ((c ++ [c.headD 0]).getD (k + 1) 0) := by
  have hLClen : (c ++ [c.headD 0]).length = c.length + 1 := by simp
  unfold ptcFindNext
  apply findSome_eq_of_all
  · intro j hj
    dsimp only
    have hsym : Sym2.mk ((m.edges.getD j default).v0, (m.edges.getD j default).v1)
        ∈ cycleSyms c :=
      (hperm.mem_iff).1 (List.mem_map_of_mem _ hj)
    obtain ⟨i, hilen, hieq⟩ := (mem_pathSyms _ _).1 hsym
    rw [hLClen] at hilen
    by_cases hc1 : (m.edges.getD j default).v0 = (c ++ [c.headD 0]).getD k 0 ∧
        (m.edges.getD j default).v1 ≠ (c ++ [c.headD 0]).getD (k - 1) 0
    · right
      rw [if_pos hc1]
      rcases Sym2.eq_iff.1 hieq with ⟨hu, hv⟩ | ⟨hu, hv⟩
      · have hik : i = k :=
          cyc_unique c hnd k i hk1 (by omega) (by omega) (hu.symm.trans hc1.1)
        rw [hv, hik]
      · have hik : i + 1 = k :=
          cyc_unique c hnd k (i + 1) hk1 (by omega) (by omega) (hu.symm.trans hc1.1)
        exfalso
        apply hc1.2
        rw [hv]
        congr 1
        omega
    · by_cases hc2 : (m.edges.getD j default).v1 = (c ++ [c.headD 0]).getD k 0 ∧
          (m.edges.getD j default).v0 ≠ (c ++ [c.headD 0]).getD (k - 1) 0
      · right
        rw [if_neg hc1, if_pos hc2]
        rcases Sym2.eq_iff.1 hieq with ⟨hu, hv⟩ | ⟨hu, hv⟩
        · have hik : i + 1 = k :=
            cyc_unique c hnd k (i + 1) hk1 (by omega) (by omega) (hv.symm.trans hc2.1)
          exfalso
          apply hc2.2
          rw [hu]
          congr 1
          omega
        · have hik : i = k :=
            cyc_unique c hnd k i hk1 (by omega) (by omega) (hv.symm.trans hc2.1)
          rw [hu, hik]
      · left
        rw [if_neg hc1, if_neg hc2]
  · have hmem : Sym2.mk ((c ++ [c.headD 0]).getD k 0, (c ++ [c.headD 0]).getD (k + 1) 0)
        ∈ cycleSyms c := by
      apply (mem_pathSyms _ _).2
      exact ⟨k, by rw [hLClen]; omega, rfl⟩
    obtain ⟨j, hj, hje⟩ := List.mem_map.1 ((hperm.mem_iff).2 hmem)
    refine ⟨j, hj, ?_⟩
    dsimp only
    have hieq : Sym2.mk ((m.edges.getD j default).v0, (m.edges.getD j default).v1) =
        Sym2.mk ((c ++ [c.headD 0]).getD k 0, (c ++ [c.headD 0]).getD (k + 1) 0) := hje
    have hne := cyc_neighbors_ne c hnd h3 k hk1 hk2
    rcases Sym2.eq_iff.1 hieq with ⟨hu, hv⟩ | ⟨hu, hv⟩
    · rw [if_pos ⟨hu, by rw [hv]; exact hne⟩, hv]
    · have h1false : ¬((m.edges.getD j default).v0 = (c ++ [c.headD 0]).getD k 0 ∧
          (m.edges.getD j default).v1 ≠ (c ++ [c.headD 0]).getD (k - 1) 0) := by
        rintro ⟨ha, _⟩
        have := cyc_unique c hnd k (k + 1) hk1 (by omega) (by rw [hLClen] at *; omega)
          (hu.symm.trans ha)
        omega
      rw [if_neg h1false, if_pos ⟨hv, by rw [hu]; exact hne⟩, hu]

/-- The loop-population recursion follows the cycle from any interior
position to the closing slot. -/
theorem ptcWalkAux_cycle (m : PtcMesh) (f : PtcFace) (c : List ℕ)
    (hnd : c.Nodup) (h3 : 3 ≤ c.length)
    (hperm : (faceSyms m f).Perm (cycleSyms c)) :
    ∀ (d k : ℕ), 1 ≤ k → k + d = c.length →
      ptcWalkAux m f d ((c ++ [c.headD 0]).getD (k - 1) 0) ((c ++ [c.headD 0]).getD k 0) =
        (c ++ [c.headD 0]).drop (k + 1) := by
  intro d
  induction d with
  | zero =>
    intro k hk1 hkd
    rw [show ptcWalkAux m f 0 ((c ++ [c.headD 0]).getD (k - 1) 0)
      ((c ++ [c.headD 0]).getD k 0) = [] from rfl]
    rw [List.drop_eq_nil_of_le (by simp; omega)]
  | succ dd ih =>
    intro k hk1 hkd
    simp only [ptcWalkAux]
    rw [ptcFindNext_cycle m f c hnd h3 hperm k hk1 (by omega)]
    simp only [Option.getD_some]
    have ih2 := ih (k + 1) (by omega) (by omega)
    rw [Nat.add_sub_cancel] at ih2
    rw [ih2]
    rw [List.drop_eq_getElem_cons (by simp; omega : k + 1 < (c ++ [c.headD 0]).length)]
    rw [List.getD_eq_getElem _ _ (by simp; omega)]

/-- `ptc_get_vertices` ordering stage on a face whose edge pairs form a
simple cycle listed from the first edge's stored endpoints: the output is
exactly the listing with the starting vertex appended. -/
theorem ptcSortLoop_cycle (m : PtcMesh) (fi : ℕ) (c : List ℕ)
    (hc : IsCycleListing m (m.faces.getD fi default) c)
    (h0 : (m.edges.getD ((m.faces.getD fi default).edges.getD 0 0) default).v0 = c.getD 0 0)
    (h1 : (m.edges.getD ((m.faces.getD fi default).edges.getD 0 0) default).v1 = c.getD 1 0) :
    ptcSortLoop m fi = c ++ [c.headD 0] := by
  obtain ⟨hnd, h3, hlen, hperm⟩ := hc
  simp only [ptcSortLoop]
  rw [h0, h1, hlen]
  have hw := ptcWalkAux_cycle m (m.faces.getD fi default) c hnd h3 hperm (c.length - 1) 1
    (le_refl 1) (by omega)
  rw [show (1 : ℕ) - 1 = 0 from rfl] at hw
  rw [LCgetD_lt c 0 (by omega), LCgetD_lt c 1 (by omega)] at hw
  rw [hw]
  conv_rhs => rw [take_two_cons (c ++ [c.headD 0]) (by simp; omega)]
  rw [LCgetD_lt c 0 (by omega), LCgetD_lt c 1 (by omega)]

/-- Any cycle pair of a listing can be rotated and reflected to the front
while keeping the listing property. -/
theorem exists_aligned_listing (m : PtcMesh) (f : PtcFace) (c : List ℕ)
    (hc : IsCycleListing m f c) (u v : ℕ)
    (huv : Sym2.mk (u, v) ∈ cycleSyms c) :
    ∃ c2, IsCycleListing m f c2 ∧ c2.getD 0 0 = u ∧ c2.getD 1 0 = v := by
  obtain ⟨hnd, h3, hlen, hperm⟩ := hc
  have hcne : c ≠ [] := by
    intro h
    rw [h] at h3
    exact absurd h3 (by simp)
  obtain ⟨i, hiL, hieq⟩ := (mem_pathSyms _ _).1 huv
  rw [show (c ++ [c.headD 0]).length = c.length + 1 by simp] at hiL
  have hi : i < c.length := by omega
  rcases Sym2.eq_iff.1 hieq with ⟨hu, hv⟩ | ⟨hu, hv⟩
  · refine ⟨c.rotate i, ⟨List.nodup_rotate.2 hnd, ?_, ?_,
      hperm.trans (cycleSyms_rotate i c hcne).symm⟩, ?_, ?_⟩
    · rw [List.length_rotate]
      exact h3
    · rw [List.length_rotate]
      exact hlen
    · rw [rot_getD_zero c i hi, ← LCgetD_lt c i hi]
      exact hu.symm
    · rw [rot_getD_one c i (by omega) hi]
      exact hv.symm
  · refine ⟨((c.rotate i).reverse).rotate (c.length - 2),
      ⟨List.nodup_rotate.2 (List.nodup_reverse.2 (List.nodup_rotate.2 hnd)), ?_, ?_, ?_⟩,
      ?_, ?_⟩
    · rw [List.length_rotate, List.length_reverse, List.length_rotate]
      exact h3
    · rw [List.length_rotate, List.length_reverse, List.length_rotate]
      exact hlen
    · refine hperm.trans ?_
      refine ((cycleSyms_rotate (c.length - 2) ((c.rotate i).reverse)
        (by simpa [List.rotate_eq_nil_iff] using hcne)).trans
        ((cycleSyms_reverse (c.rotate i)).trans (cycleSyms_rotate i c hcne))).symm
    · rw [revrot_getD_zero c i h3, rot_getD_one c i (by omega) hi]
      exact hu.symm
    · rw [revrot_getD_one c i h3, rot_getD_zero c i hi, ← LCgetD_lt c i hi]
      exact hv.symm

/-- C9: on every face of the mutable B-rep whose edge set satisfies the
closed-cycle half of I3 (witnessed by a simple cycle listing of length at
least three), the loop extractor `ptc_get_vertices` returns a sequence of
`edge_count + 1` vertex indices whose last entry repeats the first and
whose consecutive pairs are, as a multiset, exactly the endpoint pairs of
the face's edges: every consecutive pair is joined by exactly one face
edge and every face edge is used exactly once. -/
theorem loop_extractor_closed_cycle (m : PtcMesh) (fi : ℕ) (c : List ℕ)
    (hc : IsCycleListing m (m.faces.getD fi default) c) :
    (ptcSortLoop m fi).length = (m.faces.getD fi default).edges.length + 1 ∧
    (ptcSortLoop m fi).getLastD 0 = (ptcSortLoop m fi).headD 0 ∧
    (pathSyms (ptcSortLoop m fi)).Perm (faceSyms m (m.faces.getD fi default)) := by
  have h3 := hc.2.1
  have hlen := hc.2.2.1
  have hene : (m.faces.getD fi default).edges ≠ [] := by
    intro h
    rw [h] at hlen
    simp at hlen
    omega
  have hsym0 : Sym2.mk ((m.edges.getD ((m.faces.getD fi default).edges.getD 0 0) default).v0,
      (m.edges.getD ((m.faces.getD fi default).edges.getD 0 0) default).v1)
      ∈ cycleSyms c :=
    (hc.2.2.2.mem_iff).1 (List.mem_map_of_mem _ (getD_zero_mem _ hene))
  obtain ⟨c2, hc2, h0, h1⟩ :=
    exists_aligned_listing m (m.faces.getD fi default) c hc _ _ hsym0
  have hL := ptcSortLoop_cycle m fi c2 hc2 h0.symm h1.symm
  have hc2ne : c2 ≠ [] := by
    intro h
    have := hc2.2.1
    rw [h] at this
    exact absurd this (by simp)
  rw [hL]
  refine ⟨by rw [List.length_append, hc2.2.2.1, List.length_singleton], ?_,
    (hc2.2.2.2).symm⟩
  rw [List.getLastD_concat]
  cases c2 with
  | nil => exact absurd rfl hc2ne
  | cons a t => rfl

/-- Witness for C9: face 0 of the seed cube with its cycle listing
`[0, 3, 2, 1]`. -/
theorem loop_extractor_closed_cycle_witness :
    IsCycleListing seedW1 (seedW1.faces.getD 0 default) [0, 3, 2, 1] ∧
    (pathSyms (ptcSortLoop seedW1 0)).Perm (faceSyms seedW1 (seedW1.faces.getD 0 default)) := by
  have h : IsCycleListing seedW1 (seedW1.faces.getD 0 default) [0, 3, 2, 1] :=
    of_decide_eq_true (by with_unfolding_all rfl)
  exact ⟨h, (loop_extractor_closed_cycle seedW1 0 [0, 3, 2, 1] h).2.2⟩

/-- Signed distance is affine along the interpolation. -/
theorem planeDistance_lerp (pl : Plane) (a b : Vec3) (t : ℚ) :
    planeDistance pl (lerpV a b t) = (1 - t) * planeDistance pl a + t * planeDistance pl b := by
  simp only [planeDistance, lerpV, dot]
  ring

/-- Interpolating with parameter zero returns the first endpoint. -/
theorem lerp_zero (a b : Vec3) : lerpV a b 0 = a := by
  cases a with
  | mk a1 a2 a3 =>
    cases b with
    | mk b1 b2 b3 =>
      simp only [lerpV, Vec3.mk.injEq]
      refine ⟨by ring, by ring, by ring⟩

/-- Interpolating with parameter one returns the second endpoint. -/
theorem lerp_one (a b : Vec3) : lerpV a b 1 = b := by
  cases a with
  | mk a1 a2 a3 =>
    cases b with
    | mk b1 b2 b3 =>
      simp only [lerpV, Vec3.mk.injEq]
      refine ⟨by ring, by ring, by ring⟩

/-- The split parameter lies in the unit interval when the first stored
distance is at least `EPS` and the second is nonpositive. -/
theorem t_unit_a (d0 d1 : ℚ) (h0 : EPS ≤ d0) (h1 : d1 ≤ 0) :
    0 ≤ d0 / (d0 - d1) ∧ d0 / (d0 - d1) ≤ 1 := by
  have heps : (0 : ℚ) < EPS := by norm_num [EPS]
  have hd : 0 < d0 - d1 := by linarith
  constructor
  · exact div_nonneg (by linarith) (le_of_lt hd)
  · rw [div_le_one hd]
    linarith

/-- The split parameter lies in the unit interval when the second stored
distance is at least `EPS` and the first is nonpositive. -/
theorem t_unit_b (d0 d1 : ℚ) (h1 : EPS ≤ d1) (h0 : d0 ≤ 0) :
    0 ≤ d0 / (d0 - d1) ∧ d0 / (d0 - d1) ≤ 1 := by
  have heps : (0 : ℚ) < EPS := by norm_num [EPS]
  have hd : 0 < d1 - d0 := by linarith
  have hrw : d0 / (d0 - d1) = -d0 / (d1 - d0) := by
    rw [← neg_div_neg_eq d0 (d0 - d1), neg_sub]
  rw [hrw]
  constructor
  · exact div_nonneg (by linarith) (le_of_lt hd)
  · rw [div_le_one hd]
    linarith

/-- A convex combination of two bounded values is bounded. -/
theorem combo_le (da db t E2 : ℚ) (h0 : 0 ≤ t) (h1 : t ≤ 1) (ha : da ≤ E2) (hb : db ≤ E2) :
    (1 - t) * da + t * db ≤ E2 := by
  nlinarith

/-- The split parameter interpolates the stored distances to exactly
zero. -/
theorem combo_zero (d0 d1 : ℚ) (hne : d0 - d1 ≠ 0) :
    (1 - d0 / (d0 - d1)) * d0 + (d0 / (d0 - d1)) * d1 = 0 := by
  field_simp
  ring

/-- Replacing the first occurrence keeps membership up to the new
value. -/
theorem mem_replaceFirst (e r x : ℕ) : ∀ (l : List ℕ),
    x ∈ replaceFirst l e r → x ∈ l ∨ x = r := by
  intro l
  induction l with
  | nil => intro h; exact absurd h (List.not_mem_nil x)
  | cons a t ih =>
    rw [replaceFirst]
    split
    · intro h
      rcases List.mem_cons.1 h with rfl | ht
      · exact Or.inr rfl
      · exact Or.inl (List.mem_cons_of_mem a ht)
    · intro h
      rcases List.mem_cons.1 h with rfl | ht
      · exact Or.inl (List.mem_cons_self _ _)
      · rcases ih ht with hh | hh
        · exact Or.inl (List.mem_cons_of_mem a hh)
        · exact Or.inr hh

/-- Replacing the first occurrence of `e` by something else removes one
`e`. -/
theorem count_replaceFirst_self (e r : ℕ) (he : r ≠ e) : ∀ (l : List ℕ),
    (replaceFirst l e r).count e = l.count e - 1 := by
  intro l
  induction l with
  | nil => rfl
  | cons a t ih =>
    rw [replaceFirst]
    split
    · next h =>
      subst h
      rw [List.count_cons, List.count_cons]
      simp only [beq_iff_eq]
      rw [if_neg he]
      simp
    · next h =>
      rw [List.count_cons, List.count_cons, ih]
      simp only [beq_iff_eq]
      rw [if_neg h]
      omega

/-- Replacing the first occurrence never increases the count of a value
other than the replacement. -/
theorem count_replaceFirst_le (e r x : ℕ) (hx : x ≠ r) : ∀ (l : List ℕ),
    (replaceFirst l e r).count x ≤ l.count x := by
  intro l
  induction l with
  | nil => exact le_refl _
  | cons a t ih =>
    rw [replaceFirst]
    split
    · rw [List.count_cons, List.count_cons]
      simp only [beq_iff_eq]
      rw [if_neg (fun hh => hx hh.symm)]  -- (r == x): x ≠ r
      split <;> omega
    · rw [List.count_cons, List.count_cons]
      have := ih
      split <;> omega

/-- Replacing the first occurrence adds at most one copy of the
replacement. -/
theorem count_replaceFirst_add (e r : ℕ) : ∀ (l : List ℕ),
    (replaceFirst l e r).count r ≤ l.count r + 1 := by
  intro l
  induction l with
  | nil => simp [replaceFirst]
  | cons a t ih =>
    rw [replaceFirst]
    split
    · rw [List.count_cons, List.count_cons]
      split <;> · split <;> omega
    · rw [List.count_cons, List.count_cons]
      have := ih
      split <;> omega

/-- The swap-remove never increases any count. -/
theorem count_removeList_le (l : List ℕ) (e x : ℕ) :
    (ptcRemoveList l e).count x ≤ l.count x := by
  rw [ptcRemoveList]
  split
  · simp
  · next last hl =>
    have hsplit : l = l.dropLast ++ [last] :=
      (List.dropLast_append_getLast? last hl).symm
    split
    · conv_rhs => rw [hsplit]
      rw [List.count_append]
      omega
    · conv_rhs => rw [hsplit]
      rw [List.count_append]
      by_cases hx : x = last
      · subst hx
        have h2 := count_replaceFirst_add e x l.dropLast
        have h3 : (0:ℕ) < [x].count x := by simp
        omega
      · have h2 := count_replaceFirst_le e last x hx l.dropLast
        omega

/-- The swap-remove decreases the count of the removed value (to zero
when it occurred at most once). -/
theorem count_removeList_self (l : List ℕ) (e : ℕ) :
    (ptcRemoveList l e).count e ≤ l.count e - 1 := by
  rw [ptcRemoveList]
  split
  · simp
  · next last hl =>
    have hsplit : l = l.dropLast ++ [last] :=
      (List.dropLast_append_getLast? last hl).symm
    split
    · next heq =>
      subst heq
      conv_rhs => rw [hsplit]
      rw [List.count_append]
      have h3 : (0:ℕ) < [last].count last := by simp
      omega
    · next hne =>
      have h2 := count_replaceFirst_self e last (by simpa using hne) l.dropLast
      rw [h2]
      conv_rhs => rw [hsplit]
      rw [List.count_append]
      have h3 : ([last].count e) = 0 := by
        simp only [List.count_singleton]
        simpa using hne
      omega

/-- Entries of the swap-removed list were entries before. -/
theorem mem_removeList (l : List ℕ) (e x : ℕ) (h : x ∈ ptcRemoveList l e) : x ∈ l := by
  have h1 : 0 < (ptcRemoveList l e).count x := List.count_pos_iff.2 h
  have h2 := count_removeList_le l e x
  exact List.count_pos_iff.1 (by omega)

/-- Classification never moves the vertex. -/
theorem classify_pos (pl : Plane) (v : PtcVertex) :
    (ptcClassifyVertex pl v).position = v.position := by
  rw [ptcClassifyVertex]
  split
  · rfl
  · dsimp only
    split
    · rfl
    · split <;> rfl

/-- A vertex visible after classification was visible and strictly below
the clip threshold. -/
theorem classify_flag_of (pl : Plane) (v : PtcVertex)
    (h : (ptcClassifyVertex pl v).is_clipped = false) :
    v.is_clipped = false ∧ planeDistance pl v.position < EPS := by
  rw [ptcClassifyVertex] at h
  revert h
  split
  · next hcl =>
    intro h
    exact absurd h (by rw [hcl]; exact Bool.noConfusion)
  · next hcl =>
    dsimp only
    split
    · next hd =>
      intro h
      exact absurd h Bool.noConfusion
    · next hd =>
      intro _
      refine ⟨by revert hcl; cases v.is_clipped <;> simp, ?_⟩
      exact lt_of_not_ge hd

/-- A visible vertex strictly below the threshold stays visible. -/
theorem classify_flag_mk (pl : Plane) (v : PtcVertex) (h1 : v.is_clipped = false)
    (h2 : planeDistance pl v.position < EPS) :
    (ptcClassifyVertex pl v).is_clipped = false := by
  rw [ptcClassifyVertex, if_neg (by rw [h1]; exact Bool.noConfusion)]
  dsimp only
  rw [if_neg (not_le.2 h2)]
  split <;> exact h1

/-- The stored distance of a vertex visible after classification is the
epsilon-snapped signed distance. -/
theorem classify_dist_of (pl : Plane) (v : PtcVertex)
    (h : (ptcClassifyVertex pl v).is_clipped = false) :
    ((ptcClassifyVertex pl v).distance = 0 ∧ -EPS ≤ planeDistance pl v.position) ∨
    ((ptcClassifyVertex pl v).distance = planeDistance pl v.position ∧
      planeDistance pl v.position < -EPS) := by
  obtain ⟨h1, h2⟩ := classify_flag_of pl v h
  rw [ptcClassifyVertex, if_neg (by rw [h1]; exact Bool.noConfusion)]
  dsimp only
  rw [if_neg (not_le.2 h2)]
  split
  · next hd => exact Or.inl ⟨rfl, by linarith [ge_iff_le.1 hd]⟩
  · next hd => exact Or.inr ⟨rfl, by linarith [lt_of_not_ge hd]⟩

/-- A vertex clipped by classification was at or above the threshold and
stores the true distance. -/
theorem classify_clipped_new (pl : Plane) (v : PtcVertex) (hv : v.is_clipped = false)
    (h : (ptcClassifyVertex pl v).is_clipped = true) :
    (ptcClassifyVertex pl v).distance = planeDistance pl v.position ∧
    EPS ≤ planeDistance pl v.position := by
  rw [ptcClassifyVertex, if_neg (by rw [hv]; exact Bool.noConfusion)] at h ⊢
  dsimp only at h ⊢
  revert h
  split
  · next hd =>
    intro _
    exact ⟨rfl, hd⟩
  · next hd =>
    intro h
    exfalso
    revert h
    split <;> · rw [hv]; exact Bool.noConfusion

/-- Step one keeps the vertex count. -/
theorem phase1_len (m : PtcMesh) (pl : Plane) :
    (ptcPhase1 m pl).vertices.length = m.vertices.length := by
  simp [ptcPhase1]

/-- Step one classifies pointwise. -/
theorem phase1_getD (m : PtcMesh) (pl : Plane) (i : ℕ) (h : i < m.vertices.length) :
    (ptcPhase1 m pl).vertices.getD i default =
      ptcClassifyVertex pl (m.vertices.getD i default) := by
  show (m.vertices.map (ptcClassifyVertex pl)).getD i default = _
  exact getD_map_lt _ _ _ h

/-- A well-formed contained state enters the edge pass with the mid-pass
invariant. -/
theorem phase1_midPass (P : List Plane) (pl : Plane) (m : PtcMesh)
    (hvc : ptcVisContained P m) (hg : ptcGood m) :
    midPassInv P pl (ptcPhase1 m pl) := by
  have hep : ∀ k, k < m.vertices.length → (m.vertices.getD k default).is_clipped = false →
      epOK P pl (ptcPhase1 m pl) k := by
    intro k hk hkv
    refine ⟨by rw [phase1_len]; exact hk, ?_⟩
    rw [phase1_getD m pl k hk]
    by_cases hcl : (ptcClassifyVertex pl (m.vertices.getD k default)).is_clipped = false
    · exact Or.inl hcl
    · right
      have hcl2 : (ptcClassifyVertex pl (m.vertices.getD k default)).is_clipped = true := by
        revert hcl
        cases (ptcClassifyVertex pl (m.vertices.getD k default)).is_clipped <;> simp
      obtain ⟨hd, hdge⟩ := classify_clipped_new pl _ hkv hcl2
      rw [classify_pos]
      exact ⟨hd, by rw [hd]; exact hdge, fun pl2 h2 => hvc k hk hkv pl2 h2⟩
  refine ⟨?_, ?_, ?_⟩
  · intro i hi hflag
    rw [phase1_len] at hi
    rw [phase1_getD m pl i hi] at hflag ⊢
    obtain ⟨h1, h2⟩ := classify_flag_of pl _ hflag
    rw [classify_pos]
    exact ⟨fun pl2 h3 => hvc i hi h1 pl2 h3, h2, classify_dist_of pl _ hflag⟩
  · intro ei hei hev
    have hg1 := hg.1 ei hei hev
    exact ⟨hep _ hg1.1 hg1.2.2.1, hep _ hg1.2.1 hg1.2.2.2⟩
  · exact hg.2

/-- A length-equal filter under a pointwise-weaker predicate forces the
predicates to agree on the list. -/
theorem filter_imp_eq {α : Type} (p q : α → Bool) (l : List α)
    (himp : ∀ x, q x = true → p x = true)
    (hlen : (l.filter q).length = (l.filter p).length) :
    ∀ x ∈ l, p x = true → q x = true := by
  have h1 : l.filter q = (l.filter p).filter q := by
    rw [List.filter_filter]
    apply List.filter_congr
    intro x _
    cases hq : q x
    · simp
    · simp [himp x hq]
  have hsub : List.Sublist (l.filter q) (l.filter p) := h1 ▸ List.filter_sublist (l.filter p)
  have heq : l.filter q = l.filter p := hsub.eq_of_length hlen
  intro x hx hp
  have hmem : x ∈ l.filter p := List.mem_filter.2 ⟨hx, hp⟩
  rw [← heq] at hmem
  exact (List.mem_filter.1 hmem).2

/-- When step one clips nothing, every visible vertex is strictly below
the threshold and all flags are unchanged. -/
theorem countClipped_zero_facts (m : PtcMesh) (pl : Plane)
    (h : ptcCountClipped m pl = 0) :
    ∀ i, i < m.vertices.length →
      ((m.vertices.getD i default).is_clipped = false →
        planeDistance pl (m.vertices.getD i default).position < EPS) ∧
      ((ptcPhase1 m pl).vertices.getD i default).is_clipped =
        (m.vertices.getD i default).is_clipped := by
  have hnil : ∀ x ∈ m.vertices,
      ¬(!x.is_clipped && planeDistance pl x.position ≥ EPS) = true := by
    rw [ptcCountClipped] at h
    have hfil := List.length_eq_zero.1 h
    intro x hx hcontra
    have hmem2 : x ∈ m.vertices.filter
        fun v => !v.is_clipped && planeDistance pl v.position ≥ EPS :=
      List.mem_filter.2 ⟨hx, hcontra⟩
    rw [hfil] at hmem2
    exact absurd hmem2 (List.not_mem_nil x)
  intro i hi
  have hmem : m.vertices.getD i default ∈ m.vertices := by
    rw [List.getD_eq_getElem _ _ hi]
    exact List.getElem_mem hi
  have hx := hnil _ hmem
  constructor
  · intro hflag
    by_contra hge
    apply hx
    rw [hflag]
    simp only [Bool.not_false, Bool.true_and]
    exact decide_eq_true (not_lt.1 hge)
  · rw [phase1_getD m pl i hi]
    cases hflag : (m.vertices.getD i default).is_clipped
    · have hlt : planeDistance pl (m.vertices.getD i default).position < EPS := by
        by_contra hge
        apply hx
        rw [hflag]
        simp only [Bool.not_false, Bool.true_and]
        exact decide_eq_true (not_lt.1 hge)
      rw [classify_flag_mk pl _ hflag hlt]
    · rw [ptcClassifyVertex, if_pos hflag]
      exact hflag

/-- When step one clips every visible vertex, nothing visible remains. -/
theorem countClipped_total_noVis (m : PtcMesh) (pl : Plane)
    (h : ptcCountClipped m pl = ptcCountTotal m) :
    ptcNoVis (ptcPhase1 m pl) := by
  have himp := filter_imp_eq (fun v => !v.is_clipped)
    (fun v => !v.is_clipped && planeDistance pl v.position ≥ EPS) m.vertices
    (fun x hx => by
      simp only [Bool.and_eq_true] at hx
      exact hx.1)
    (by rw [← ptcCountClipped, ← ptcCountTotal]; exact h)
  intro i hi
  rw [phase1_len] at hi
  rw [phase1_getD m pl i hi]
  have hmem : m.vertices.getD i default ∈ m.vertices := by
    rw [List.getD_eq_getElem _ _ hi]
    exact List.getElem_mem hi
  cases hflag : (m.vertices.getD i default).is_clipped
  · have hcond := himp _ hmem
      (by show (!(m.vertices.getD i default).is_clipped) = true; rw [hflag]; rfl)
    simp only [Bool.and_eq_true] at hcond
    have hge : EPS ≤ planeDistance pl (m.vertices.getD i default).position :=
      of_decide_eq_true hcond.2
    rw [ptcClassifyVertex, if_neg (by rw [hflag]; exact Bool.noConfusion)]
    dsimp only
    rw [if_pos hge]
  · rw [ptcClassifyVertex, if_pos hflag]
    exact hflag

/-- `vertMid` only reads the vertex array. -/
theorem vertMid_congr (P : List Plane) (pl : Plane) (a b : PtcMesh)
    (h : b.vertices = a.vertices) (ha : vertMid P pl a) : vertMid P pl b := by
  intro i hi hf
  rw [h] at hi hf ⊢
  exact ha i hi hf

/-- `epOK` only reads the vertex array. -/
theorem epOK_congr (P : List Plane) (pl : Plane) (a b : PtcMesh) (k : ℕ)
    (h : b.vertices = a.vertices) (ha : epOK P pl a k) : epOK P pl b k := by
  unfold epOK at ha ⊢
  rw [h]
  exact ha

/-- `epOK` survives appending a vertex. -/
theorem epOK_append (P : List Plane) (pl : Plane) (m : PtcMesh) (w : PtcVertex) (k : ℕ)
    (h : epOK P pl m k) : epOK P pl { m with vertices := m.vertices ++ [w] } k := by
  obtain ⟨hk, hrest⟩ := h
  refine ⟨?_, ?_⟩
  · show k < (m.vertices ++ [w]).length
    rw [List.length_append]
    omega
  · show ((m.vertices ++ [w]).getD k default).is_clipped = false ∨ _
    rw [List.getD_append _ _ _ _ hk]
    exact hrest

/-- `vertMid` survives appending a vertex that itself satisfies the
per-vertex facts when visible. -/
theorem vertMid_append (P : List Plane) (pl : Plane) (m : PtcMesh) (w : PtcVertex)
    (h : vertMid P pl m)
    (hw : w.is_clipped = false →
      (∀ pl2 ∈ P, planeDistance pl2 w.position ≤ EPS) ∧
      planeDistance pl w.position < EPS ∧
      ((w.distance = 0 ∧ -EPS ≤ planeDistance pl w.position) ∨
        (w.distance = planeDistance pl w.position ∧ planeDistance pl w.position < -EPS))) :
    vertMid P pl { m with vertices := m.vertices ++ [w] } := by
  intro i hi hflag
  show (∀ pl2 ∈ P, planeDistance pl2 ((m.vertices ++ [w]).getD i default).position ≤ EPS) ∧ _
  have hi2 : i < m.vertices.length + 1 := by
    simpa using hi
  rcases Nat.lt_or_ge i m.vertices.length with hlt | hge
  · have hg : ((m.vertices ++ [w]).getD i default) = m.vertices.getD i default :=
      List.getD_append _ _ _ _ hlt
    rw [hg] at hflag ⊢
    exact h i hlt hflag
  · have hieq : i = m.vertices.length := by omega
    subst hieq
    have hg : ((m.vertices ++ [w]).getD m.vertices.length default) = w := by
      rw [List.getD_append_right _ _ _ _ hge, Nat.sub_self]
      rfl
    rw [hg] at hflag ⊢
    exact hw hflag

/-- How one `ptc__remove_face_edge` call acts on one face record: flags
only turn on, the named face's list is swap-removed, and every other
face's list is untouched. -/
theorem removeFaceEdge_face_facts (m : PtcMesh) (fc : ℤ) (ei : ℕ) (g : ℕ) :
    (((ptcRemoveFaceEdge m fc ei).faces.getD g default).is_clipped = false →
      (m.faces.getD g default).is_clipped = false) ∧
    (fc = (g : ℤ) →
      ((ptcRemoveFaceEdge m fc ei).faces.getD g default).edges =
        ptcRemoveList (m.faces.getD g default).edges ei) ∧
    (fc ≠ (g : ℤ) →
      ((ptcRemoveFaceEdge m fc ei).faces.getD g default).edges =
        (m.faces.getD g default).edges) := by
  rw [ptcRemoveFaceEdge]
  split
  · next hneg =>
    refine ⟨fun h => h, fun hfc => ?_, fun _ => rfl⟩
    exfalso
    rw [hfc] at hneg
    exact absurd hneg (by simp)
  · next hneg =>
    dsimp only
    have h0 : 0 ≤ fc := le_of_not_lt hneg
    rw [getD_set_cases]
    split
    · next hcond =>
      have hfc : fc = (g : ℤ) := by
        rw [← hcond.1, Int.toNat_of_nonneg h0]
      have hfg : fc.toNat = g := hcond.1
      refine ⟨?_, fun _ => ?_, fun hne => absurd hfc hne⟩
      · intro hcl
        rw [← hfg]
        revert hcl
        dsimp only
        split
        · exact fun h => Bool.noConfusion h
        · exact fun h => h
      · rw [← hfg]
    · next hcond =>
      refine ⟨fun h => h, fun hfc => ?_, fun _ => rfl⟩
      have hfg : fc.toNat = g := by
        rw [hfc, Int.toNat_natCast]
      by_cases hglt : g < m.faces.length
      · exact absurd ⟨hfg, hglt⟩ hcond
      · have hdef : m.faces.getD g default = default :=
          List.getD_eq_default _ _ (Nat.le_of_not_lt hglt)
        rw [hdef]
        rfl

/-- `slotMatches` only reads the edge array. -/
theorem slotMatches_congr (a b : PtcMesh) (h : b.edges = a.edges) (j g : ℕ) :
    slotMatches b j g = slotMatches a j g := by
  unfold slotMatches
  rw [h]

/-- Overwriting an edge without touching its face slots keeps every
slot-match count. -/
theorem slotMatches_set_keep (m : PtcMesh) (ei : ℕ) (w : PtcEdge)
    (hw0 : w.f0 = (m.edges.getD ei default).f0)
    (hw1 : w.f1 = (m.edges.getD ei default).f1) (j g : ℕ) :
    slotMatches { m with edges := m.edges.set ei w } j g = slotMatches m j g := by
  unfold slotMatches
  dsimp only
  rw [getD_set_cases]
  split
  · next h =>
    rw [hw0, hw1, h.1]
  · rfl

/-- Marking an edge clipped and removing it from the faces named by its
two slots preserves the face-listing invariant; in particular the removed
edge is no longer listed by any visible face. -/
theorem goodF_remove2 (m : PtcMesh) (ei : ℕ) (hgf : ptcGoodF m) :
    ptcGoodF (ptcRemoveFaceEdge (ptcRemoveFaceEdge
      { m with edges := m.edges.set ei { m.edges.getD ei default with is_clipped := true } }
      (m.edges.getD ei default).f0 ei) (m.edges.getD ei default).f1 ei) := by
  set e := m.edges.getD ei default with he
  set M1 : PtcMesh := { m with edges := m.edges.set ei { e with is_clipped := true } } with hM1
  set R1 := ptcRemoveFaceEdge M1 e.f0 ei with hR1
  set R2 := ptcRemoveFaceEdge R1 e.f1 ei with hR2
  obtain ⟨q1v, q1e, q1l, _⟩ := ptcRemoveFaceEdge_effects M1 e.f0 ei
  obtain ⟨q2v, q2e, q2l, _⟩ := ptcRemoveFaceEdge_effects R1 e.f1 ei
  have hedges : R2.edges = m.edges.set ei { e with is_clipped := true } := by
    rw [← hR2] at q2e
    rw [← hR1] at q1e
    rw [q2e, q1e]
  have hlenF : R2.faces.length = m.faces.length := by
    rw [← hR2] at q2l
    rw [← hR1] at q1l
    rw [q2l, q1l]
  have helen : R2.edges.length = m.edges.length := by
    rw [hedges]
    simp
  have hsm : ∀ j g, slotMatches R2 j g = slotMatches m j g := by
    intro j g
    have h1 : slotMatches R2 j g = slotMatches M1 j g :=
      slotMatches_congr M1 R2 (by rw [hedges]) j g
    rw [h1]
    exact slotMatches_set_keep m ei { e with is_clipped := true } rfl rfl j g
  have hflagj : ∀ j, j ≠ ei → (R2.edges.getD j default).is_clipped =
      (m.edges.getD j default).is_clipped := by
    intro j hj
    rw [hedges, getD_set_cases]
    split
    · next h => exact absurd h.1 (fun hh => hj hh.symm)
    · rfl
  intro g hg hgvis
  rw [hlenF] at hg
  obtain ⟨f2flag, f2rem, f2keep⟩ := removeFaceEdge_face_facts R1 e.f1 ei g
  obtain ⟨f1flag, f1rem, f1keep⟩ := removeFaceEdge_face_facts M1 e.f0 ei g
  rw [← hR2] at f2flag f2rem f2keep
  rw [← hR1] at f1flag f1rem f1keep
  have hv1 : (R1.faces.getD g default).is_clipped = false := f2flag hgvis
  have hvm : (m.faces.getD g default).is_clipped = false := f1flag hv1
  obtain ⟨hentries, hcounts⟩ := hgf g hg hvm
  have hM1face : M1.faces.getD g default = m.faces.getD g default := rfl
  have hchain : ∀ j, ((R2.faces.getD g default).edges).count j ≤
      ((m.faces.getD g default).edges).count j := by
    intro j
    by_cases hc1 : e.f1 = (g : ℤ) <;> by_cases hc0 : e.f0 = (g : ℤ)
    · rw [f2rem hc1, f1rem hc0, hM1face]
      exact le_trans (count_removeList_le _ _ _) (count_removeList_le _ _ _)
    · rw [f2rem hc1, f1keep hc0, hM1face]
      exact count_removeList_le _ _ _
    · rw [f2keep hc1, f1rem hc0, hM1face]
      exact count_removeList_le _ _ _
    · rw [f2keep hc1, f1keep hc0, hM1face]
  have hei_gone : ((R2.faces.getD g default).edges).count ei = 0 := by
    have hcnt := hcounts ei
    by_cases hc1 : e.f1 = (g : ℤ) <;> by_cases hc0 : e.f0 = (g : ℤ)
    · rw [f2rem hc1, f1rem hc0, hM1face]
      have h2 := count_removeList_self (ptcRemoveList (m.faces.getD g default).edges ei) ei
      have h1 := count_removeList_self (m.faces.getD g default).edges ei
      have hsm2 : slotMatches m ei g = 2 := by
        unfold slotMatches
        rw [← he, if_pos hc0, if_pos hc1]
      rw [hsm2] at hcnt
      omega
    · rw [f2rem hc1, f1keep hc0, hM1face]
      have h1 := count_removeList_self (m.faces.getD g default).edges ei
      have hsm1 : slotMatches m ei g = 1 := by
        unfold slotMatches
        rw [← he, if_neg hc0, if_pos hc1]
      rw [hsm1] at hcnt
      omega
    · rw [f2keep hc1, f1rem hc0, hM1face]
      have h1 := count_removeList_self (m.faces.getD g default).edges ei
      have hsm1 : slotMatches m ei g = 1 := by
        unfold slotMatches
        rw [← he, if_pos hc0, if_neg hc1]
      rw [hsm1] at hcnt
      omega
    · rw [f2keep hc1, f1keep hc0, hM1face]
      have hsm0 : slotMatches m ei g = 0 := by
        unfold slotMatches
        rw [← he, if_neg hc0, if_neg hc1]
      rw [hsm0] at hcnt
      omega
  refine ⟨?_, ?_⟩
  · intro j hj
    have hjcount : 0 < ((R2.faces.getD g default).edges).count j := List.count_pos_iff.2 hj
    have hjm : j ∈ (m.faces.getD g default).edges := by
      have := hchain j
      exact List.count_pos_iff.1 (by omega)
    have hje : j ≠ ei := by
      intro hh
      rw [hh] at hjcount
      omega
    obtain ⟨hr, hv⟩ := hentries j hjm
    rw [helen, hflagj j hje]
    exact ⟨hr, hv⟩
  · intro j
    rw [hsm j g]
    exact le_trans (hchain j) (hcounts j)

/-- The vertex created by an edge split: contained for every processed
plane, and with signed distance to the clipping plane inside
`[-EPS, EPS)`.  The orientation disjunct says which stored endpoint is
the clipped one. -/
theorem split_vertex_facts (P : List Plane) (pl : Plane) (a b : PtcVertex)
    (hca : ∀ pl2 ∈ P, planeDistance pl2 a.position ≤ EPS)
    (hcb : ∀ pl2 ∈ P, planeDistance pl2 b.position ≤ EPS)
    (hor : (a.distance = planeDistance pl a.position ∧ EPS ≤ a.distance ∧
              ((b.distance = 0 ∧ -EPS ≤ planeDistance pl b.position ∧
                planeDistance pl b.position < EPS) ∨
               (b.distance = planeDistance pl b.position ∧
                planeDistance pl b.position < -EPS))) ∨
           (b.distance = planeDistance pl b.position ∧ EPS ≤ b.distance ∧
              ((a.distance = 0 ∧ -EPS ≤ planeDistance pl a.position ∧
                planeDistance pl a.position < EPS) ∨
               (a.distance = planeDistance pl a.position ∧
                planeDistance pl a.position < -EPS)))) :
    (∀ pl2 ∈ P, planeDistance pl2
        (lerpV a.position b.position (a.distance / (a.distance - b.distance))) ≤ EPS) ∧
    planeDistance pl
        (lerpV a.position b.position (a.distance / (a.distance - b.distance))) < EPS ∧
    -EPS ≤ planeDistance pl
        (lerpV a.position b.position (a.distance / (a.distance - b.distance))) := by
  have heps : (0 : ℚ) < EPS := by norm_num [EPS]
  rcases hor with ⟨hda, hga, hsb⟩ | ⟨hdb, hgb, hsa⟩
  · have hd1le : b.distance ≤ 0 := by
      rcases hsb with ⟨h, _, _⟩ | ⟨h, hlt⟩
      · rw [h]
      · rw [h]
        linarith
    obtain ⟨ht0, ht1⟩ := t_unit_a a.distance b.distance hga hd1le
    refine ⟨?_, ?_⟩
    · intro pl2 h2
      rw [planeDistance_lerp]
      exact combo_le _ _ _ _ ht0 ht1 (hca pl2 h2) (hcb pl2 h2)
    · rcases hsb with ⟨hz, hgeb, hltb⟩ | ⟨hdb', hltb⟩
      · have ht : a.distance / (a.distance - b.distance) = 1 := by
          rw [hz, sub_zero]
          exact div_self (by linarith)
        rw [ht, lerp_one]
        exact ⟨hltb, hgeb⟩
      · have hne : a.distance - b.distance ≠ 0 := by
          rw [hdb']
          intro hh
          linarith
        have hval : planeDistance pl
            (lerpV a.position b.position (a.distance / (a.distance - b.distance))) = 0 := by
          rw [planeDistance_lerp, ← hda, ← hdb']
          exact combo_zero _ _ hne
        rw [hval]
        exact ⟨by linarith, by linarith⟩
  · have hd0le : a.distance ≤ 0 := by
      rcases hsa with ⟨h, _, _⟩ | ⟨h, hlt⟩
      · rw [h]
      · rw [h]
        linarith
    obtain ⟨ht0, ht1⟩ := t_unit_b a.distance b.distance hgb hd0le
    refine ⟨?_, ?_⟩
    · intro pl2 h2
      rw [planeDistance_lerp]
      exact combo_le _ _ _ _ ht0 ht1 (hca pl2 h2) (hcb pl2 h2)
    · rcases hsa with ⟨hz, hgea, hlta⟩ | ⟨hda', hlta⟩
      · have ht : a.distance / (a.distance - b.distance) = 0 := by
          rw [hz, zero_div]
        rw [ht, lerp_zero]
        exact ⟨hlta, hgea⟩
      · have hne : a.distance - b.distance ≠ 0 := by
          rw [hda']
          intro hh
          linarith
        have hval : planeDistance pl
            (lerpV a.position b.position (a.distance / (a.distance - b.distance))) = 0 := by
          rw [planeDistance_lerp, ← hda', ← hdb]
          exact combo_zero _ _ hne
        rw [hval]
        exact ⟨by linarith, by linarith⟩

/-- The state after an edge split (append the interpolated vertex, rewire
one endpoint slot of the edge): the mid-pass invariant carries over, the
split edge is settled, and settled edges stay settled. -/
theorem split_mesh_inv (P : List Plane) (pl : Plane) (m : PtcMesh) (ei : ℕ) (mid : Vec3)
    (rec : PtcEdge) (hei : ei < m.edges.length) (hJ : midPassInv P pl m)
    (hmid : (∀ pl2 ∈ P, planeDistance pl2 mid ≤ EPS) ∧
      planeDistance pl mid < EPS ∧ -EPS ≤ planeDistance pl mid)
    (hrecflag : rec.is_clipped = false)
    (hrecf0 : rec.f0 = (m.edges.getD ei default).f0)
    (hrecf1 : rec.f1 = (m.edges.getD ei default).f1)
    (hr0 : rec.v0 = m.vertices.length ∨
      (rec.v0 < m.vertices.length ∧ (m.vertices.getD rec.v0 default).is_clipped = false))
    (hr1 : rec.v1 = m.vertices.length ∨
      (rec.v1 < m.vertices.length ∧ (m.vertices.getD rec.v1 default).is_clipped = false)) :
    midPassInv P pl { ptcAddVertex m mid with edges := (ptcAddVertex m mid).edges.set ei rec } ∧
    edgeSettled { ptcAddVertex m mid with edges := (ptcAddVertex m mid).edges.set ei rec } ei ∧
    ∀ k, edgeSettled m k →
      edgeSettled { ptcAddVertex m mid with edges := (ptcAddVertex m mid).edges.set ei rec } k := by
  obtain ⟨hV, hE, hF⟩ := hJ
  set S := { ptcAddVertex m mid with edges := (ptcAddVertex m mid).edges.set ei rec } with hS
  have hSv : S.vertices = m.vertices ++ [⟨mid, 0, false, 0⟩] := rfl
  have hSe : S.edges = m.edges.set ei rec := rfl
  have hSf : S.faces = m.faces := rfl
  have hSvlen : S.vertices.length = m.vertices.length + 1 := by
    rw [hSv]
    simp
  have hSelen : S.edges.length = m.edges.length := by
    rw [hSe]
    simp
  have hflagS : ∀ k, k < m.vertices.length →
      S.vertices.getD k default = m.vertices.getD k default := by
    intro k hk
    rw [hSv]
    exact List.getD_append _ _ _ _ hk
  have hwS : S.vertices.getD m.vertices.length default = ⟨mid, 0, false, 0⟩ := by
    rw [hSv, List.getD_append_right _ _ _ _ (le_refl _), Nat.sub_self]
    rfl
  have hvis : ∀ k, (k = m.vertices.length ∨
      (k < m.vertices.length ∧ (m.vertices.getD k default).is_clipped = false)) →
      k < S.vertices.length ∧ (S.vertices.getD k default).is_clipped = false := by
    intro k hk
    rcases hk with rfl | ⟨hlt, hfl⟩
    · exact ⟨by rw [hSvlen]; omega, by rw [hwS]⟩
    · exact ⟨by rw [hSvlen]; omega, by rw [hflagS _ hlt]; exact hfl⟩
  have hepOf : ∀ k, (k = m.vertices.length ∨
      (k < m.vertices.length ∧ (m.vertices.getD k default).is_clipped = false)) →
      epOK P pl S k := by
    intro k hk
    exact ⟨(hvis k hk).1, Or.inl (hvis k hk).2⟩
  have hsettle : edgeSettled S ei := by
    right
    rw [hSe]
    have hgetei : (m.edges.set ei rec).getD ei default = rec := by
      rw [getD_set_cases, if_pos ⟨rfl, hei⟩]
    rw [hgetei]
    exact ⟨(hvis _ hr0).1, (hvis _ hr1).1, (hvis _ hr0).2, (hvis _ hr1).2⟩
  refine ⟨⟨?_, ?_, ?_⟩, hsettle, ?_⟩
  · exact vertMid_congr P pl { m with vertices := m.vertices ++ [⟨mid, 0, false, 0⟩] } S hSv
      (vertMid_append P pl m _ hV (fun _ => ⟨hmid.1, hmid.2.1, Or.inl ⟨rfl, hmid.2.2⟩⟩))
  · intro k hk hkv
    rw [hSe, getD_set_cases] at hkv ⊢
    split at hkv
    · next hcond =>
      rw [if_pos hcond]
      exact ⟨hepOf _ hr0, hepOf _ hr1⟩
    · next hcond =>
      rw [if_neg hcond]
      have hklen : k < m.edges.length := by
        rw [hSelen] at hk
        exact hk
      obtain ⟨e0, e1⟩ := hE k hklen hkv
      exact ⟨epOK_congr P pl _ S _ hSv (epOK_append P pl m _ _ e0),
        epOK_congr P pl _ S _ hSv (epOK_append P pl m _ _ e1)⟩
  · intro g hg hgvis
    rw [hSf] at hg hgvis
    obtain ⟨hent, hcnt⟩ := hF g hg hgvis
    refine ⟨?_, ?_⟩
    · intro j hj
      rw [hSf] at hj
      obtain ⟨hr, hv⟩ := hent j hj
      refine ⟨by rw [hSelen]; exact hr, ?_⟩
      rw [hSe, getD_set_cases]
      split
      · exact hrecflag
      · exact hv
    · intro j
      have hsmS : slotMatches S j g = slotMatches m j g := by
        have h1 : slotMatches S j g = slotMatches { m with edges := m.edges.set ei rec } j g :=
          slotMatches_congr _ S (by rw [hSe]) j g
        rw [h1]
        exact slotMatches_set_keep m ei rec hrecf0 hrecf1 j g
      rw [hSf, hsmS]
      exact hcnt j
  · intro k hk
    by_cases hke : k = ei
    · subst hke
      exact hsettle
    · unfold edgeSettled at hk ⊢
      rw [hSe, getD_set_cases]
      split
      · next hcond => exact absurd hcond.1 (fun hh => hke hh.symm)
      · rcases hk with hcl | ⟨hb0, hb1, hq0, hq1⟩
        · exact Or.inl hcl
        · right
          refine ⟨by rw [hSvlen]; omega, by rw [hSvlen]; omega, ?_, ?_⟩
          · rw [hflagS _ hb0]
            exact hq0
          · rw [hflagS _ hb1]
            exact hq1

/-- The state after marking an edge clipped and removing it from the two
faces named by its slots: the mid-pass invariant carries over, the edge is
settled, and settled edges stay settled. -/
theorem remove_mesh_inv (P : List Plane) (pl : Plane) (m : PtcMesh) (ei : ℕ)
    (hJ : midPassInv P pl m) :
    midPassInv P pl (ptcRemoveFaceEdge (ptcRemoveFaceEdge
      { m with edges := m.edges.set ei { m.edges.getD ei default with is_clipped := true } }
      (m.edges.getD ei default).f0 ei) (m.edges.getD ei default).f1 ei) ∧
    (ei < m.edges.length → edgeSettled (ptcRemoveFaceEdge (ptcRemoveFaceEdge
      { m with edges := m.edges.set ei { m.edges.getD ei default with is_clipped := true } }
      (m.edges.getD ei default).f0 ei) (m.edges.getD ei default).f1 ei) ei) ∧
    ∀ k, edgeSettled m k → edgeSettled (ptcRemoveFaceEdge (ptcRemoveFaceEdge
      { m with edges := m.edges.set ei { m.edges.getD ei default with is_clipped := true } }
      (m.edges.getD ei default).f0 ei) (m.edges.getD ei default).f1 ei) k := by
  obtain ⟨hV, hE, hF⟩ := hJ
  have hgf := goodF_remove2 m ei hF
  set e := m.edges.getD ei default with he
  set M1 : PtcMesh := { m with edges := m.edges.set ei { e with is_clipped := true } } with hM1
  set R1 := ptcRemoveFaceEdge M1 e.f0 ei with hR1
  set R2 := ptcRemoveFaceEdge R1 e.f1 ei with hR2
  obtain ⟨q1v, q1e, q1l, _⟩ := ptcRemoveFaceEdge_effects M1 e.f0 ei
  obtain ⟨q2v, q2e, q2l, _⟩ := ptcRemoveFaceEdge_effects R1 e.f1 ei
  rw [← hR1] at q1v q1e q1l
  rw [← hR2] at q2v q2e q2l
  have hvert : R2.vertices = m.vertices := by
    rw [q2v, q1v]
  have hedges : R2.edges = m.edges.set ei { e with is_clipped := true } := by
    rw [q2e, q1e]
  have helen : R2.edges.length = m.edges.length := by
    rw [hedges]
    simp
  have hsettled : ∀ k, (R2.edges.getD k default) =
      (if ei = k ∧ k < m.edges.length then { e with is_clipped := true }
       else m.edges.getD k default) := by
    intro k
    rw [hedges, getD_set_cases]
  refine ⟨⟨?_, ?_, ?_⟩, ?_, ?_⟩
  · exact vertMid_congr P pl m R2 hvert hV
  · intro k hk hkv
    rw [hsettled k] at hkv ⊢
    split at hkv
    · exact absurd hkv Bool.noConfusion
    · next hcond =>
      rw [if_neg hcond] at *
      have hklen : k < m.edges.length := by
        rw [helen] at hk
        exact hk
      obtain ⟨e0, e1⟩ := hE k hklen hkv
      exact ⟨epOK_congr P pl m R2 _ hvert e0, epOK_congr P pl m R2 _ hvert e1⟩
  · exact hgf
  · intro hei
    left
    rw [hsettled ei, if_pos ⟨rfl, hei⟩]
  · intro k hk
    unfold edgeSettled at hk ⊢
    rw [hsettled k]
    split
    · exact Or.inl rfl
    · rw [hvert]
      exact hk

/-- One edge-pass step preserves the mid-pass invariant, settles the
processed edge, and keeps settled edges settled. -/
theorem clipEdge_inv (P : List Plane) (pl : Plane) (m : PtcMesh) (ei : ℕ)
    (hJ : midPassInv P pl m) :
    midPassInv P pl (ptcClipEdge m ei) ∧
    (ei < m.edges.length → edgeSettled (ptcClipEdge m ei) ei) ∧
    (∀ k, edgeSettled m k → edgeSettled (ptcClipEdge m ei) k) := by
  unfold ptcClipEdge
  dsimp only
  split
  · next hclip => exact ⟨hJ, fun _ => Or.inl hclip, fun k hk => hk⟩
  · next hclip =>
    have hev : (m.edges.getD ei default).is_clipped = false := by
      revert hclip
      cases (m.edges.getD ei default).is_clipped <;> simp
    split
    · next hboth =>
      exact remove_mesh_inv P pl m ei hJ
    · next hb2 =>
      split
      · next hvv =>
        refine ⟨hJ, ?_, fun k hk => hk⟩
        intro hei
        obtain ⟨ep0, ep1⟩ := hJ.2.1 ei hei hev
        rw [Bool.and_eq_true] at hvv
        right
        refine ⟨ep0.1, ep1.1, ?_, ?_⟩
        · simpa using hvv.1
        · simpa using hvv.2
      · next hvv2 =>
        rcases Nat.lt_or_ge ei m.edges.length with hei | hge
        · obtain ⟨ep0, ep1⟩ := hJ.2.1 ei hei hev
          cases hf0 : (m.vertices.getD (m.edges.getD ei default).v0 default).is_clipped <;>
            cases hf1 : (m.vertices.getD (m.edges.getD ei default).v1 default).is_clipped
          · exfalso
            apply hvv2
            rw [hf0, hf1]
            rfl
          · rcases ep1.2 with hq | ⟨hd1, hg1, hc1⟩
            · exact Bool.noConfusion (hq.symm.trans hf1)
            · obtain ⟨hc0, hlt0, hsd0⟩ := hJ.1 _ ep0.1 hf0
              have hinner :
                  ((m.vertices.getD (m.edges.getD ei default).v0 default).distance = 0 ∧
                    -EPS ≤ planeDistance pl
                      (m.vertices.getD (m.edges.getD ei default).v0 default).position ∧
                    planeDistance pl
                      (m.vertices.getD (m.edges.getD ei default).v0 default).position < EPS) ∨
                  ((m.vertices.getD (m.edges.getD ei default).v0 default).distance =
                      planeDistance pl
                        (m.vertices.getD (m.edges.getD ei default).v0 default).position ∧
                    planeDistance pl
                      (m.vertices.getD (m.edges.getD ei default).v0 default).position
                      < -EPS) := by
                rcases hsd0 with ⟨hz, hge0⟩ | ⟨hdq, hltq⟩
                · exact Or.inl ⟨hz, hge0, hlt0⟩
                · exact Or.inr ⟨hdq, hltq⟩
              have hmid := split_vertex_facts P pl
                (m.vertices.getD (m.edges.getD ei default).v0 default)
                (m.vertices.getD (m.edges.getD ei default).v1 default)
                hc0 hc1 (Or.inr ⟨hd1, hg1, hinner⟩)
              rw [if_neg (show ¬((false : Bool) = true) from fun hh => Bool.noConfusion hh)]
              obtain ⟨ha, hb, hc⟩ := split_mesh_inv P pl m ei _
                { m.edges.getD ei default with v1 := m.vertices.length } hei
                ⟨hJ.1, hJ.2.1, hJ.2.2⟩ hmid hev rfl rfl
                (Or.inr ⟨ep0.1, hf0⟩) (Or.inl rfl)
              exact ⟨ha, fun _ => hb, hc⟩
          · rcases ep0.2 with hq | ⟨hd0, hg0, hc0⟩
            · exact Bool.noConfusion (hq.symm.trans hf0)
            · obtain ⟨hc1, hlt1, hsd1⟩ := hJ.1 _ ep1.1 hf1
              have hinner :
                  ((m.vertices.getD (m.edges.getD ei default).v1 default).distance = 0 ∧
                    -EPS ≤ planeDistance pl
                      (m.vertices.getD (m.edges.getD ei default).v1 default).position ∧
                    planeDistance pl
                      (m.vertices.getD (m.edges.getD ei default).v1 default).position < EPS) ∨
                  ((m.vertices.getD (m.edges.getD ei default).v1 default).distance =
                      planeDistance pl
                        (m.vertices.getD (m.edges.getD ei default).v1 default).position ∧
                    planeDistance pl
                      (m.vertices.getD (m.edges.getD ei default).v1 default).position
                      < -EPS) := by
                rcases hsd1 with ⟨hz, hge1⟩ | ⟨hdq, hltq⟩
                · exact Or.inl ⟨hz, hge1, hlt1⟩
                · exact Or.inr ⟨hdq, hltq⟩
              have hmid := split_vertex_facts P pl
                (m.vertices.getD (m.edges.getD ei default).v0 default)
                (m.vertices.getD (m.edges.getD ei default).v1 default)
                hc0 hc1 (Or.inl ⟨hd0, hg0, hinner⟩)
              rw [if_pos (show (true : Bool) = true from rfl)]
              obtain ⟨ha, hb, hc⟩ := split_mesh_inv P pl m ei _
                { m.edges.getD ei default with v0 := m.vertices.length } hei
                ⟨hJ.1, hJ.2.1, hJ.2.2⟩ hmid hev rfl rfl
                (Or.inl rfl) (Or.inr ⟨ep1.1, hf1⟩)
              exact ⟨ha, fun _ => hb, hc⟩
          · exfalso
            apply hb2
            rw [hf0, hf1]
            rfl
        · exfalso
          have hed : m.edges.getD ei default = default := List.getD_eq_default _ _ hge
          rw [hed] at hb2 hvv2
          have hv01 : (default : PtcEdge).v1 = (default : PtcEdge).v0 := rfl
          rw [hv01] at hb2 hvv2
          cases hb : (m.vertices.getD (default : PtcEdge).v0 default).is_clipped
          · apply hvv2
            rw [hb]
            rfl
          · apply hb2
            rw [hb]
            rfl

/-- The edge-pass fold: the mid-pass invariant survives, edge and face
counts are stable, the vertex array grows, settled edges stay settled,
and every processed index ends settled. -/
theorem phase2_fold_inv (P : List Plane) (pl : Plane) : ∀ (l : List ℕ) (m : PtcMesh),
    midPassInv P pl m → (∀ x ∈ l, x < m.edges.length) →
    midPassInv P pl (l.foldl ptcClipEdge m) ∧
    (l.foldl ptcClipEdge m).edges.length = m.edges.length ∧
    (l.foldl ptcClipEdge m).faces.length = m.faces.length ∧
    m.vertices.length ≤ (l.foldl ptcClipEdge m).vertices.length ∧
    (∀ k, edgeSettled m k → edgeSettled (l.foldl ptcClipEdge m) k) ∧
    (∀ x ∈ l, edgeSettled (l.foldl ptcClipEdge m) x) := by
  intro l
  induction l with
  | nil =>
    intro m hJ _
    exact ⟨hJ, rfl, rfl, le_refl _, fun _ hk => hk,
      fun x hx => absurd hx (List.not_mem_nil x)⟩
  | cons j t ih =>
    intro m hJ hbound
    rw [List.foldl_cons]
    obtain ⟨hJ2, hset, hmono⟩ := clipEdge_inv P pl m j hJ
    obtain ⟨hv, helen, hflen, _, _⟩ := ptcClipEdge_effects m j
    obtain ⟨f1, f2, f3, f4, f5, f6⟩ := ih (ptcClipEdge m j) hJ2
      (fun x hx => by rw [helen]; exact hbound x (List.mem_cons_of_mem j hx))
    have hstep : m.vertices.length ≤ (ptcClipEdge m j).vertices.length := by
      rcases hv with h | ⟨w, _, h⟩
      · rw [h]
      · rw [h]
        simp
    refine ⟨f1, f2.trans helen, f3.trans hflen, le_trans hstep f4,
      fun k hk => f5 k (hmono k hk), ?_⟩
    intro x hx
    rcases List.mem_cons.1 hx with rfl | hxt
    · exact f5 x (hset (hbound x (List.mem_cons_self x t)))
    · exact f6 x hxt

/-- The edge pass turns the mid-pass invariant into the closure-pass
invariant: every surviving visible edge now has visible endpoints. -/
theorem phase2_exit (P : List Plane) (pl : Plane) (m1 : PtcMesh)
    (hJ : midPassInv P pl m1) :
    lastPassInv P pl (ptcPhase2 m1) ∧
    (ptcPhase2 m1).edges.length = m1.edges.length ∧
    (ptcPhase2 m1).faces.length = m1.faces.length ∧
    m1.vertices.length ≤ (ptcPhase2 m1).vertices.length := by
  unfold ptcPhase2
  obtain ⟨g1, g2, g3, g4, _, g6⟩ := phase2_fold_inv P pl (List.range m1.edges.length) m1 hJ
    (fun x hx => List.mem_range.1 hx)
  refine ⟨⟨g1.1, ?_, g1.2.2⟩, g2, g3, g4⟩
  intro ei hei hev
  have hset := g6 ei (List.mem_range.2 (by rw [← g2]; exact hei))
  rcases hset with hcl | hok
  · exact absurd hev (by rw [hcl]; exact Bool.noConfusion)
  · exact hok

/-- Swapping an occurrence counter keeps position, distance, and flag of
every slot. -/
theorem set_occurs_fields (l : List PtcVertex) (k n i : ℕ) :
    ((l.set k { l.getD k default with occurs := n }).getD i default).position =
      (l.getD i default).position ∧
    ((l.set k { l.getD k default with occurs := n }).getD i default).distance =
      (l.getD i default).distance ∧
    ((l.set k { l.getD k default with occurs := n }).getD i default).is_clipped =
      (l.getD i default).is_clipped := by
  rw [getD_set_cases]
  split
  · next h => rw [h.1]; exact ⟨rfl, rfl, rfl⟩
  · exact ⟨rfl, rfl, rfl⟩

/-- One occurrence-zeroing step only touches occurrence counters. -/
theorem ptcZeroStep_fields (m : PtcMesh) (j : ℕ) :
    (ptcZeroStep m j).edges = m.edges ∧ (ptcZeroStep m j).faces = m.faces ∧
    (ptcZeroStep m j).vertices.length = m.vertices.length ∧
    ∀ i, ((ptcZeroStep m j).vertices.getD i default).position =
        (m.vertices.getD i default).position ∧
      ((ptcZeroStep m j).vertices.getD i default).distance =
        (m.vertices.getD i default).distance ∧
      ((ptcZeroStep m j).vertices.getD i default).is_clipped =
        (m.vertices.getD i default).is_clipped := by
  refine ⟨rfl, rfl, by simp [ptcZeroStep], ?_⟩
  intro i
  simp only [ptcZeroStep]
  obtain ⟨a1, a2, a3⟩ := set_occurs_fields
    (m.vertices.set (m.edges.getD j default).v0
      { m.vertices.getD (m.edges.getD j default).v0 default with occurs := 0 })
    (m.edges.getD j default).v1 0 i
  obtain ⟨b1, b2, b3⟩ := set_occurs_fields m.vertices (m.edges.getD j default).v0 0 i
  exact ⟨a1.trans b1, a2.trans b2, a3.trans b3⟩

/-- One occurrence-counting step only touches occurrence counters. -/
theorem ptcCountStep_fields (m : PtcMesh) (j : ℕ) :
    (ptcCountStep m j).edges = m.edges ∧ (ptcCountStep m j).faces = m.faces ∧
    (ptcCountStep m j).vertices.length = m.vertices.length ∧
    ∀ i, ((ptcCountStep m j).vertices.getD i default).position =
        (m.vertices.getD i default).position ∧
      ((ptcCountStep m j).vertices.getD i default).distance =
        (m.vertices.getD i default).distance ∧
      ((ptcCountStep m j).vertices.getD i default).is_clipped =
        (m.vertices.getD i default).is_clipped := by
  refine ⟨rfl, rfl, by simp [ptcCountStep], ?_⟩
  intro i
  simp only [ptcCountStep]
  obtain ⟨a1, a2, a3⟩ := set_occurs_fields
    (m.vertices.set (m.edges.getD j default).v0
      { m.vertices.getD (m.edges.getD j default).v0 default with
          occurs := (m.vertices.getD (m.edges.getD j default).v0 default).occurs + 1 })
    (m.edges.getD j default).v1 _ i
  obtain ⟨b1, b2, b3⟩ := set_occurs_fields m.vertices (m.edges.getD j default).v0 _ i
  exact ⟨a1.trans b1, a2.trans b2, a3.trans b3⟩

/-- Folding a step that keeps edges, faces, the vertex count, and the
three read fields of every vertex keeps all of them. -/
theorem foldl_occurs_fields (step : PtcMesh → ℕ → PtcMesh)
    (hstep : ∀ (m : PtcMesh) (j : ℕ), (step m j).edges = m.edges ∧
      (step m j).faces = m.faces ∧
      (step m j).vertices.length = m.vertices.length ∧
      ∀ i, ((step m j).vertices.getD i default).position =
          (m.vertices.getD i default).position ∧
        ((step m j).vertices.getD i default).distance =
          (m.vertices.getD i default).distance ∧
        ((step m j).vertices.getD i default).is_clipped =
          (m.vertices.getD i default).is_clipped)
    (l : List ℕ) (m : PtcMesh) :
    (l.foldl step m).edges = m.edges ∧ (l.foldl step m).faces = m.faces ∧
    (l.foldl step m).vertices.length = m.vertices.length ∧
    ∀ i, ((l.foldl step m).vertices.getD i default).position =
        (m.vertices.getD i default).position ∧
      ((l.foldl step m).vertices.getD i default).distance =
        (m.vertices.getD i default).distance ∧
      ((l.foldl step m).vertices.getD i default).is_clipped =
        (m.vertices.getD i default).is_clipped := by
  induction l generalizing m with
  | nil => exact ⟨rfl, rfl, rfl, fun _ => ⟨rfl, rfl, rfl⟩⟩
  | cons j t ih =>
    rw [List.foldl_cons]
    obtain ⟨e1, e2, e3, e4⟩ := ih (step m j)
    obtain ⟨s1, s2, s3, s4⟩ := hstep m j
    exact ⟨e1.trans s1, e2.trans s2, e3.trans s3,
      fun i => ⟨(e4 i).1.trans (s4 i).1, (e4 i).2.1.trans (s4 i).2.1,
        (e4 i).2.2.trans (s4 i).2.2⟩⟩

/-- The zero-then-count occurrence recomputation keeps everything the
closure pass reads except the occurrence counters. -/
theorem occurs2_fields (m : PtcMesh) (f : PtcFace) :
    (ptcCountOccurs (ptcZeroOccurs m f) f).edges = m.edges ∧
    (ptcCountOccurs (ptcZeroOccurs m f) f).faces = m.faces ∧
    (ptcCountOccurs (ptcZeroOccurs m f) f).vertices.length = m.vertices.length ∧
    ∀ i, ((ptcCountOccurs (ptcZeroOccurs m f) f).vertices.getD i default).position =
        (m.vertices.getD i default).position ∧
      ((ptcCountOccurs (ptcZeroOccurs m f) f).vertices.getD i default).distance =
        (m.vertices.getD i default).distance ∧
      ((ptcCountOccurs (ptcZeroOccurs m f) f).vertices.getD i default).is_clipped =
        (m.vertices.getD i default).is_clipped := by
  obtain ⟨z1, z2, z3, z4⟩ := foldl_occurs_fields ptcZeroStep ptcZeroStep_fields f.edges m
  obtain ⟨c1, c2, c3, c4⟩ :=
    foldl_occurs_fields ptcCountStep ptcCountStep_fields f.edges (ptcZeroOccurs m f)
  exact ⟨c1.trans z1, c2.trans z2, c3.trans z3,
    fun i => ⟨(c4 i).1.trans (z4 i).1, (c4 i).2.1.trans (z4 i).2.1,
      (c4 i).2.2.trans (z4 i).2.2⟩⟩

/-- The closure-pass invariant transports along a state with the same
edge array, the same face array, the same vertex count, and the same
position, distance and flag in every vertex slot. -/
theorem lastPass_fields (P : List Plane) (pl : Plane) (a b : PtcMesh)
    (hE : b.edges = a.edges) (hFa : b.faces = a.faces)
    (hlen : b.vertices.length = a.vertices.length)
    (hf : ∀ i, (b.vertices.getD i default).position = (a.vertices.getD i default).position ∧
      (b.vertices.getD i default).distance = (a.vertices.getD i default).distance ∧
      (b.vertices.getD i default).is_clipped = (a.vertices.getD i default).is_clipped)
    (hL : lastPassInv P pl a) : lastPassInv P pl b := by
  obtain ⟨hV, hGE, hGF⟩ := hL
  refine ⟨?_, ?_, ?_⟩
  · intro i hi hflag
    rw [hlen] at hi
    rw [(hf i).2.2] at hflag
    obtain ⟨c1, c2, c3⟩ := hV i hi hflag
    rw [(hf i).1]
    refine ⟨c1, c2, ?_⟩
    rw [(hf i).2.1]
    exact c3
  · intro ei hei hev
    rw [hE] at hei hev ⊢
    obtain ⟨r0, r1, r2, r3⟩ := hGE ei hei hev
    rw [hlen, (hf _).2.2, (hf _).2.2]
    exact ⟨r0, r1, r2, r3⟩
  · intro g hg hgvis
    rw [hFa] at hg hgvis ⊢
    obtain ⟨hent, hcnt⟩ := hGF g hg hgvis
    refine ⟨?_, ?_⟩
    · intro j hj
      obtain ⟨hr, hv⟩ := hent j hj
      rw [hE]
      exact ⟨hr, hv⟩
    · intro j
      rw [slotMatches_congr a b hE]
      exact hcnt j

/-- Folding the endpoint scan from `none` stays `none`. -/
theorem scan_none (m : PtcMesh) : ∀ l : List ℕ, l.foldl (ptcScanStep m) none = none := by
  intro l
  induction l with
  | nil => rfl
  | cons j t ih =>
    rw [List.foldl_cons]
    exact ih

/-- One endpoint-scan step either keeps the slot list or appends one
endpoint of the scanned edge. -/
theorem scanStep_some (m : PtcMesh) (s0 s1 : List ℕ) (j : ℕ)
    (h : ptcScanStep m (some s0) j = some s1) :
    s1 = s0 ∨ ∃ p, s1 = s0 ++ [p] ∧
      (p = (m.edges.getD j default).v0 ∨ p = (m.edges.getD j default).v1) := by
  have hstep : ptcScanStep m (some s0) j =
      (match (if (m.vertices.getD (m.edges.getD j default).v1 default).occurs = 1
          then some (m.edges.getD j default).v1
          else if (m.vertices.getD (m.edges.getD j default).v0 default).occurs = 1
          then some (m.edges.getD j default).v0 else none : Option ℕ) with
        | none => some s0
        | some p => if s0.length < 2 then some (s0 ++ [p]) else none) := rfl
  rw [hstep] at h
  revert h
  split
  · intro h
    exact Or.inl (Option.some.inj h).symm
  · next p hp =>
    split
    · intro h
      refine Or.inr ⟨p, (Option.some.inj h).symm, ?_⟩
      revert hp
      split
      · intro hp
        exact Or.inr (Option.some.inj hp).symm
      · split
        · intro hp
          exact Or.inl (Option.some.inj hp).symm
        · intro hp
          exact Option.noConfusion hp
    · intro h
      exact Option.noConfusion h

/-- Every slot recorded by the endpoint scan is an endpoint of a scanned
edge (or came in with the accumulator). -/
theorem scan_mem (m : PtcMesh) : ∀ (l : List ℕ) (s0 slots : List ℕ),
    l.foldl (ptcScanStep m) (some s0) = some slots →
    ∀ x ∈ slots, x ∈ s0 ∨ ∃ j ∈ l, x = (m.edges.getD j default).v0 ∨
      x = (m.edges.getD j default).v1 := by
  intro l
  induction l with
  | nil =>
    intro s0 slots h x hx
    rw [List.foldl_nil] at h
    cases h
    exact Or.inl hx
  | cons j t ih =>
    intro s0 slots h x hx
    rw [List.foldl_cons] at h
    rcases hs1 : ptcScanStep m (some s0) j with _ | s1
    · rw [hs1, scan_none] at h
      exact Option.noConfusion h
    · rw [hs1] at h
      rcases ih s1 slots h x hx with hx1 | ⟨j2, hj2, hor⟩
      · rcases scanStep_some m s0 s1 j hs1 with rfl | ⟨p, rfl, hpor⟩
        · exact Or.inl hx1
        · rcases List.mem_append.1 hx1 with hxs | hxp
          · exact Or.inl hxs
          · right
            refine ⟨j, List.mem_cons_self j t, ?_⟩
            rw [List.mem_singleton.1 hxp]
            exact hpor
      · exact Or.inr ⟨j2, List.mem_cons_of_mem j hj2, hor⟩

/-- `ptc__add_face_edge` on an edge with a free first face slot, written
out as explicit array updates. -/
theorem addFaceEdge_eq_f0 (m : PtcMesh) (g : ℕ) (ei : ℕ)
    (hf0 : (m.edges.getD ei default).f0 = -1) :
    ptcAddFaceEdge m (g : ℤ) ei =
      { vertices := m.vertices,
        edges := m.edges.set ei { m.edges.getD ei default with f0 := (g : ℤ) },
        faces := m.faces.set g { m.faces.getD g default with
          edges := (m.faces.getD g default).edges ++ [ei] } } := by
  have h0 : ¬((g : ℤ) < 0) := not_lt.2 (Int.natCast_nonneg g)
  simp only [ptcAddFaceEdge, Int.toNat_natCast, if_neg h0]
  rw [if_pos hf0]

/-- `ptc__add_face_edge` on an edge whose first face slot is taken and
whose second is free, written out as explicit array updates. -/
theorem addFaceEdge_eq_f1 (m : PtcMesh) (g : ℕ) (ei : ℕ)
    (hf0 : ¬(m.edges.getD ei default).f0 = -1)
    (hf1 : (m.edges.getD ei default).f1 = -1) :
    ptcAddFaceEdge m (g : ℤ) ei =
      { vertices := m.vertices,
        edges := m.edges.set ei { m.edges.getD ei default with f1 := (g : ℤ) },
        faces := m.faces.set g { m.faces.getD g default with
          edges := (m.faces.getD g default).edges ++ [ei] } } := by
  have h0 : ¬((g : ℤ) < 0) := not_lt.2 (Int.natCast_nonneg g)
  simp only [ptcAddFaceEdge, Int.toNat_natCast, if_neg h0]
  rw [if_neg hf0, if_pos hf1]

/-- The closure-edge wiring, record by record: the appended edge carries
the two wired faces, old edge records are untouched, and each face list
gains the new index once per face slot naming it. -/
theorem chain_facts (m2 : PtcMesh) (p q : ℕ) (fi capIdx : ℕ) :
    (ptcAddFaceEdge (ptcAddFaceEdge (ptcAddEdge m2 p q) (fi : ℤ) m2.edges.length)
        (capIdx : ℤ) m2.edges.length).edges.getD m2.edges.length default =
      ⟨p, q, (fi : ℤ), (capIdx : ℤ), false⟩ ∧
    (∀ i, i < m2.edges.length →
      (ptcAddFaceEdge (ptcAddFaceEdge (ptcAddEdge m2 p q) (fi : ℤ) m2.edges.length)
          (capIdx : ℤ) m2.edges.length).edges.getD i default = m2.edges.getD i default) ∧
    (∀ g, g < m2.faces.length →
      ((ptcAddFaceEdge (ptcAddFaceEdge (ptcAddEdge m2 p q) (fi : ℤ) m2.edges.length)
          (capIdx : ℤ) m2.edges.length).faces.getD g default).edges =
        (m2.faces.getD g default).edges ++
          (if fi = g then [m2.edges.length] else []) ++
          (if capIdx = g then [m2.edges.length] else [])) := by
  have hE3 : (ptcAddEdge m2 p q).edges.getD m2.edges.length default =
      (⟨p, q, -1, -1, false⟩ : PtcEdge) := by
    show ((m2.edges ++ [(⟨p, q, -1, -1, false⟩ : PtcEdge)]).getD m2.edges.length default) = _
    rw [List.getD_append_right _ _ _ _ (le_refl _), Nat.sub_self]
    rfl
  have hlen3 : (ptcAddEdge m2 p q).edges.length = m2.edges.length + 1 := by
    simp [ptcAddEdge]
  have h4 := addFaceEdge_eq_f0 (ptcAddEdge m2 p q) fi m2.edges.length (by rw [hE3])
  have hE4 : (ptcAddFaceEdge (ptcAddEdge m2 p q) (fi : ℤ) m2.edges.length).edges.getD
      m2.edges.length default = (⟨p, q, (fi : ℤ), -1, false⟩ : PtcEdge) := by
    rw [h4]
    simp only [getD_set_cases]
    rw [if_pos ⟨trivial, by rw [hlen3]; omega⟩, hE3]
  have h5 := addFaceEdge_eq_f1 (ptcAddFaceEdge (ptcAddEdge m2 p q) (fi : ℤ) m2.edges.length)
    capIdx m2.edges.length (by rw [hE4]; show ¬(fi : ℤ) = -1; omega) (by rw [hE4])
  have hlen4 : (ptcAddFaceEdge (ptcAddEdge m2 p q) (fi : ℤ) m2.edges.length).edges.length =
      m2.edges.length + 1 := by
    rw [h4]
    show ((ptcAddEdge m2 p q).edges.set _ _).length = _
    rw [List.length_set, hlen3]
  refine ⟨?_, ?_, ?_⟩
  · rw [h5]
    simp only [getD_set_cases]
    rw [if_pos ⟨trivial, by rw [hlen4]; omega⟩, hE4]
  · intro i hi
    rw [h5]
    simp only [getD_set_cases]
    rw [if_neg (fun hc => by omega : ¬(m2.edges.length = i ∧
      i < (ptcAddFaceEdge (ptcAddEdge m2 p q) (fi : ℤ) m2.edges.length).edges.length))]
    rw [h4]
    simp only [getD_set_cases]
    rw [if_neg (fun hc => by omega : ¬(m2.edges.length = i ∧
      i < (ptcAddEdge m2 p q).edges.length))]
    exact List.getD_append _ _ _ _ hi
  · intro g hg
    have hF3 : (ptcAddEdge m2 p q).faces = m2.faces := rfl
    rw [h5, h4]
    by_cases hcg : capIdx = g <;> by_cases hfg : fi = g
    · simp [hF3, getD_set_cases, hcg, hfg, hg]
    · simp [hF3, getD_set_cases, hcg, hfg, hg]
    · simp [hF3, getD_set_cases, hcg, hfg, hg]
    · simp [hF3, getD_set_cases, hcg, hfg, hg]

/-- Appending the (empty, visible) cap face preserves the closure-pass
invariant. -/
theorem addFace_lastPass (P : List Plane) (pl : Plane) (m : PtcMesh) (n : Vec3)
    (hL : lastPassInv P pl m) : lastPassInv P pl (ptcAddFace m n) := by
  obtain ⟨hV, hGE, hGF⟩ := hL
  obtain ⟨a1, a2, a3, a4, a5⟩ := ptcAddFace_effects m n
  refine ⟨vertMid_congr P pl m _ a1 hV, ?_, ?_⟩
  · intro ei hei hev
    rw [a2] at hei hev ⊢
    rw [a1]
    exact hGE ei hei hev
  · intro g hg hgvis
    rw [a3] at hg
    rcases Nat.lt_or_ge g m.faces.length with hlt | hge
    · rw [a4 g hlt] at hgvis ⊢
      obtain ⟨hent, hcnt⟩ := hGF g hlt hgvis
      refine ⟨?_, ?_⟩
      · intro j hj
        rw [a2]
        exact hent j hj
      · intro j
        rw [slotMatches_congr m (ptcAddFace m n) a2]
        exact hcnt j
    · have hgeq : g = m.faces.length := by omega
      subst hgeq
      have hgd : (ptcAddFace m n).faces.getD m.faces.length default =
          (⟨[], n, false⟩ : PtcFace) := by
        show ((m.faces ++ [(⟨[], n, false⟩ : PtcFace)]).getD m.faces.length default) = _
        rw [List.getD_append_right _ _ _ _ (le_refl _), Nat.sub_self]
        rfl
      rw [hgd]
      refine ⟨?_, ?_⟩
      · intro j hj
        exact absurd hj (List.not_mem_nil j)
      · intro j
        exact Nat.zero_le _

/-- Wiring a closure edge between two visible in-range vertices preserves
the closure-pass invariant. -/
theorem addChain_lastPass (P : List Plane) (pl : Plane) (m2 : PtcMesh) (p q fi capIdx : ℕ)
    (hL : lastPassInv P pl m2)
    (hp : p < m2.vertices.length ∧ (m2.vertices.getD p default).is_clipped = false)
    (hq : q < m2.vertices.length ∧ (m2.vertices.getD q default).is_clipped = false) :
    lastPassInv P pl (ptcAddFaceEdge (ptcAddFaceEdge (ptcAddEdge m2 p q) (fi : ℤ)
      m2.edges.length) (capIdx : ℤ) m2.edges.length) := by
  obtain ⟨hV, hGE, hGF⟩ := hL
  obtain ⟨c1, c2, c3⟩ := chain_facts m2 p q fi capIdx
  obtain ⟨k1, k2, k3, k4, k5, k6⟩ :=
    ptcAddChain_effects m2 p q (fi : ℤ) (capIdx : ℤ) m2.edges.length
  refine ⟨vertMid_congr P pl m2 _ k1 hV, ?_, ?_⟩
  · intro ei hei hev
    rw [k4] at hei
    rcases Nat.lt_or_ge ei m2.edges.length with hlt | hge
    · rw [c2 ei hlt] at hev ⊢
      rw [k1]
      exact hGE ei hlt hev
    · have heq : ei = m2.edges.length := by omega
      subst heq
      rw [c1, k1]
      exact ⟨hp.1, hq.1, hp.2, hq.2⟩
  · intro g hg hgvis
    rw [k2] at hg
    rw [k3 g] at hgvis
    obtain ⟨hent, hcnt⟩ := hGF g hg hgvis
    rw [c3 g hg]
    refine ⟨?_, ?_⟩
    · intro j hj
      rcases List.mem_append.1 hj with hj1 | hj2
      · rcases List.mem_append.1 hj1 with hj0 | hjf
        · obtain ⟨hjr, hjv⟩ := hent j hj0
          refine ⟨by rw [k4]; omega, ?_⟩
          rw [c2 j hjr]
          exact hjv
        · have hjei : j = m2.edges.length := by
            revert hjf
            split
            · intro hjf
              exact List.mem_singleton.1 hjf
            · intro hjf
              exact absurd hjf (List.not_mem_nil j)
          subst hjei
          refine ⟨by rw [k4]; omega, ?_⟩
          rw [c1]
      · have hjei : j = m2.edges.length := by
          revert hj2
          split
          · intro hjf
            exact List.mem_singleton.1 hjf
          · intro hjf
            exact absurd hjf (List.not_mem_nil j)
        subst hjei
        refine ⟨by rw [k4]; omega, ?_⟩
        rw [c1]
    · intro j
      rw [List.count_append, List.count_append]
      rcases Nat.lt_or_ge j m2.edges.length with hlt | hge
      · have hsm : slotMatches (ptcAddFaceEdge (ptcAddFaceEdge (ptcAddEdge m2 p q) (fi : ℤ)
            m2.edges.length) (capIdx : ℤ) m2.edges.length) j g = slotMatches m2 j g := by
          unfold slotMatches
          rw [c2 j hlt]
        have hcA : List.count j (if fi = g then [m2.edges.length] else []) = 0 := by
          split
          · exact List.count_eq_zero.2 (fun hmem => by
              have := List.mem_singleton.1 hmem
              omega)
          · rfl
        have hcB : List.count j (if capIdx = g then [m2.edges.length] else []) = 0 := by
          split
          · exact List.count_eq_zero.2 (fun hmem => by
              have := List.mem_singleton.1 hmem
              omega)
          · rfl
        rw [hsm, hcA, hcB]
        have := hcnt j
        omega
      · have hc0 : List.count j (m2.faces.getD g default).edges = 0 :=
          List.count_eq_zero.2 (fun hmem => absurd (hent j hmem).1 (by omega))
        rcases Nat.lt_or_ge m2.edges.length j with hgt | hle2
        · have hcA : List.count j (if fi = g then [m2.edges.length] else []) = 0 := by
            split
            · exact List.count_eq_zero.2 (fun hmem => by
                have := List.mem_singleton.1 hmem
                omega)
            · rfl
          have hcB : List.count j (if capIdx = g then [m2.edges.length] else []) = 0 := by
            split
            · exact List.count_eq_zero.2 (fun hmem => by
                have := List.mem_singleton.1 hmem
                omega)
            · rfl
          rw [hc0, hcA, hcB]
          exact Nat.zero_le _
        · have heq : j = m2.edges.length := by omega
          subst heq
          have hcs : List.count m2.edges.length [m2.edges.length] = 1 := by simp
          by_cases hfg : fi = g <;> by_cases hcg : capIdx = g
          · have hsm : slotMatches (ptcAddFaceEdge (ptcAddFaceEdge (ptcAddEdge m2 p q) (fi : ℤ)
                m2.edges.length) (capIdx : ℤ) m2.edges.length) m2.edges.length g = 2 := by
              unfold slotMatches
              rw [c1]
              show (if (fi : ℤ) = (g : ℤ) then 1 else 0) +
                (if (capIdx : ℤ) = (g : ℤ) then 1 else 0) = 2
              rw [if_pos (by exact_mod_cast hfg), if_pos (by exact_mod_cast hcg)]
            rw [if_pos hfg, if_pos hcg, hc0, hcs, hsm]
          · have hsm : slotMatches (ptcAddFaceEdge (ptcAddFaceEdge (ptcAddEdge m2 p q) (fi : ℤ)
                m2.edges.length) (capIdx : ℤ) m2.edges.length) m2.edges.length g = 1 := by
              unfold slotMatches
              rw [c1]
              show (if (fi : ℤ) = (g : ℤ) then 1 else 0) +
                (if (capIdx : ℤ) = (g : ℤ) then 1 else 0) = 1
              rw [if_pos (by exact_mod_cast hfg),
                if_neg (fun hc => hcg (by exact_mod_cast hc))]
            rw [if_pos hfg, if_neg hcg, hc0, hcs, hsm]
            simp
          · have hsm : slotMatches (ptcAddFaceEdge (ptcAddFaceEdge (ptcAddEdge m2 p q) (fi : ℤ)
                m2.edges.length) (capIdx : ℤ) m2.edges.length) m2.edges.length g = 1 := by
              unfold slotMatches
              rw [c1]
              show (if (fi : ℤ) = (g : ℤ) then 1 else 0) +
                (if (capIdx : ℤ) = (g : ℤ) then 1 else 0) = 1
              rw [if_neg (fun hc => hfg (by exact_mod_cast hc)),
                if_pos (by exact_mod_cast hcg)]
            rw [if_neg hfg, if_pos hcg, hc0, hcs, hsm]
            simp
          · rw [if_neg hfg, if_neg hcg, hc0]
            simp

/-- One face-closure iteration preserves the closure-pass invariant. -/
theorem processFace_inv (P : List Plane) (pl : Plane) (capIdx : ℕ) (m : PtcMesh) (fi : ℕ)
    (m' : PtcMesh) (h : ptcProcessFace capIdx m fi = some m')
    (hL : lastPassInv P pl m) : lastPassInv P pl m' := by
  simp only [ptcProcessFace] at h
  split at h
  · cases h
    exact hL
  · next hvis =>
    have hvis' : (m.faces.getD fi default).is_clipped = false := by
      revert hvis
      cases (m.faces.getD fi default).is_clipped <;> simp
    have hocc := occurs2_fields m (m.faces.getD fi default)
    have hL2 : lastPassInv P pl
        (ptcCountOccurs (ptcZeroOccurs m (m.faces.getD fi default))
          (m.faces.getD fi default)) :=
      lastPass_fields P pl m _ hocc.1 hocc.2.1 hocc.2.2.1 hocc.2.2.2 hL
    split at h
    · exact Option.noConfusion h
    · next slots hscan =>
      split at h
      · next p q =>
        cases h
        by_cases hfi : fi < m.faces.length
        · simp only [ptcFindEndpoints] at hscan
          have hmem := scan_mem _ (m.faces.getD fi default).edges [] [p, q] hscan
          obtain ⟨hent, _⟩ := hL2.2.2 fi (by rw [hocc.2.1]; exact hfi)
            (by rw [hocc.2.1]; exact hvis')
          have hpgood : p < (ptcCountOccurs (ptcZeroOccurs m (m.faces.getD fi default))
              (m.faces.getD fi default)).vertices.length ∧
              ((ptcCountOccurs (ptcZeroOccurs m (m.faces.getD fi default))
                (m.faces.getD fi default)).vertices.getD p default).is_clipped = false := by
            rcases hmem p (by simp) with hin | ⟨j, hjmem, hor⟩
            · exact absurd hin (List.not_mem_nil p)
            · obtain ⟨hjr, hjv⟩ := hent j (by rw [hocc.2.1]; exact hjmem)
              have hge2 := hL2.2.1 j hjr hjv
              rcases hor with h0 | h1
              · rw [h0]
                exact ⟨hge2.1, hge2.2.2.1⟩
              · rw [h1]
                exact ⟨hge2.2.1, hge2.2.2.2⟩
          have hqgood : q < (ptcCountOccurs (ptcZeroOccurs m (m.faces.getD fi default))
              (m.faces.getD fi default)).vertices.length ∧
              ((ptcCountOccurs (ptcZeroOccurs m (m.faces.getD fi default))
                (m.faces.getD fi default)).vertices.getD q default).is_clipped = false := by
            rcases hmem q (by simp) with hin | ⟨j, hjmem, hor⟩
            · exact absurd hin (List.not_mem_nil q)
            · obtain ⟨hjr, hjv⟩ := hent j (by rw [hocc.2.1]; exact hjmem)
              have hge2 := hL2.2.1 j hjr hjv
              rcases hor with h0 | h1
              · rw [h0]
                exact ⟨hge2.1, hge2.2.2.1⟩
              · rw [h1]
                exact ⟨hge2.2.1, hge2.2.2.2⟩
          exact addChain_lastPass P pl _ p q fi capIdx hL2 hpgood hqgood
        · exfalso
          have hfd : m.faces.getD fi default = default :=
            List.getD_eq_default _ _ (Nat.le_of_not_lt hfi)
          rw [hfd] at hscan
          have h2 : (some [] : Option (List ℕ)) = some [p, q] := hscan
          simp at h2
      · cases h
        exact hL2

/-- The face-closure fold preserves the closure-pass invariant. -/
theorem phase3_fold (P : List Plane) (pl : Plane) (capIdx : ℕ) :
    ∀ (l : List ℕ) (m m' : PtcMesh),
    l.foldl (fun acc fi => acc.bind fun mm => ptcProcessFace capIdx mm fi) (some m)
      = some m' →
    lastPassInv P pl m → lastPassInv P pl m' := by
  intro l
  induction l with
  | nil =>
    intro m m' h hL
    rw [List.foldl_nil] at h
    cases h
    exact hL
  | cons j t ih =>
    intro m m' h hL
    rw [List.foldl_cons] at h
    rw [show ((some m).bind fun mm => ptcProcessFace capIdx mm j)
      = ptcProcessFace capIdx m j from rfl] at h
    cases hstep : ptcProcessFace capIdx m j with
    | none =>
      rw [hstep, foldl_face_none] at h
      exact Option.noConfusion h
    | some mm =>
      rw [hstep] at h
      exact ih mm m' h (processFace_inv P pl capIdx m j mm hstep hL)

/-- A successful `ptc_clip` call carries the containment invariant from
the processed plane list `P` to `P ++ [pl]`. -/
theorem ptcClip_psi (P : List Plane) (pl : Plane) (m m' : PtcMesh) (hpsi : PsiInv P m)
    (h : ptcClip m pl = some m') : PsiInv (P ++ [pl]) m' := by
  obtain ⟨hvc, hbranch⟩ := hpsi
  simp only [ptcClip] at h
  split at h
  · next hcond =>
    cases h
    rcases hcond with hz | ht
    · refine ⟨?_, ?_⟩
      · intro i hi hflag
        rw [phase1_len] at hi
        rw [phase1_getD m pl i hi] at hflag ⊢
        obtain ⟨hold, hd⟩ := classify_flag_of pl _ hflag
        rw [classify_pos]
        intro pl2 hpl2
        rcases List.mem_append.1 hpl2 with hin | hsing
        · exact hvc i hi hold pl2 hin
        · rw [List.mem_singleton.1 hsing]
          exact le_of_lt hd
      · rcases hbranch with hnv | hgood
        · left
          intro i hi
          rw [phase1_len] at hi
          rw [(countClipped_zero_facts m pl hz i hi).2]
          exact hnv i hi
        · right
          refine ⟨?_, hgood.2⟩
          intro ei hei hev
          obtain ⟨r0, r1, r2, r3⟩ := hgood.1 ei hei hev
          refine ⟨by rw [phase1_len]; exact r0, by rw [phase1_len]; exact r1, ?_, ?_⟩
          · show ((ptcPhase1 m pl).vertices.getD (m.edges.getD ei default).v0
              default).is_clipped = false
            rw [(countClipped_zero_facts m pl hz _ r0).2]
            exact r2
          · show ((ptcPhase1 m pl).vertices.getD (m.edges.getD ei default).v1
              default).is_clipped = false
            rw [(countClipped_zero_facts m pl hz _ r1).2]
            exact r3
    · have hnv := countClipped_total_noVis m pl ht
      refine ⟨?_, Or.inl hnv⟩
      intro i hi hflag
      exact absurd hflag (by rw [hnv i hi]; exact Bool.noConfusion)
  · next hcond =>
    have hgood : ptcGood m := by
      rcases hbranch with hnv | hgood
      · exfalso
        apply hcond
        left
        rw [ptcCountClipped, List.length_eq_zero, List.filter_eq_nil_iff]
        intro x hx
        obtain ⟨i, hi, rfl⟩ := List.mem_iff_getElem.1 hx
        have hcl := hnv i hi
        rw [List.getD_eq_getElem _ _ hi] at hcl
        simp [hcl]
      · exact hgood
    have hmid := phase1_midPass P pl m hvc hgood
    obtain ⟨hlast, _, _, _⟩ := phase2_exit P pl (ptcPhase1 m pl) hmid
    have hlast2 := addFace_lastPass P pl (ptcPhase2 (ptcPhase1 m pl)) pl.normal hlast
    have hlast3 := phase3_fold P pl (ptcPhase2 (ptcPhase1 m pl)).faces.length
      (List.range (ptcAddFace (ptcPhase2 (ptcPhase1 m pl)) pl.normal).faces.length)
      (ptcAddFace (ptcPhase2 (ptcPhase1 m pl)) pl.normal) m' h hlast2
    obtain ⟨hV, hGE, hGF⟩ := hlast3
    refine ⟨?_, Or.inr ⟨hGE, hGF⟩⟩
    intro i hi hflag
    obtain ⟨hc1, hc2, _⟩ := hV i hi hflag
    intro pl2 hpl2
    rcases List.mem_append.1 hpl2 with hin | hsing
    · exact hc1 pl2 hin
    · rw [List.mem_singleton.1 hsing]
      exact le_of_lt hc2

/-- The containment invariant composes over a whole plane list. -/
theorem ptcClipAll_psi : ∀ (pls : List Plane) (P : List Plane) (m m' : PtcMesh),
    ptcClipAll m pls = some m' → PsiInv P m → PsiInv (P ++ pls) m' := by
  intro pls
  induction pls with
  | nil =>
    intro P m m' h hP
    rw [ptcClipAll, List.foldl_nil] at h
    cases h
    rw [List.append_nil]
    exact hP
  | cons pl t ih =>
    intro P m m' h hP
    rw [ptcClipAll, List.foldl_cons] at h
    rw [show ((some m).bind fun mm => ptcClip mm pl) = ptcClip m pl from rfl] at h
    cases hstep : ptcClip m pl with
    | none =>
      rw [hstep, foldl_clip_none] at h
      exact Option.noConfusion h
    | some mm =>
      rw [hstep] at h
      have h3 := ih (P ++ [pl]) mm m' (by rw [ptcClipAll]; exact h)
        (ptcClip_psi P pl m mm hP hstep)
      rw [List.append_assoc, List.singleton_append] at h3
      exact h3

/-- A multiplicity bound over a face list needs checking only at its
members. -/
theorem count_le_slot_of_mem (m : PtcMesh) (L : List ℕ) (g : ℕ)
    (h : ∀ j ∈ L, List.count j L ≤ slotMatches m j g) :
    ∀ j, List.count j L ≤ slotMatches m j g := by
  intro j
  by_cases hj : j ∈ L
  · exact h j hj
  · rw [List.count_eq_zero.2 hj]
    exact Nat.zero_le _

/-- Every vertex slot of a seed cube is visible (in range by the literal
flags, beyond it by the default). -/
theorem initBounds_flag (lo hi : Vec3) (k : ℕ) :
    ((ptcInitBounds lo hi).vertices.getD k default).is_clipped = false := by
  rcases Nat.lt_or_ge k 8 with h | h
  · interval_cases k <;> rfl
  · rw [List.getD_eq_default _ _ h]
    rfl

/-- `ptcGoodE` transports along equal edges, vertex count, and vertex
flags. -/
theorem goodE_transfer (a b : PtcMesh) (hE : b.edges = a.edges)
    (hlen : b.vertices.length = a.vertices.length)
    (hfl : ∀ k, (b.vertices.getD k default).is_clipped =
      (a.vertices.getD k default).is_clipped)
    (h : ptcGoodE a) : ptcGoodE b := by
  intro ei hei hev
  rw [hE] at hei hev ⊢
  obtain ⟨r0, r1, r2, r3⟩ := h ei hei hev
  rw [hlen, hfl _, hfl _]
  exact ⟨r0, r1, r2, r3⟩

/-- `ptcGoodF` transports along equal edge and face arrays. -/
theorem goodF_transfer (a b : PtcMesh) (hE : b.edges = a.edges) (hF : b.faces = a.faces)
    (h : ptcGoodF a) : ptcGoodF b := by
  intro fi hfi hvis
  rw [hF] at hfi hvis ⊢
  obtain ⟨h1, h2⟩ := h fi hfi hvis
  refine ⟨?_, ?_⟩
  · intro j hj
    rw [hE]
    exact h1 j hj
  · intro j
    rw [slotMatches_congr a b hE]
    exact h2 j

/-- The concrete seed cube satisfies I1. -/
theorem seedW1_goodE : ptcGoodE seedW1 := by
  intro ei hei hev
  have h12 : ei < 12 := hei
  interval_cases ei <;> exact ⟨by decide, by decide, rfl, rfl⟩

/-- The concrete seed cube satisfies the listing invariant. -/
theorem seedW1_goodF : ptcGoodF seedW1 := by
  intro fi hfi hfvis
  have h6 : fi < 6 := hfi
  interval_cases fi <;>
    exact ⟨by decide, count_le_slot_of_mem _ _ _ (by decide)⟩

/-- The seed cube of `ptc_init_bounds` enters the pipeline with the
containment invariant for the empty plane list, whatever its bounds
(its wiring and flags do not depend on them). -/
theorem initBounds_psi (lo hi : Vec3) : PsiInv [] (ptcInitBounds lo hi) := by
  refine ⟨?_, Or.inr ⟨?_, ?_⟩⟩
  · intro i hi2 hflag pl2 hpl2
    exact absurd hpl2 (List.not_mem_nil pl2)
  · exact goodE_transfer seedW1 (ptcInitBounds lo hi) rfl rfl
      (fun k => (initBounds_flag lo hi k).trans
        (initBounds_flag ⟨-1, -1, -1⟩ ⟨1, 1, 1⟩ k).symm)
      seedW1_goodE
  · exact goodF_transfer seedW1 (ptcInitBounds lo hi) rfl rfl seedW1_goodF

/-- C4: every vertex surviving the whole clipping pipeline on a seed box
lies on the kept side of every processed plane within `EPS = 1/100`
(`n·p − c ≤ +ε`).  The compactors emit exactly the visible vertices with
their positions copied unchanged, so the bound carries over to every
output vertex position of the compacted B-rep. -/
theorem brush_containment (lo hi : Vec3) (pls : List Plane) (m' : PtcMesh)
    (h : ptcClipAll (ptcInitBounds lo hi) pls = some m')
    (i : ℕ) (hi2 : i < m'.vertices.length)
    (hvis : (m'.vertices.getD i default).is_clipped = false)
    (pl : Plane) (hpl : pl ∈ pls) :
    planeDistance pl ((m'.vertices.getD i default).position) ≤ EPS := by
  have hpsi := ptcClipAll_psi pls [] (ptcInitBounds lo hi) m' h (initBounds_psi lo hi)
  exact hpsi.1 i hi2 hvis pl hpl

/-- Witness for C4: the half-extent-1 seed cube clipped by `x = 0`;
vertex 0 survives at `(-1, -1, -1)` and its distance to the plane is
`-1 ≤ EPS`. -/
theorem brush_containment_witness :
    ptcClipAll (ptcInitBounds ⟨-1, -1, -1⟩ ⟨1, 1, 1⟩) [plCutP] = some ptcCutState ∧
    0 < ptcCutState.vertices.length ∧
    (ptcCutState.vertices.getD 0 default).is_clipped = false ∧
    plCutP ∈ [plCutP] ∧
    planeDistance plCutP ((ptcCutState.vertices.getD 0 default).position) ≤ EPS := by
  have h1 : ptcClipAll (ptcInitBounds ⟨-1, -1, -1⟩ ⟨1, 1, 1⟩) [plCutP] = some ptcCutState :=
    of_decide_eq_true (by with_unfolding_all rfl)
  refine ⟨h1, of_decide_eq_true (by with_unfolding_all rfl),
    of_decide_eq_true (by with_unfolding_all rfl), List.mem_singleton.2 rfl,
    brush_containment ⟨-1, -1, -1⟩ ⟨1, 1, 1⟩ [plCutP] ptcCutState h1 0
      (of_decide_eq_true (by with_unfolding_all rfl))
      (of_decide_eq_true (by with_unfolding_all rfl))
      plCutP (List.mem_singleton.2 rfl)⟩

/-- Witness for C8: the second loop vertex of a concrete two-vertex loop
over `emitFaceW`. -/
theorem mesh_vertex_emission_witness :
    1 < psW.length ∧
    (emitLoop emitFaceW psW).uvs.getD (2 * 1) 0 =
      dot (psW.getD 1 default) emitFaceW.uRow * emitFaceW.uvScale0 + emitFaceW.uvOffset0 ∧
    (emitLoop emitFaceW psW).positions.getD (3 * 1) 0 = roundToInt (psW.getD 1 default).x ∧
    (emitLoop emitFaceW psW).tangents.getD (4 * 1 + 3) 0 = 0 := by
  refine ⟨by decide, ?_, ?_, ?_⟩
  · exact (mesh_vertex_emission emitFaceW psW 1 (by decide)).2.1.1
  · exact (mesh_vertex_emission emitFaceW psW 1 (by decide)).1.1
  · exact (mesh_vertex_emission emitFaceW psW 1 (by decide)).2.2.2.1.2.2.2

end PtClip
